import Mathlib

set_option maxHeartbeats 1000000
set_option maxRecDepth 4000

/-!
Verification development for the jip send pipeline.

The definitions below are shallow embeddings of the Go sources:
* `internal/jj/bookmark.go` (sync states, bookmark model, bookmark assignment,
  change graph construction and topological sort),
* `internal/github/prbody.go` (PR body and interdiff comment rendering),
* the `send` command implementation (skip classification, per-change stack
  computation, the `executeSend` pipeline).

Go maps are modelled as association lists or as total functions with the Go
zero value as default; Go `int` is modelled as `Int`; fallible operations
return `Except String`; external processes (the jj driver) and the GitHub
client are modelled as oracles whose invocations are recorded in a trace.
-/

namespace Jip

/-! ## Bookmark model (internal/jj/bookmark.go) -/

/-- Sync state of a local bookmark relative to a remote. Constructor order
matches the Go `iota` block, `unknown` first (the Go zero value). -/
inductive SyncState where
  | unknown
  | inSync
  | ahead
  | behind
  | diverged
  | localOnly
  | remoteOnly
deriving DecidableEq, Repr, Inhabited

/-- State of a bookmark on a specific remote (`RemoteBookmarkState`). -/
structure RemoteBookmarkState where
  target : String
  tracked : Bool
  ahead : Int
  behind : Int
deriving DecidableEq, Repr, Inhabited

/-- Aggregated local and remote state of a named bookmark (`BookmarkInfo`).
The Go `Remotes` map is modelled as an association list keyed by remote name. -/
structure BookmarkInfo where
  name : String
  target : String
  changeID : String
  present : Bool
  conflict : Bool
  remotes : List (String × RemoteBookmarkState)
deriving DecidableEq, Repr, Inhabited

/-- Model of `(*BookmarkInfo).SyncWith`: the sync state of a bookmark relative
to the given remote, evaluated exactly in the source's order of checks. -/
def SyncWith (b : BookmarkInfo) (remote : String) : SyncState :=
  if b.conflict then .diverged
  else
    match b.remotes.lookup remote with
    | none => if b.present then .localOnly else .unknown
    | some rs =>
      if !b.present then .remoteOnly
      else if rs.ahead > 0 && rs.behind > 0 then .diverged
      else if rs.behind > 0 then .ahead
      else if rs.ahead > 0 then .behind
      else .inSync

/-! ## Bookmark name generation (internal/jj/bookmark.go) -/

/-- Character class `[a-z0-9]` of the Go regexp `nonAlnumRe` (complemented
there). -/
def isSlugAlnum (c : Char) : Bool := ('a' ≤ c && c ≤ 'z') || ('0' ≤ c && c ≤ '9')

/-- Character class `[a-zA-Z]` at the start of `conventionalPrefixRe`. -/
def isAsciiLetter (c : Char) : Bool := ('a' ≤ c && c ≤ 'z') || ('A' ≤ c && c ≤ 'Z')

/-- The Go regexp class `\s`, i.e. `[\t\n\f\r ]`. -/
def isGoRegexSpace (c : Char) : Bool :=
  c = ' ' || c = '\t' || c = '\n' || c = '\x0c' || c = '\r'

/-- Consume the body of a parenthesized group `\([^)]*\)`: characters up to and
including the closing paren. Returns `none` when no closing paren exists, in
which case the optional group of the regexp fails to match. -/
def chompParen : List Char → Option (List Char)
  | [] => none
  | c :: rest => if c = ')' then some rest else chompParen rest

/-- Model of `conventionalPrefixRe.ReplaceAllString(s, "")` with the anchored
regexp `^[a-zA-Z]+(\([^)]*\))?!?:\s*`: strip a conventional-commit marker from
the front when the whole pattern matches there, otherwise leave the string
unchanged. Because the pattern is anchored and all of its alternatives after
the letter block start with a non-letter, the maximal letter run is the only
candidate match. -/
def stripConvMarker (s : List Char) : List Char :=
  let letters := s.takeWhile isAsciiLetter
  let rest := s.dropWhile isAsciiLetter
  if letters.isEmpty then s
  else
    let afterGroup : Option (List Char) :=
      match rest with
      | '(' :: r => chompParen r
      | _ => some rest
    match afterGroup with
    | none => s
    | some r2 =>
      match r2 with
      | '!' :: ':' :: r3 => r3.dropWhile isGoRegexSpace
      | ':' :: r3 => r3.dropWhile isGoRegexSpace
      | _ => s

/-- Model of `nonAlnumRe.ReplaceAllString(s, "-")`: replace every maximal run
of characters outside `[a-z0-9]` by a single hyphen. The Boolean argument
records whether the previous character belonged to such a run. -/
def collapseRuns : Bool → List Char → List Char
  | _, [] => []
  | prevRun, c :: rest =>
    if isSlugAlnum c then c :: collapseRuns false rest
    else if prevRun then collapseRuns true rest
    else '-' :: collapseRuns true rest

/-- Model of `strings.Trim(s, "-")`. -/
def trimHyphens (s : List Char) : List Char :=
  ((s.dropWhile (fun c => c = '-')).reverse.dropWhile (fun c => c = '-')).reverse

/-- Index of the last hyphen, as in `strings.LastIndex(s, "-")` (the input is
all-ASCII at the call site, so byte indices coincide with character indices).
`none` corresponds to Go's `-1`. -/
def lastIdxOfHyphen : List Char → Option Nat
  | [] => none
  | c :: rest =>
    match lastIdxOfHyphen rest with
    | some j => some (j + 1)
    | none => if c = '-' then some 0 else none

/-- The constant `maxSlugLen` from bookmark.go. -/
def maxSlugLen : Nat := 30

/-- The truncation step of `slugify`: cut to `maxSlugLen` and, when a hyphen
occurs after the midpoint, cut at the last hyphen for a word boundary. -/
def truncateSlug (s : List Char) : List Char :=
  if s.length > maxSlugLen then
    let t := s.take maxSlugLen
    match lastIdxOfHyphen t with
    | some i => if i > maxSlugLen / 2 then t.take i else t
    | none => t
  else s

/-- Model of `slugify` from bookmark.go, on character lists. Go's Unicode
`strings.ToLower` is modelled by the per-character `Char.toLower`; characters
on which the two disagree are outside `[a-z0-9]` on both sides and are squashed
to hyphens either way. -/
def slugifyChars (s : List Char) : List Char :=
  truncateSlug (trimHyphens (collapseRuns false (List.map Char.toLower (stripConvMarker s))))

/-- `slugify` on strings. -/
def slugify (s : String) : String := ⟨slugifyChars s.data⟩

/-- Model of `GenerateBookmarkName`: `jip/<slug>/<short-change-id>`, with the
literal `change` substituted for an empty slug. -/
def GenerateBookmarkName (description shortChangeID : String) : String :=
  let slug := slugify description
  let slug := if slug = "" then "change" else slug
  "jip/" ++ slug ++ "/" ++ shortChangeID

/-- Whether a character list starts with a hyphen. -/
def startsWithHyphen : List Char → Bool
  | c :: _ => c = '-'
  | [] => false

/-! ## Generic helpers for the embedding -/

/-- Pointwise update of a total function modelling a Go map whose missing-key
reads yield the zero value. -/
def fupd {β : Type} (m : String → β) (k : String) (v : β) : String → β :=
  fun x => if x = k then v else m x

/-- Byte-lexicographic comparison used by `sort.Strings`; on the ASCII data
handled here byte order and code-point order coincide. -/
def charListLe : List Char → List Char → Bool
  | [], _ => true
  | _ :: _, [] => false
  | a :: as, b :: bs => if a = b then charListLe as bs else decide (a < b)

/-- String comparison for `sort.Strings`. -/
def strLeB (a b : String) : Bool := charListLe a.data b.data

/-- Insertion step of the string sort. -/
def insertSortedStr (x : String) : List String → List String
  | [] => [x]
  | y :: ys => if strLeB x y then x :: y :: ys else y :: insertSortedStr x ys

/-- Model of `sort.Strings`: the result of any correct sort is determined by
the input multiset, since the order is total and equal keys are identical
strings; insertion sort is used so the definition reduces in the kernel. -/
def sortStrings : List String → List String
  | [] => []
  | x :: xs => insertSortedStr x (sortStrings xs)

/-- Insertion step of the natural-number sort. -/
def insertSortedNat (x : Nat) : List Nat → List Nat
  | [] => [x]
  | y :: ys => if x ≤ y then x :: y :: ys else y :: insertSortedNat x ys

/-- Model of `sort.Ints` over component root labels. -/
def sortNats : List Nat → List Nat
  | [] => []
  | x :: xs => insertSortedNat x (sortNats xs)

/-! ## Change graph (internal/jj/bookmark.go, graph part) -/

/-- One jj change (struct `Change`). The jj log template emits exactly these
fields; the struct has no conflict flag. -/
structure Change where
  changeID : String
  commitID : String
  description : String
  parentIDs : List String
  bookmarks : List String
deriving DecidableEq, Repr, Inhabited

/-- A connected, topologically sorted component (struct `ChangeDAG`). The Go
`ByID` map is modelled as an association list filled in pop order. -/
structure ChangeDAG where
  changes : List Change
  byID : List (String × Change)
deriving DecidableEq, Repr, Inhabited

/-- The duplicate-checking construction of the `known` index map in
`BuildDAGs` (change id to input position). -/
def buildKnown : List Change → Nat → List (String × Nat) → Except String (List (String × Nat))
  | [], _, acc => .ok acc
  | c :: rest, i, acc =>
    if (acc.lookup c.changeID).isSome then
      .error ("duplicate change ID " ++ c.changeID)
    else buildKnown rest (i + 1) (acc ++ [(c.changeID, i)])

/-- Union-find `find`. The Go version compresses paths while walking; the
compression rewrites pointers along the walk to the very root that is returned
here, so the root of every element is unchanged and only lookup cost differs.
The fuel bounds the pointer walk, which in a union-find forest has length below
the array size. -/
def ufFind (parent : List Nat) : Nat → Nat → Nat
  | 0, x => x
  | fuel + 1, x =>
    let p := parent.getD x x
    if p = x then x else ufFind parent fuel p

/-- Union-find `union`: graft the root of `a` onto the root of `b`. -/
def ufUnion (parent : List Nat) (a b : Nat) : List Nat :=
  let ra := ufFind parent parent.length a
  let rb := ufFind parent parent.length b
  if ra = rb then parent else parent.set ra rb

/-- The union loop of `BuildDAGs`: union every change with each of its known
parents. -/
def unionAll (changes : List Change) (known : List (String × Nat)) : List Nat :=
  (List.range changes.length).foldl
    (fun parent i =>
      ((changes.getD i default).parentIDs).foldl
        (fun parent pid =>
          match known.lookup pid with
          | some j => ufUnion parent i j
          | none => parent)
        parent)
    (List.range changes.length)

/-- Sorted distinct component roots (`BuildDAGs` collects the component map's
keys and sorts them). -/
def rootsOf (changes : List Change) (parent : List Nat) : List Nat :=
  sortNats (((List.range changes.length).map (fun i => ufFind parent parent.length i)).dedup)

/-- Member indices of the component with root `r`, in input order (the order in
which `BuildDAGs` appends them to the component map). -/
def membersOf (changes : List Change) (parent : List Nat) (r : Nat) : List Nat :=
  (List.range changes.length).filter (fun i => ufFind parent parent.length i = r)

/-- The in-degree and children maps built at the top of `topoSort`: in-degree
counts only parents inside the component, children lists record one entry per
parent occurrence. -/
def buildDegChildren (all : List Change) (inComp : String → Bool) (memberIndices : List Nat) :
    (String → Int) × (String → List String) :=
  memberIndices.foldl
    (fun acc i =>
      let c := all.getD i default
      c.parentIDs.foldl
        (fun (acc2 : (String → Int) × (String → List String)) pid =>
          if inComp pid then
            (fupd acc2.1 c.changeID (acc2.1 c.changeID + 1),
             fupd acc2.2 pid (acc2.2 pid ++ [c.changeID]))
          else acc2)
        (fupd acc.1 c.changeID 0, acc.2))
    (fun _ => 0, fun _ => [])

/-- The inner loop of Kahn's algorithm that decrements the in-degree of each
child of a popped node and enqueues children reaching in-degree zero. -/
def decrKids : List String → List String → (String → Int) → List String × (String → Int)
  | [], q, deg => (q, deg)
  | kid :: ks, q, deg =>
    let d := deg kid - 1
    let deg' := fupd deg kid d
    if d = 0 then decrKids ks (q ++ [kid]) deg' else decrKids ks q deg'

/-- The main Kahn loop of `topoSort`. The Go loop terminates because every
popped node is fresh; the fuel argument makes that bound explicit and is chosen
in `topoSort` so that it is never exhausted on the inputs `BuildDAGs`
produces. -/
def kahnLoop (all : List Change) (known : List (String × Nat)) (children : String → List String) :
    Nat → List String → (String → Int) → List Change → List (String × Change) →
    Option (List Change × List (String × Change))
  | 0, queue, _, sorted, byID => if queue.isEmpty then some (sorted, byID) else none
  | fuel + 1, queue, inDeg, sorted, byID =>
    match queue with
    | [] => some (sorted, byID)
    | id :: rest =>
      let idx := (known.lookup id).getD 0
      let ch := all.getD idx default
      let kids := sortStrings (children id)
      let step := decrKids kids rest inDeg
      kahnLoop all known children fuel step.1 step.2 (sorted ++ [ch]) (byID ++ [(id, ch)])

/-- Model of `topoSort`: Kahn's algorithm on the component identified by
`memberIndices`, seeded with the lexicographically sorted zero-in-degree
members. -/
def topoSort (all : List Change) (memberIndices : List Nat) (known : List (String × Nat)) :
    Except String ChangeDAG :=
  let inComp : String → Bool := fun id => memberIndices.any (fun i => (all.getD i default).changeID == id)
  let dc := buildDegChildren all inComp memberIndices
  let queue0 := sortStrings (memberIndices.filterMap (fun i =>
    let id := (all.getD i default).changeID
    if dc.1 id = 0 then some id else none))
  match kahnLoop all known dc.2 (memberIndices.length + 1) queue0 dc.1 [] [] with
  | none => .error "cycle detected in change graph"
  | some (sorted, byID) =>
    if sorted.length ≠ memberIndices.length then
      .error "cycle detected in change graph"
    else .ok ⟨sorted, byID⟩

/-- The per-component loop at the bottom of `BuildDAGs`. -/
def dagsLoop (changes : List Change) (known : List (String × Nat)) (parent : List Nat) :
    List Nat → Except String (List ChangeDAG)
  | [] => .ok []
  | r :: rest => do
    let dag ← topoSort changes (membersOf changes parent r) known
    let ds ← dagsLoop changes known parent rest
    .ok (dag :: ds)

/-- Model of `BuildDAGs`: split changes into connected components via
union-find over known parent edges and topologically sort each component. -/
def BuildDAGs (changes : List Change) : Except String (List ChangeDAG) :=
  if changes.isEmpty then .ok []
  else do
    let known ← buildKnown changes 0 []
    let parent := unionAll changes known
    dagsLoop changes known parent (rootsOf changes parent)

/-- Model of `LeafChanges`: members of the DAG with no child inside the DAG. -/
def LeafChanges (dag : ChangeDAG) : List Change :=
  let hasChild : String → Bool :=
    dag.changes.foldl
      (fun m c =>
        c.parentIDs.foldl
          (fun m2 pid => if (dag.byID.lookup pid).isSome then fupd m2 pid true else m2)
          m)
      (fun _ => false)
  dag.changes.filter (fun c => !hasChild c.changeID)

/-! ## Driver and client oracles

External effects are modelled by oracles: each jj process invocation and each
GitHub operation is recorded as a call value, and its outcome is read from a
deterministic oracle function. The `Log` and `BookmarkList` oracles return
already-parsed values; the JSONL decoding itself (`ParseChanges`,
`ParseBookmarkList`) is outside the modelled scope of the claims. -/

/-- A jj driver invocation (one constructor per `Runner` interface method with
effects relevant to the send pipeline). -/
inductive DriverCall where
  | log (revset : String)
  | bookmarkList
  | bookmarkSet (name rev : String)
  | gitRemoteList
  | gitFetch (remote : String)
  | gitPush (bookmarks : List String) (allowNew : Bool) (remote : String)
  | interdiff (src dst : String)
  | rebase (revsets : List String) (destination : String)
deriving DecidableEq, Repr

/-- Whether a driver call is a `Rebase` invocation. -/
def DriverCall.isRebase : DriverCall → Bool
  | .rebase _ _ => true
  | _ => false

/-- Whether a driver call is a `BookmarkSet` invocation. -/
def DriverCall.isBookmarkSet : DriverCall → Bool
  | .bookmarkSet _ _ => true
  | _ => false

/-- Oracle for the jj driver (`jj.Runner`). -/
structure Driver where
  gitFetchRes : String → Except String Unit
  logRes : String → Except String (List Change)
  bookmarkListRes : Except String (List BookmarkInfo)
  bookmarkSetRes : String → String → Except String Unit
  gitPushRes : List String → Bool → String → Except String Unit
  interdiffRes : String → String → Except String String
  rebaseRes : List String → String → Except String Unit

/-- Pull-request fields (struct `PRInfo` in internal/github/pr.go). -/
structure PRInfo where
  number : Int
  state : String
  url : String
  title : String
  body : String
  headRefName : String
  baseRefName : String
  isDraft : Bool
deriving DecidableEq, Repr, Inhabited

/-- A GitHub service invocation (one constructor per `gh.Service` method used
by the pipeline). `updatePR` records the optional fields of `UpdatePROpts`. -/
inductive GHCall where
  | lookupPRsByBranch (branches : List String)
  | createPR (head base title body : String) (draft : Bool)
  | updatePR (number : Int) (title body base : Option String) (draft : Option Bool)
  | commentOnPR (number : Int) (body : String)
  | requestReviewers (number : Int) (reviewers : List String)
deriving DecidableEq, Repr

/-- Whether a GitHub call mutates remote state (everything except the PR
lookup query). -/
def GHCall.isMutation : GHCall → Bool
  | .lookupPRsByBranch _ => false
  | _ => true

/-- Oracle for the GitHub service (`gh.Service`). The PR lookup result is the
branch-keyed map returned by `LookupPRsByBranch`. -/
structure Client where
  owner : String
  repo : String
  lookupRes : List String → Except String (List (String × PRInfo))
  createPRRes : String → String → String → String → Bool → Except String PRInfo
  updatePRRes : Int → Option String → Option String → Option String → Option Bool → Except String Unit
  commentRes : Int → String → Except String Unit
  reviewersRes : Int → List String → Except String Unit

/-! ## Bookmark assignment (internal/jj/bookmark.go) -/

/-- Model of `MatchBookmarksToChanges`: a map from change id to the bookmarks
whose local target is that change's commit, in bookmark order. The Go
commit-to-change index is built with map-overwrite (last write wins). -/
def MatchBookmarksToChanges (dag : ChangeDAG) (bookmarks : List BookmarkInfo) :
    String → List BookmarkInfo :=
  let commitToChange : String → Option String :=
    dag.changes.foldl (fun m c => fun x => if x = c.commitID then some c.changeID else m x)
      (fun _ => none)
  bookmarks.foldl
    (fun result b =>
      if b.present && !(b.target == "") then
        match commitToChange b.target with
        | some changeID => fupd result changeID (result changeID ++ [b])
        | none => result
      else result)
    (fun _ => [])

/-- The bookmark assignment for one change (struct `ChangeBookmark`). -/
structure ChangeBookmark where
  changeID : String
  bookmark : String
  isNew : Bool
  syncState : SyncState
  conflict : Bool
  displaced : Bool
deriving DecidableEq, Repr, Inhabited

/-- The per-change loop of `EnsureBookmarks`, threading the accumulated result
list and the trace of driver calls. -/
def ensureGo (runner : Driver) (matched : String → List BookmarkInfo)
    (bookmarkByName : String → Option BookmarkInfo) (pushRemote : String)
    (shouldUseExisting : Option (String → String → Bool)) (createNew : Bool) :
    List Change → List ChangeBookmark → List DriverCall →
    List DriverCall × Except String (List ChangeBookmark)
  | [], res, calls => (calls, .ok res)
  | change :: rest, res, calls =>
    let existing := matched change.changeID
    let chosen := existing.find? (fun b =>
      match shouldUseExisting with
      | none => true
      | some f => f change.changeID b.name)
    match chosen with
    | some b =>
      ensureGo runner matched bookmarkByName pushRemote shouldUseExisting createNew rest
        (res ++ [⟨change.changeID, b.name, false, SyncWith b pushRemote, b.conflict, false⟩]) calls
    | none =>
      let shortID := if change.changeID.length > 8 then String.mk (change.changeID.data.take 8)
        else change.changeID
      let name := GenerateBookmarkName change.description shortID
      match bookmarkByName name with
      | some bi =>
        ensureGo runner matched bookmarkByName pushRemote shouldUseExisting createNew rest
          (res ++ [⟨change.changeID, name, false, SyncWith bi pushRemote, bi.conflict, true⟩]) calls
      | none =>
        if !createNew then
          ensureGo runner matched bookmarkByName pushRemote shouldUseExisting createNew rest res calls
        else
          let calls := calls ++ [DriverCall.bookmarkSet name change.changeID]
          match runner.bookmarkSetRes name change.changeID with
          | .error e => (calls, .error ("creating bookmark for " ++ change.changeID ++ ": " ++ e))
          | .ok _ =>
            ensureGo runner matched bookmarkByName pushRemote shouldUseExisting createNew rest
              (res ++ [⟨change.changeID, name, true, SyncState.localOnly, false, false⟩]) calls

/-- Name-keyed bookmark lookup with Go map-overwrite semantics (last entry with
a given name wins). -/
def byNameOf (bookmarks : List BookmarkInfo) : String → Option BookmarkInfo :=
  bookmarks.foldl (fun m b => fun x => if x = b.name then some b else m x) (fun _ => none)

/-- Model of `EnsureBookmarks`: assign a bookmark to each change of the DAG,
returning the trace of driver calls it makes alongside the result. -/
def EnsureBookmarks (runner : Driver) (dag : ChangeDAG) (bookmarks : List BookmarkInfo)
    (pushRemote : String) (shouldUseExisting : Option (String → String → Bool))
    (createNew : Bool) : List DriverCall × Except String (List ChangeBookmark) :=
  let matched := MatchBookmarksToChanges dag bookmarks
  ensureGo runner matched (byNameOf bookmarks) pushRemote shouldUseExisting createNew
    dag.changes [] []

/-! ## PR bodies and interdiff comments (internal/github/prbody.go) -/

/-- Split a character list on newline characters, like `strings.Split(s, "\n")`
(the empty input yields one empty field). -/
def splitOnNL : List Char → List (List Char)
  | [] => [[]]
  | c :: rest =>
    if c = '\n' then [] :: splitOnNL rest
    else
      match splitOnNL rest with
      | [] => [[c]]
      | l :: ls => (c :: l) :: ls

/-- Drop trailing newlines, like `strings.TrimRight(s, "\n")`. -/
def trimRightNL (s : List Char) : List Char :=
  (s.reverse.dropWhile (fun c => c = '\n')).reverse

/-- The ASCII cutset of `strings.TrimSpace`. Go also trims the rare non-ASCII
Unicode spaces; diff text at the call site is ASCII-delimited lines. -/
def isCutsetSpace (c : Char) : Bool :=
  c = ' ' || c = '\t' || c = '\n' || c = '\x0b' || c = '\x0c' || c = '\r'

/-- Model of `strings.TrimSpace`. -/
def trimSpaceChars (s : List Char) : List Char :=
  ((s.dropWhile isCutsetSpace).reverse.dropWhile isCutsetSpace).reverse

/-- The suffix after the first occurrence of `sep`, or `none`; this is how
`strings.SplitN(line, sep, 2)` yields its second field. -/
def afterFirstOcc (sep : List Char) : List Char → Option (List Char)
  | [] => if sep.isEmpty then some [] else none
  | c :: rest =>
    if sep.isPrefixOf (c :: rest) then some ((c :: rest).drop sep.length)
    else afterFirstOcc sep rest

/-- A single file's diff section (struct `fileDiff`). -/
structure FileDiff where
  header : String
  body : String
deriving DecidableEq, Repr, Inhabited

/-- The line loop of `parseGitDiff`: accumulate per-file sections, keeping the
`b/` path of each `diff --git` line as the section header. -/
def parseGitDiffGo : List (List Char) → Option (List Char × List Char) → List FileDiff
  | [], none => []
  | [], some hb => [⟨String.mk hb.1, String.mk (trimRightNL hb.2)⟩]
  | line :: rest, cur =>
    if ("diff --git ".data).isPrefixOf line then
      let done : List FileDiff :=
        match cur with
        | none => []
        | some hb => [⟨String.mk hb.1, String.mk (trimRightNL hb.2)⟩]
      let header :=
        match afterFirstOcc (" b/".data) line with
        | some tail => tail
        | none => line
      done ++ parseGitDiffGo rest (some (header, []))
    else
      match cur with
      | none => parseGitDiffGo rest none
      | some hb => parseGitDiffGo rest (some (hb.1, hb.2 ++ line ++ ['\n']))

/-- Model of `parseGitDiff`. -/
def parseGitDiff (diff : String) : List FileDiff :=
  parseGitDiffGo (splitOnNL diff.data) none

/-- Model of `diffStats`: count added and removed lines of a diff chunk,
excluding the `+++`/`---` file headers. -/
def diffStats (chunk : String) : Int × Int :=
  (splitOnNL chunk.data).foldl
    (fun (acc : Int × Int) line =>
      if ("+".data).isPrefixOf line && !(("+++".data).isPrefixOf line) then (acc.1 + 1, acc.2)
      else if ("-".data).isPrefixOf line && !(("---".data).isPrefixOf line) then (acc.1, acc.2 + 1)
      else acc)
    (0, 0)

/-- Model of `rangeDiffFooter`. -/
def rangeDiffFooter (repoName baseBranch oldCommit newCommit : String) : String :=
  if oldCommit = "" || newCommit = "" || repoName = "" then ""
  else
    let oldShort := String.mk (oldCommit.data.take 7)
    let newShort := String.mk (newCommit.data.take 7)
    let compareURL := "https://github.com/" ++ repoName ++ "/compare/" ++ oldCommit ++ ".." ++ newCommit
    "\n---\n<sub>View the diff on [GitHub](" ++ compareURL ++ ") " ++
      "(may include unrelated changes due to rebases since GitHub does not currently implement `git range-diff`).\n" ++
      "View the diff locally (will only work if you fetched the older commit at some point):\n" ++
      "`git range-diff " ++ baseBranch ++ " " ++ oldShort ++ " " ++ newShort ++ "`\n" ++
      "`jj interdiff -f " ++ oldShort ++ " -t " ++ newShort ++ "`\n" ++
      "</sub>\n"

/-- The `collapseThreshold` constant. -/
def collapseThreshold : Nat := 20

/-- One rendered file section of the diff comment. -/
def diffSection (f : FileDiff) (expand : Bool) : String :=
  let stats := diffStats f.body
  let openAttr := if expand then " open" else ""
  "\n<details" ++ openAttr ++ ">\n<summary><code>" ++ f.header ++ "</code> (+" ++
    toString stats.1 ++ ", -" ++ toString stats.2 ++ ")</summary>\n\n```diff\n" ++
    f.body ++ "\n```\n\n</details>\n"

/-- Total line count over the file section bodies, as computed by the loop in
`BuildDiffComment` (`len(strings.Split(f.body, "\n"))` summed over files). -/
def totalBodyLines (files : List FileDiff) : Nat :=
  files.foldl (fun acc f => acc + (splitOnNL f.body.data).length) 0

/-- Model of `BuildDiffComment`: the interdiff PR comment with per-file
collapsible sections. -/
def BuildDiffComment (codeDiff repoName baseBranch oldCommit newCommit : String) : String :=
  let footer := rangeDiffFooter repoName baseBranch oldCommit newCommit
  if String.mk (trimSpaceChars codeDiff.data) = "" then
    "### Changes since last push\n\n**No code changes** (likely just a rebase).\n" ++ footer
  else
    let files := parseGitDiff codeDiff
    let expand := decide (totalBodyLines files ≤ collapseThreshold)
    let sections := files.foldl (fun acc f => acc ++ diffSection f expand) ""
    "### Changes since last push\n" ++ sections ++ footer

/-- Model of `BuildStackBlock`: the markdown stack list, newest first, with an
arrow marking the current PR; empty for lists of length at most one. -/
def BuildStackBlock (prNumbers : List Int) (current : Int) : String :=
  if prNumbers.length ≤ 1 then ""
  else
    "PRs:\n" ++
      prNumbers.reverse.foldl
        (fun acc num =>
          if num = current then acc ++ "* ➡️ #" ++ toString num ++ "\n"
          else acc ++ "* #" ++ toString num ++ "\n")
        ""

/-- Model of `BuildStackedPRBody`: for a stack of size at least two, the framed
body with the commit link, stack block, optional commit body, and footnote. -/
def BuildStackedPRBody (commitHash repoFullName : String) (prNumber : Int)
    (allPRs : List Int) (commitBody : String) : String :=
  if allPRs.length ≤ 1 then commitBody
  else
    let shortHash := String.mk (commitHash.data.take 7)
    let commitLink := "https://github.com/" ++ repoFullName ++ "/pull/" ++ toString prNumber ++
      "/commits/" ++ commitHash
    let b1 := "This is a stacked PR[^1]. Only review commit [" ++ shortHash ++ "](" ++
      commitLink ++ ").\n\n"
    let b2 := b1 ++ BuildStackBlock allPRs prNumber
    let b3 := if commitBody ≠ "" then b2 ++ "\n---\n\n" ++ commitBody ++ "\n" else b2
    b3 ++ "\n[^1]: A stacked PR is a pull request that depends on other pull requests. " ++
      "The current PR depends on the ones listed below it and MUST NOT be merged before they are merged. " ++
      "The PRs listed above the current one in turn depend on it and won\x27t be merged until the current one is. " ++
      "Learn more about [why](https://github.com/omarkohl/jip/blob/main/docs/why.md) and [how to review](https://github.com/omarkohl/jip/blob/main/docs/reviewing.md).\n"

/-! ## The send pipeline (cmd send implementation) -/

/-- Configuration of the send pipeline (struct `sendOpts`). This is the full
field list of the source struct; it has no rebase field. -/
structure SendOpts where
  base : String
  remote : String
  upstream : String
  upstreamRemote : String
  pushOwner : String
  dryRun : Bool
  draft : Bool
  existing : Bool
  noStack : Bool
  reviewers : List String
  revsets : List String
deriving Repr, Inhabited

/-- Per-change pipeline record (struct `changeState`). -/
structure ChangeState where
  change : Change
  bookmark : ChangeBookmark
  pr : Option PRInfo
  isNew : Bool
  changed : Bool
deriving DecidableEq, Repr, Inhabited

/-- Why a change was skipped (struct `skipReason`); `ancestor` is the Go zero
value `""` unless the skip cascaded from a skipped ancestor. -/
structure SkipReason where
  reason : String
  ancestor : String
deriving DecidableEq, Repr, Inhabited

/-- The skip reason literals of the send pipeline. -/
def skipAncestorReason : String := "skipped because ancestor was skipped"

/-- Reason recorded for a displaced bookmark. -/
def skipDisplacedReason : String := "remote is ahead of local — pull changes or reset the bookmark"

/-- Reason recorded for a conflicted bookmark. -/
def skipConflictReason : String := "local and remote have diverged — resolve with `jj bookmark set` or force-push"

/-- Reason recorded for a bookmark whose sync state is behind. -/
def skipBehindReason : String := "remote is ahead of local — pull changes first"

/-- Map assignment for the `skippedIDs` map. -/
def mapSetSkip (m : List (String × SkipReason)) (k : String) (v : SkipReason) :
    List (String × SkipReason) :=
  (k, v) :: m.filter (fun kv => !(kv.1 == k))

/-- One iteration of the skip-classification loop of `executeSend`: first the
cascade check over the parents (marking with the first skipped parent found),
then, if still unmarked, the displaced, conflict, and behind checks in source
order. -/
def classifyStep (skippedIDs : List (String × SkipReason)) (s : ChangeState) :
    List (String × SkipReason) :=
  let afterParents :=
    match s.change.parentIDs.find? (fun pid => (skippedIDs.lookup pid).isSome) with
    | some pid => mapSetSkip skippedIDs s.change.changeID ⟨skipAncestorReason, pid⟩
    | none => skippedIDs
  if (afterParents.lookup s.change.changeID).isSome then afterParents
  else if s.bookmark.displaced then
    mapSetSkip afterParents s.change.changeID ⟨skipDisplacedReason, ""⟩
  else if s.bookmark.conflict then
    mapSetSkip afterParents s.change.changeID ⟨skipConflictReason, ""⟩
  else if s.bookmark.syncState = SyncState.behind then
    mapSetSkip afterParents s.change.changeID ⟨skipBehindReason, ""⟩
  else afterParents

/-- The skip-classification loop (`executeSend`, the `skippedIDs` map). -/
def classifySkips (allStates : List ChangeState) : List (String × SkipReason) :=
  allStates.foldl classifyStep []

/-- The `idxByChange` index of `computeStackPRs` (map-overwrite: last state
with a given change id wins). -/
def idxByChangeOf (states : List ChangeState) : String → Option Nat :=
  (List.range states.length).foldl
    (fun m i => fun x => if x = (states.getD i default).change.changeID then some i else m x)
    (fun _ => none)

/-- The child-edge map of `computeStackPRs` (parent id to children inside the
state set, one entry per parent occurrence). -/
def stackChildren (states : List ChangeState) : String → List String :=
  states.foldl
    (fun ch s =>
      s.change.parentIDs.foldl
        (fun ch2 pid =>
          if (idxByChangeOf states pid).isSome then fupd ch2 pid (ch2 pid ++ [s.change.changeID])
          else ch2)
        ch)
    (fun _ => [])

/-- Generic depth-first walk with an explicit visited list, shared shape of the
`walkUp`/`walkDown` closures of `computeStackPRs`: each admissible unvisited
neighbour is inserted and immediately explored. The Go recursion terminates
because the visited list grows inside the finite state-id set; the fuel makes
that bound explicit. -/
def dfsWalk (adj : String → List String) (ok : String → Bool) :
    Nat → List String → String → List String
  | 0, rel, _ => rel
  | fuel + 1, rel, id =>
    (adj id).foldl
      (fun r pid =>
        if ok pid && !(r.contains pid) then dfsWalk adj ok fuel (pid :: r) pid else r)
      rel

/-- One fold step of `dfsWalk`, named for reasoning about the fold. -/
def dfsStep (adj : String → List String) (ok : String → Bool) (fuel : Nat)
    (r : List String) (pid : String) : List String :=
  if ok pid && !(r.contains pid) then dfsWalk adj ok fuel (pid :: r) pid else r

/-- One admissible step of the depth-first walk: an adjacency edge whose
target passes the admission predicate. -/
def dfsEdge (adj : String → List String) (ok : String → Bool) (u v : String) : Prop :=
  v ∈ adj u ∧ ok v = true

/-- Parent list of the state with the given id, as `computeStackPRs` reads it
(`states[idxByChange[id]].change.ParentIDs`). -/
def parentsAt (states : List ChangeState) (id : String) : List String :=
  (states.getD ((idxByChangeOf states id).getD 0) default).change.parentIDs

/-- The `relevant` set of one change in `computeStackPRs`: start from the
change itself, walk ancestors via parent edges, then walk descendants via
child edges, all restricted to the given states. -/
def relevantSet (states : List ChangeState) (cid : String) : List String :=
  let fuel := states.length + 1
  dfsWalk (stackChildren states) (fun _ => true) fuel
    (dfsWalk (parentsAt states) (fun pid => (idxByChangeOf states pid).isSome) fuel [cid] cid)
    cid

/-- PR number of a state (`st.pr.Number`; the pipeline only calls this after
every active change has a PR, so the default is never exercised there). -/
def prNumberOf (s : ChangeState) : Int := (s.pr.getD default).number

/-- Model of `computeStackPRs`: for each change, the PR numbers of its
relevant set, collected in the input order. -/
def computeStackPRs (states : List ChangeState) : List (List Int) :=
  states.map (fun s =>
    let relevant := relevantSet states s.change.changeID
    states.foldl
      (fun prs st => if relevant.contains st.change.changeID then prs ++ [prNumberOf st] else prs)
      [])

/-- Model of `ResolveStacks` (internal/jj/resolve.go): build the combined
revset, run the log, and build the DAGs. -/
def ResolveStacks (runner : Driver) (revsets : List String) (base : String) :
    List DriverCall × Except String (List ChangeDAG) :=
  if revsets.length = 0 then ([], .error "no revsets provided")
  else if base = "" then ([], .error "no base revset provided")
  else
    let heads := String.intercalate " | " revsets
    let revset := "(" ++ base ++ ")..(" ++ heads ++ ")"
    ([DriverCall.log revset],
      match runner.logRes revset with
      | .error e => .error e
      | .ok changes => BuildDAGs changes)

/-- The `--no-stack` reduction in `executeSend`: replace each DAG by a
singleton of its only leaf, failing when a DAG has more than one tip. -/
def reduceNoStack : List ChangeDAG → Except String (List ChangeDAG)
  | [] => .ok []
  | dag :: rest =>
    match LeafChanges dag with
    | [tip] => (reduceNoStack rest).map (fun ds => ChangeDAG.mk [tip] [(tip.changeID, tip)] :: ds)
    | leaves =>
      .error ("--no-stack requires a linear stack (found " ++ toString leaves.length ++
        " tips in one DAG)")

/-- The remote-branch collection of `executeSend`: all bookmark names on
changes in the DAGs that have an entry for the push remote, deduplicated,
first-occurrence order. -/
def collectRemoteBranches (dags : List ChangeDAG) (bookmarkByName : String → Option BookmarkInfo)
    (remote : String) : List String :=
  (dags.foldl
    (fun (acc : List String × (String → Bool)) dag =>
      dag.changes.foldl
        (fun acc c =>
          c.bookmarks.foldl
            (fun (acc : List String × (String → Bool)) bName =>
              match bookmarkByName bName with
              | none => acc
              | some bi =>
                if (bi.remotes.lookup remote).isSome && !(acc.2 bName) then
                  (acc.1 ++ [bName], fupd acc.2 bName true)
                else acc)
            acc)
        acc)
    ([], fun _ => false)).1

/-- The `shouldUseExisting` callback of `executeSend`: prefer bookmarks that
already have a PR, then any `jip/` bookmark. -/
def shouldUseFor (prMap : List (String × PRInfo)) : String → String → Bool :=
  fun _ bookmark => (prMap.lookup bookmark).isSome || ("jip/".data.isPrefixOf bookmark.data)

/-- The per-DAG assignment loop of `executeSend`, building the concatenated
`ChangeState` list. -/
def assignLoop (runner : Driver) (bookmarks : List BookmarkInfo)
    (prMap : List (String × PRInfo)) (opts : SendOpts) :
    List ChangeDAG → List DriverCall × Except String (List ChangeState)
  | [] => ([], .ok [])
  | dag :: rest =>
    match EnsureBookmarks runner dag bookmarks opts.remote (some (shouldUseFor prMap))
        (!opts.existing) with
    | (calls, .error e) => (calls, .error ("ensuring bookmarks: " ++ e))
    | (calls, .ok results) =>
      let bmByChange : String → ChangeBookmark :=
        results.foldl (fun m r => fun x => if x = r.changeID then r else m x) (fun _ => default)
      let states := dag.changes.map (fun change =>
        let bm := bmByChange change.changeID
        ChangeState.mk change bm (prMap.lookup bm.bookmark) false false)
      match assignLoop runner bookmarks prMap opts rest with
      | (calls2, .error e) => (calls ++ calls2, .error e)
      | (calls2, .ok more) => (calls ++ calls2, .ok (states ++ more))

/-- The title-update step for an existing PR in the create-or-update loop. -/
def titleStep (client : Client) (pr : PRInfo) (s : ChangeState) :
    List GHCall × Except String ChangeState :=
  if pr.title ≠ s.change.description then
    match client.updatePRRes pr.number (some s.change.description) none none none with
    | .error e =>
      ([GHCall.updatePR pr.number (some s.change.description) none none none],
       .error ("updating PR #" ++ toString pr.number ++ " title: " ++ e))
    | .ok _ =>
      ([GHCall.updatePR pr.number (some s.change.description) none none none],
       .ok { s with changed := true })
  else ([], .ok s)

/-- The interdiff-comment step for an existing PR in the create-or-update
loop: when the remote-tracked commit exists and differs from the local
commit, compute the interdiff (warning on failure) and post the rendered
comment. -/
def interdiffStep (runner : Driver) (client : Client)
    (bookmarkByName : String → Option BookmarkInfo) (opts : SendOpts) (repoFullName : String)
    (pr : PRInfo) (s s1 : ChangeState) :
    List DriverCall × List GHCall × List String × Except String ChangeState :=
  match bookmarkByName s.bookmark.bookmark with
  | none => ([], [], [], .ok s1)
  | some bi =>
    match bi.remotes.lookup opts.remote with
    | none => ([], [], [], .ok s1)
    | some rs =>
      if !(rs.target == "") && !(rs.target == s.change.commitID) then
        match runner.interdiffRes rs.target s.change.commitID with
        | .error e =>
          ([DriverCall.interdiff rs.target s.change.commitID], [],
           ["  warning: interdiff failed for #" ++ toString pr.number ++ ": " ++ e ++ "\n"],
           .ok s1)
        | .ok diff =>
          let comment := BuildDiffComment diff repoFullName opts.base rs.target
            s.change.commitID
          match client.commentRes pr.number comment with
          | .error e =>
            ([DriverCall.interdiff rs.target s.change.commitID],
             [GHCall.commentOnPR pr.number comment], [],
             .error ("commenting on PR #" ++ toString pr.number ++ ": " ++ e))
          | .ok _ =>
            ([DriverCall.interdiff rs.target s.change.commitID],
             [GHCall.commentOnPR pr.number comment], [],
             .ok { s1 with changed := true })
      else ([], [], [], .ok s1)

/-- The create-or-update loop of `executeSend` (step 6): update the title and
post an interdiff comment on existing PRs, create missing PRs and request
reviewers. Returns traces, warning output, and the updated states. -/
def prLoop (runner : Driver) (client : Client) (bookmarkByName : String → Option BookmarkInfo)
    (opts : SendOpts) (repoFullName : String) :
    List ChangeState → List DriverCall × List GHCall × List String × Except String (List ChangeState)
  | [] => ([], [], [], .ok [])
  | s :: rest =>
    match s.pr with
    | some pr =>
      match titleStep client pr s with
      | (gh1, .error e) => ([], gh1, [], .error e)
      | (gh1, .ok s1) =>
        match interdiffStep runner client bookmarkByName opts repoFullName pr s s1 with
        | (drvI, ghI, outI, .error e) => (drvI, gh1 ++ ghI, outI, .error e)
        | (drvI, ghI, outI, .ok s2) =>
          match prLoop runner client bookmarkByName opts repoFullName rest with
          | (drvR, ghR, outR, .error e) =>
            (drvI ++ drvR, gh1 ++ ghI ++ ghR, outI ++ outR, .error e)
          | (drvR, ghR, outR, .ok more) =>
            (drvI ++ drvR, gh1 ++ ghI ++ ghR, outI ++ outR, .ok (s2 :: more))
    | none =>
      let title := if s.change.description = "" then
        "jip: " ++ String.mk (s.change.changeID.data.take 12) else s.change.description
      let head := if opts.pushOwner ≠ "" then opts.pushOwner ++ ":" ++ s.bookmark.bookmark
        else s.bookmark.bookmark
      match client.createPRRes head opts.base title "" opts.draft with
      | .error e =>
        ([], [GHCall.createPR head opts.base title "" opts.draft], [],
         .error ("creating PR for " ++ s.change.changeID ++ ": " ++ e))
      | .ok pr =>
        let s1 : ChangeState := { s with pr := some pr, isNew := true }
        let rstep : List GHCall × List String :=
          if opts.reviewers.length > 0 then
            match client.reviewersRes pr.number opts.reviewers with
            | .error e =>
              ([GHCall.requestReviewers pr.number opts.reviewers],
               ["  warning: failed to add reviewers to #" ++ toString pr.number ++ ": " ++ e ++ "\n"])
            | .ok _ => ([GHCall.requestReviewers pr.number opts.reviewers], [])
          else ([], [])
        match prLoop runner client bookmarkByName opts repoFullName rest with
        | (drvR, ghR, outR, .error e) =>
          (drvR, [GHCall.createPR head opts.base title "" opts.draft] ++ rstep.1 ++ ghR,
           rstep.2 ++ outR, .error e)
        | (drvR, ghR, outR, .ok more) =>
          (drvR, [GHCall.createPR head opts.base title "" opts.draft] ++ rstep.1 ++ ghR,
           rstep.2 ++ outR, .ok (s1 :: more))

/-- The stack-navigation body update loop of `executeSend` (step 7). -/
def bodyLoop (client : Client) (repoFullName : String) :
    List (ChangeState × List Int) → List GHCall × Except String (List ChangeState)
  | [] => ([], .ok [])
  | (s, stack) :: rest =>
    let pr := s.pr.getD default
    let body := BuildStackedPRBody s.change.commitID repoFullName pr.number stack ""
    if body ≠ pr.body then
      match client.updatePRRes pr.number none (some body) none none with
      | .error e =>
        ([GHCall.updatePR pr.number none (some body) none none],
         .error ("updating PR #" ++ toString pr.number ++ " body: " ++ e))
      | .ok _ =>
        match bodyLoop client repoFullName rest with
        | (gh2, .error e) => (GHCall.updatePR pr.number none (some body) none none :: gh2, .error e)
        | (gh2, .ok more) =>
          (GHCall.updatePR pr.number none (some body) none none :: gh2,
           .ok ({ s with changed := true } :: more))
    else
      match bodyLoop client repoFullName rest with
      | (gh2, .error e) => (gh2, .error e)
      | (gh2, .ok more) => (gh2, .ok (s :: more))

/-- Left-justified minimum-width-4 integer, as `%-4d`. -/
def padLeft4 (n : Int) : String :=
  let t := toString n
  t ++ String.mk (List.replicate (4 - t.length) ' ')

/-- The summary block of `executeSend` (step 8). -/
def summaryLines (states : List ChangeState) : List String :=
  states.foldl
    (fun acc s =>
      let pr := s.pr.getD default
      let action := if s.isNew then "created" else if !s.changed then "up-to-date" else "updated"
      acc ++ ["  #" ++ padLeft4 pr.number ++ " " ++ action ++ "  " ++ pr.url ++ "\n",
        "         " ++ String.mk (s.change.changeID.data.take 12) ++ "  " ++
          s.change.description ++ "\n"])
    []

/-- Model of `printSkippedChanges`. -/
def skippedLines (skipped : List ChangeState) (reasons : List (String × SkipReason)) :
    List String :=
  ["\nSkipped " ++ toString skipped.length ++ " change(s):\n\n"] ++
    skipped.foldl
      (fun acc s =>
        let r := (reasons.lookup s.change.changeID).getD default
        acc ++ ["  " ++ String.mk (s.change.changeID.data.take 12) ++ "  " ++
            s.change.description ++ "\n",
          "         " ++ r.reason ++ "\n"])
      []

/-- Decidable equality for `Except`, needed to evaluate concrete pipeline
outcomes. -/
instance {ε α : Type} [DecidableEq ε] [DecidableEq α] : DecidableEq (Except ε α) := fun a b =>
  match a, b with
  | .error e₁, .error e₂ =>
    if h : e₁ = e₂ then isTrue (by rw [h]) else isFalse (by simp [h])
  | .ok a₁, .ok a₂ =>
    if h : a₁ = a₂ then isTrue (by rw [h]) else isFalse (by simp [h])
  | .error _, .ok _ => isFalse (by simp)
  | .ok _, .error _ => isFalse (by simp)

/-- Result of a run of the modelled pipeline: driver-call trace, GitHub-call
trace, output lines, and the outcome (`error` means a non-zero exit). -/
structure ExecResult where
  driverCalls : List DriverCall
  ghCalls : List GHCall
  output : List String
  outcome : Except String Unit
deriving DecidableEq, Repr

/-- Final skipped-changes report of `executeSend`. -/
def executeSendFinish (skippedStates : List ChangeState)
    (skippedIDs : List (String × SkipReason)) (drv : List DriverCall) (gh : List GHCall)
    (out : List String) : ExecResult :=
  if skippedStates.length > 0 then
    ⟨drv, gh, out ++ skippedLines skippedStates skippedIDs,
     .error (toString skippedStates.length ++
       " change(s) skipped due to diverged or behind bookmarks")⟩
  else ⟨drv, gh, out, .ok ()⟩

/-- Push, create-or-update, stack-navigation, and summary stages of
`executeSend` (steps 5 to 8), entered only outside dry-run mode. -/
def executeSendPush (runner : Driver) (client : Client) (opts : SendOpts)
    (repoFullName : String) (bookmarkByName : String → Option BookmarkInfo)
    (activeStates skippedStates : List ChangeState) (skippedIDs : List (String × SkipReason))
    (drv : List DriverCall) (gh : List GHCall) (out : List String) : ExecResult :=
  if activeStates.length > 0 then
    let pushBookmarks := activeStates.map (fun s => s.bookmark.bookmark)
    let out := out ++ ["\nPushing " ++ toString pushBookmarks.length ++ " bookmark(s)...\n"]
    let drv := drv ++ [DriverCall.gitPush pushBookmarks true opts.remote]
    match runner.gitPushRes pushBookmarks true opts.remote with
    | .error e => ⟨drv, gh, out, .error ("pushing: " ++ e)⟩
    | .ok _ =>
      match prLoop runner client bookmarkByName opts repoFullName activeStates with
      | (drvP, ghP, outP, .error e) => ⟨drv ++ drvP, gh ++ ghP, out ++ outP, .error e⟩
      | (drvP, ghP, outP, .ok activeStates2) =>
        let drv := drv ++ drvP
        let gh := gh ++ ghP
        let out := out ++ outP
        let stage : List GHCall × Except String (List ChangeState) :=
          if !opts.noStack then
            bodyLoop client repoFullName (activeStates2.zip (computeStackPRs activeStates2))
          else ([], .ok activeStates2)
        match stage with
        | (ghB, .error e) => ⟨drv, gh ++ ghB, out, .error e⟩
        | (ghB, .ok activeStates3) =>
          let out := out ++ ["\n" ++ toString activeStates3.length ++ " PR(s) sent:\n\n"] ++
            summaryLines activeStates3
          executeSendFinish skippedStates skippedIDs drv (gh ++ ghB) out
  else executeSendFinish skippedStates skippedIDs drv gh out

/-- Skip classification and the dry-run branch of `executeSend` (steps 4b and
4c): classify, split active from skipped, and in dry-run mode print the
planned actions and stop before any push or PR mutation. -/
def executeSendClassify (runner : Driver) (client : Client) (opts : SendOpts)
    (repoFullName : String) (bookmarkByName : String → Option BookmarkInfo)
    (allStates : List ChangeState) (drv : List DriverCall) (gh : List GHCall)
    (out : List String) : ExecResult :=
  let skippedIDs := classifySkips allStates
  let activeStates := allStates.filter (fun s => !(skippedIDs.lookup s.change.changeID).isSome)
  let skippedStates := allStates.filter (fun s => (skippedIDs.lookup s.change.changeID).isSome)
  if opts.dryRun then
    let out := out ++
      ["\nDry run — " ++ toString activeStates.length ++ " change(s) would be sent:\n\n"]
    let out := out ++ activeStates.foldl
      (fun acc s =>
        let action := match s.pr with
          | some pr => "UPDATE #" ++ toString pr.number
          | none => "CREATE"
        let bmStatus := if !s.bookmark.isNew then "existing" else "new"
        acc ++ ["  " ++ action ++ "  " ++ String.mk (s.change.changeID.data.take 12) ++ "  " ++
            s.change.description ++ "\n",
          "         bookmark: " ++ s.bookmark.bookmark ++ " (" ++ bmStatus ++ ")\n"])
      []
    let out := if skippedStates.length > 0 then out ++ skippedLines skippedStates skippedIDs
      else out
    if skippedStates.length > 0 then
      ⟨drv, gh, out, .error (toString skippedStates.length ++
        " change(s) skipped due to diverged or behind bookmarks")⟩
    else ⟨drv, gh, out, .ok ()⟩
  else
    executeSendPush runner client opts repoFullName bookmarkByName activeStates skippedStates
      skippedIDs drv gh out

/-- Per-DAG assignment and the `--existing` filter of `executeSend` (steps 4
and 4a). -/
def executeSendAssign (runner : Driver) (client : Client) (opts : SendOpts)
    (repoFullName : String) (bookmarks : List BookmarkInfo)
    (bookmarkByName : String → Option BookmarkInfo) (prMap : List (String × PRInfo))
    (dags : List ChangeDAG) (drv : List DriverCall) (gh : List GHCall) (out : List String) :
    ExecResult :=
  match assignLoop runner bookmarks prMap opts dags with
  | (calls, .error e) => ⟨drv ++ calls, gh, out, .error e⟩
  | (calls, .ok allStates0) =>
    let drv := drv ++ calls
    if opts.existing then
      let filtered := allStates0.filter (fun s => s.pr.isSome)
      let skippedN := allStates0.length - filtered.length
      let out := if skippedN > 0 then
        out ++ ["\nSkipping " ++ toString skippedN ++ " change(s) without existing PRs.\n"]
        else out
      if filtered.length = 0 then ⟨drv, gh, out ++ ["No existing PRs to update.\n"], .ok ()⟩
      else executeSendClassify runner client opts repoFullName bookmarkByName filtered drv gh out
    else executeSendClassify runner client opts repoFullName bookmarkByName allStates0 drv gh out

/-- Stack resolution, `--no-stack` reduction, bookmark inventory, and PR
pre-fetch of `executeSend` (steps 2 and 3). -/
def executeSendCore (runner : Driver) (client : Client) (opts : SendOpts)
    (drv : List DriverCall) (gh : List GHCall) (out : List String) : ExecResult :=
  let repoFullName := client.owner ++ "/" ++ client.repo
  let rs := ResolveStacks runner opts.revsets opts.base
  let drv := drv ++ rs.1
  match rs.2 with
  | .error e => ⟨drv, gh, out, .error ("resolving stacks: " ++ e)⟩
  | .ok dags0 =>
    if dags0.length = 0 then ⟨drv, gh, out ++ ["No changes to send.\n"], .ok ()⟩
    else
      match (if opts.noStack then reduceNoStack dags0 else .ok dags0) with
      | .error e => ⟨drv, gh, out, .error e⟩
      | .ok dags =>
        let drv := drv ++ [DriverCall.bookmarkList]
        match runner.bookmarkListRes with
        | .error e => ⟨drv, gh, out, .error ("listing bookmarks: " ++ e)⟩
        | .ok bookmarks =>
          let bookmarkByName := byNameOf bookmarks
          let remoteBranches := collectRemoteBranches dags bookmarkByName opts.remote
          if remoteBranches.length > 0 then
            match client.lookupRes remoteBranches with
            | .error e =>
              ⟨drv, gh ++ [GHCall.lookupPRsByBranch remoteBranches], out,
               .error ("looking up PRs: " ++ e)⟩
            | .ok prMap =>
              executeSendAssign runner client opts repoFullName bookmarks bookmarkByName prMap
                dags drv (gh ++ [GHCall.lookupPRsByBranch remoteBranches]) out
          else
            executeSendAssign runner client opts repoFullName bookmarks bookmarkByName [] dags
              drv gh out

/-- Model of `executeSend`: fetch, resolve stacks, assign bookmarks, classify,
and either report a dry run or push and create/update PRs. -/
def executeSend (runner : Driver) (client : Client) (opts : SendOpts) : ExecResult :=
  let out0 : List String := ["Fetching " ++ opts.remote ++ "...\n"]
  let drv0 : List DriverCall := [DriverCall.gitFetch opts.remote]
  match runner.gitFetchRes opts.remote with
  | .error e => ⟨drv0, [], out0, .error ("fetching " ++ opts.remote ++ ": " ++ e)⟩
  | .ok _ =>
    if !(opts.upstreamRemote == "") && !(opts.upstreamRemote == opts.remote) then
      let out1 := out0 ++ ["Fetching " ++ opts.upstreamRemote ++ "...\n"]
      let drv1 := drv0 ++ [DriverCall.gitFetch opts.upstreamRemote]
      match runner.gitFetchRes opts.upstreamRemote with
      | .error e => ⟨drv1, [], out1, .error ("fetching " ++ opts.upstreamRemote ++ ": " ++ e)⟩
      | .ok _ => executeSendCore runner client opts drv1 [] out1
    else executeSendCore runner client opts drv0 [] out0

/-! ## Specification-side definitions

These definitions formalize the vocabulary of the specification (ancestors,
descendants, skip conditions, the amended collapsing rule) independently of the
embedded implementation, so theorems can compare the two. -/

/-- Change ids of a state list. -/
def stateIDs (states : List ChangeState) : List String :=
  states.map (fun s => s.change.changeID)

/-- The state carrying a given change id (first occurrence). -/
def stateOf (states : List ChangeState) (id : String) : Option ChangeState :=
  states.find? (fun s => s.change.changeID == id)

/-- One parent edge restricted to the state set: `y` is a parent of `x` and
both ids belong to the set. -/
def parentStep (states : List ChangeState) (x y : String) : Prop :=
  ∃ s, stateOf states x = some s ∧ y ∈ s.change.parentIDs ∧ y ∈ stateIDs states

/-- `y` is a strict ancestor of `x` within the state set. -/
def ancestorOf (states : List ChangeState) (x y : String) : Prop :=
  Relation.TransGen (parentStep states) x y

/-- The non-cascade skip conditions of one change: displaced bookmark engaged,
conflicted bookmark, or sync state behind. -/
def ownSkipCond (s : ChangeState) : Prop :=
  s.bookmark.displaced = true ∨ s.bookmark.conflict = true ∨
    s.bookmark.syncState = SyncState.behind

/-- The specification's characterization of a skipped change: its own condition
holds, or some strict ancestor's own condition holds. -/
def specSkipped (states : List ChangeState) (id : String) : Prop :=
  (∃ s, stateOf states id = some s ∧ ownSkipCond s) ∨
    (∃ a s, ancestorOf states id a ∧ stateOf states a = some s ∧ ownSkipCond s)

/-- Membership in the dependency chain of a change: the change itself, its
ancestors, and its descendants, within the state set. -/
def relatedTo (states : List ChangeState) (cid oid : String) : Prop :=
  oid = cid ∨ ancestorOf states cid oid ∨ ancestorOf states oid cid

/-- The topological-order hypothesis on a state list: every parent of an
element that belongs to the set occurs strictly earlier in the list. -/
def TopoOrdered (states : List ChangeState) : Prop :=
  ∀ j (hj : j < states.length), ∀ pid ∈ (states.get ⟨j, hj⟩).change.parentIDs,
    pid ∈ stateIDs states → (stateIDs states).indexOf pid < j

/-- Concatenation of rendered file sections with one uniform expansion
flag. -/
def concatSections (e : Bool) : List FileDiff → String
  | [] => ""
  | f :: rest => diffSection f e ++ concatSections e rest

/-- Rendering of the diff comment as the amended collapsing rule words it:
every section is rendered expanded exactly when the total number of body lines
over all parsed sections is at most the collapse threshold. -/
def specDiffComment (codeDiff repoName baseBranch oldCommit newCommit : String) : String :=
  let footer := rangeDiffFooter repoName baseBranch oldCommit newCommit
  if String.mk (trimSpaceChars codeDiff.data) = "" then
    "### Changes since last push\n\n**No code changes** (likely just a rebase).\n" ++ footer
  else
    let files := parseGitDiff codeDiff
    let expandAll := decide (totalBodyLines files ≤ collapseThreshold)
    "### Changes since last push\n" ++ concatSections expandAll files ++ footer

/-- A diff whose single file section has two changed lines but more than
twenty body lines in total (context included). -/
def collapseCex : String :=
  "diff --git a/f b/f\n@@\n x\n x\n x\n x\n x\n x\n x\n x\n x\n x\n x\n x\n x\n x\n x\n x\n x\n x\n x\n+a\n-b"

/-- The collapsing measure as the original claim words it: the sum of `+` and
`-` lines over all file sections, excluding the `+++`/`---` headers. -/
def claimPlusMinusTotal (diff : String) : Int :=
  (parseGitDiff diff).foldl (fun acc f => acc + (diffStats f.body).1 + (diffStats f.body).2) 0

/-- Substring occurrence test over character lists. -/
def containsSeq : List Char → List Char → Bool
  | [], needle => needle.isEmpty
  | c :: rest, needle => needle.isPrefixOf (c :: rest) || containsSeq rest needle

/-- Substring occurrence test over strings. -/
def strContainsSub (s sub : String) : Bool := containsSeq s.data sub.data

/-- A driver-call trace containing no `Rebase` invocation. -/
def rebFree (l : List DriverCall) : Prop := ∀ c ∈ l, c.isRebase = false

/-- Invariant of the skip-classification fold after processing the prefix
`pre` of the state list: (1) only processed ids are marked; (2) a processed id
is marked exactly when the specification says it is skipped; (3) whenever a
marked id has a skipped parent, its recorded reason cites such a parent. -/
def ClassifyInv (states pre : List ChangeState) (m : List (String × SkipReason)) : Prop :=
  (∀ id, (m.lookup id).isSome = true → id ∈ stateIDs pre) ∧
  (∀ s ∈ pre, ((m.lookup s.change.changeID).isSome = true ↔
    specSkipped states s.change.changeID)) ∧
  (∀ id r, m.lookup id = some r →
    (∃ pid, parentStep states id pid ∧ specSkipped states pid) →
    ∃ a, r = ⟨skipAncestorReason, a⟩ ∧ parentStep states id a ∧ specSkipped states a)

/-- Concrete two-change stack for the cascade witness: `a` has a displaced
bookmark, `b` is its child. -/
def cascadeStates : List ChangeState :=
  [⟨⟨"a", "ca", "da", [], []⟩, ⟨"a", "bma", false, SyncState.unknown, false, true⟩,
    none, false, false⟩,
   ⟨⟨"b", "cb", "db", ["a"], []⟩, ⟨"b", "bmb", false, SyncState.inSync, false, false⟩,
    none, false, false⟩]

/-- The list of ids queued by one `decrKids` batch, in batch order. -/
def enqList : List String → (String → Int) → List String
  | [], _ => []
  | kid :: ks, deg =>
    let d := deg kid - 1
    let deg2 := fupd deg kid d
    if d = 0 then kid :: enqList ks deg2 else enqList ks deg2

/-- The id-to-position pairs `buildKnown` appends for a change list starting
at a given position. -/
def pairsFrom : List Change → Nat → List (String × Nat)
  | [], _ => []
  | c :: rest, i => (c.changeID, i) :: pairsFrom rest (i + 1)

/-- The change fetched for an id the way the Kahn loop reads it
(`idx := known[id]; ch := &all[idx]`). -/
def chOfIdx (all : List Change) (known : List (String × Nat)) (x : String) : Change :=
  all.getD ((known.lookup x).getD 0) default

/-- Number of in-component parents of a change that are not yet popped. -/
def degModelAt (all : List Change) (known : List (String × Nat)) (inComp : String → Bool)
    (S : List String) (x : String) : Nat :=
  ((chOfIdx all known x).parentIDs.filter
    (fun pid => inComp pid && !(S.contains pid))).length

/-- The multiplicity contributed to the `children[p]` list under key `x` by a
list of member positions. -/
def childContrib (all : List Change) (inComp : String → Bool) (p x : String) :
    List Nat → Nat
  | [] => 0
  | i :: rest =>
    (if inComp p = true ∧ (all.getD i default).changeID = x then
      (all.getD i default).parentIDs.count p
    else 0) + childContrib all inComp p x rest

/-- The topological-order property of a change list: every parent referenced
by a member that is itself a member appears strictly earlier. -/
def TopoOrderedChanges (cs : List Change) : Prop :=
  ∀ j (hj : j < cs.length), ∀ pid ∈ (cs.get ⟨j, hj⟩).parentIDs,
    pid ∈ cs.map Change.changeID → (cs.map Change.changeID).indexOf pid < j

/-- Concrete diamond stack `a → b, a → c, b → d, c → d` with PR numbers 1-4,
listed in topological input order. -/
def diamondStates : List ChangeState :=
  [⟨⟨"a", "c1", "da", [], []⟩, ⟨"a", "ba", false, SyncState.inSync, false, false⟩,
    some ⟨1, "", "", "", "", "", "", false⟩, false, false⟩,
   ⟨⟨"b", "c2", "db", ["a"], []⟩, ⟨"b", "bb", false, SyncState.inSync, false, false⟩,
    some ⟨2, "", "", "", "", "", "", false⟩, false, false⟩,
   ⟨⟨"c", "c3", "dc", ["a"], []⟩, ⟨"c", "bc", false, SyncState.inSync, false, false⟩,
    some ⟨3, "", "", "", "", "", "", false⟩, false, false⟩,
   ⟨⟨"d", "c4", "dd", ["b", "c"], []⟩, ⟨"d", "bd", false, SyncState.inSync, false, false⟩,
    some ⟨4, "", "", "", "", "", "", false⟩, false, false⟩]

/-- Character class `[a-z0-9-]` of the slug output. -/
def isSlugOutChar (c : Char) : Bool := isSlugAlnum c || c = '-'

/-- No two adjacent hyphens. -/
def NoHH (l : List Char) : Prop := List.Chain' (fun a b => ¬(a = '-' ∧ b = '-')) l

/-- A driver oracle whose every operation succeeds, used for concrete runs. -/
def okDriver : Driver :=
  ⟨fun _ => .ok (), fun _ => .ok [], .ok [], fun _ _ => .ok (),
   fun _ _ _ => .ok (), fun _ _ => .ok "", fun _ _ => .ok ()⟩

/-- Driver oracle for the concrete dry-run scenario: the log yields a single
fresh change with no parents and no bookmarks. -/
def dryRunDriver : Driver :=
  { okDriver with logRes := fun _ => .ok [⟨"zzz", "c1", "feat: x", [], []⟩] }

/-- Client oracle for the concrete dry-run scenario. -/
def dryRunClient : Client :=
  ⟨"own", "repo", fun _ => .ok [], fun _ _ _ _ _ => .ok default,
   fun _ _ _ _ _ => .ok (), fun _ _ => .ok (), fun _ _ => .ok ()⟩

/-- Options for the concrete dry-run scenario: plain `send --dry-run`. -/
def dryRunOpts : SendOpts :=
  ⟨"main", "origin", "", "", "", true, false, false, false, [], ["@-"]⟩

/-! ## THEOREMS -/

/-- C6: `SyncWith` evaluates its checks exactly in the specified order —
conflict forces diverged; a missing remote entry yields local-only when the
bookmark is present and unknown otherwise; a remote entry without local
presence yields remote-only; ahead and behind both positive yield diverged;
behind alone yields ahead; ahead alone yields behind; otherwise in-sync — and
it never returns unknown when the remote entry is present. -/
theorem syncWith_spec (b : BookmarkInfo) (remote : String) :
    (b.conflict = true → SyncWith b remote = SyncState.diverged)
    ∧ (b.conflict = false → b.remotes.lookup remote = none → b.present = true →
        SyncWith b remote = SyncState.localOnly)
    ∧ (b.conflict = false → b.remotes.lookup remote = none → b.present = false →
        SyncWith b remote = SyncState.unknown)
    ∧ (∀ rs, b.conflict = false → b.remotes.lookup remote = some rs → b.present = false →
        SyncWith b remote = SyncState.remoteOnly)
    ∧ (∀ rs, b.conflict = false → b.remotes.lookup remote = some rs → b.present = true →
        rs.ahead > 0 → rs.behind > 0 → SyncWith b remote = SyncState.diverged)
    ∧ (∀ rs, b.conflict = false → b.remotes.lookup remote = some rs → b.present = true →
        rs.behind > 0 → ¬rs.ahead > 0 → SyncWith b remote = SyncState.ahead)
    ∧ (∀ rs, b.conflict = false → b.remotes.lookup remote = some rs → b.present = true →
        rs.ahead > 0 → ¬rs.behind > 0 → SyncWith b remote = SyncState.behind)
    ∧ (∀ rs, b.conflict = false → b.remotes.lookup remote = some rs → b.present = true →
        ¬rs.ahead > 0 → ¬rs.behind > 0 → SyncWith b remote = SyncState.inSync)
    ∧ (∀ rs, b.remotes.lookup remote = some rs → SyncWith b remote ≠ SyncState.unknown) := by
  refine ⟨?_, ?_, ?_, ?_, ?_, ?_, ?_, ?_, ?_⟩
  · intro h; simp [SyncWith, h]
  · intro h1 h2 h3; simp [SyncWith, h1, h2, h3]
  · intro h1 h2 h3; simp [SyncWith, h1, h2, h3]
  · intro rs h1 h2 h3; simp [SyncWith, h1, h2, h3]
  · intro rs h1 h2 h3 h4 h5; simp [SyncWith, h1, h2, h3, h4, h5]
  · intro rs h1 h2 h3 h4 h5; simp [SyncWith, h1, h2, h3, h4, h5]
  · intro rs h1 h2 h3 h4 h5; simp [SyncWith, h1, h2, h3, h4, h5]
  · intro rs h1 h2 h3 h4; simp [SyncWith, h1, h2, h3, h4]
  · intro rs h1
    cases hc : b.conflict with
    | true => simp [SyncWith, hc]
    | false =>
      cases hp : b.present with
      | true =>
        by_cases ha : rs.ahead > 0 <;> by_cases hb : rs.behind > 0 <;>
          simp [SyncWith, hc, h1, hp, ha, hb]
      | false => simp [SyncWith, hc, h1, hp]

/-- C6 witness: a bookmark whose remote copy is two commits behind is reported
as ahead. -/
theorem syncWith_spec_witness :
    SyncWith ⟨"b", "t", "c", true, false, [("origin", ⟨"rt", true, 0, 2⟩)]⟩ "origin" =
      SyncState.ahead :=
  (syncWith_spec ⟨"b", "t", "c", true, false, [("origin", ⟨"rt", true, 0, 2⟩)]⟩
      "origin").2.2.2.2.2.1 ⟨"rt", true, 0, 2⟩ rfl rfl rfl (by decide) (by decide)

/-- The list of the four skip reason literals the classification loop can
record. -/
def allSkipReasons : List String :=
  [skipAncestorReason, skipDisplacedReason, skipConflictReason, skipBehindReason]

/-- Filtering out one key leaves lookups of other keys unchanged. -/
theorem lookup_filter_ne (m : List (String × SkipReason)) (k x : String) (h : x ≠ k) :
    (m.filter (fun kv => !(kv.1 == k))).lookup x = m.lookup x := by
  induction m with
  | nil => rfl
  | cons kv rest ih =>
    have hxk : (x == k) = false := by simpa using h
    by_cases h2 : kv.1 = k
    · have h3 : (x == kv.1) = false := by rw [h2]; exact hxk
      simp [List.filter_cons, h2, List.lookup, h3, hxk, ih]
    · by_cases h4 : x = kv.1
      · simp [List.filter_cons, h2, List.lookup, h4]
      · simp [List.filter_cons, h2, List.lookup,
          show (x == kv.1) = false by simpa using h4, ih]

/-- Lookup in a `mapSetSkip` result: the written key reads back the written
value, other keys read the previous map. -/
theorem lookup_mapSetSkip (m : List (String × SkipReason)) (k : String) (v : SkipReason)
    (x : String) :
    (mapSetSkip m k v).lookup x = if x = k then some v else m.lookup x := by
  by_cases h : x = k
  · subst h; simp [mapSetSkip, List.lookup]
  · simp [mapSetSkip, List.lookup, show (x == k) = false by simpa using h, h,
      lookup_filter_ne _ _ _ h]

/-- Assigning a key with a reason from the literal list preserves the
reason-set invariant of the map. -/
theorem mapSetSkip_reasons (m : List (String × SkipReason)) (k0 : String) (v : SkipReason)
    (hm : ∀ k r, m.lookup k = some r → r.reason ∈ allSkipReasons)
    (hv : v.reason ∈ allSkipReasons) :
    ∀ k r, (mapSetSkip m k0 v).lookup k = some r → r.reason ∈ allSkipReasons := by
  intro k r h
  rw [lookup_mapSetSkip] at h
  split at h
  · cases h; exact hv
  · exact hm _ _ h

/-- Every reason the classification step inserts is one of the four
literals. -/
theorem classifyStep_reasons (m : List (String × SkipReason)) (s : ChangeState)
    (hm : ∀ k r, m.lookup k = some r → r.reason ∈ allSkipReasons) :
    ∀ k r, (classifyStep m s).lookup k = some r → r.reason ∈ allSkipReasons := by
  intro k r h
  have anc : ∀ pid, ∀ k r,
      (mapSetSkip m s.change.changeID ⟨skipAncestorReason, pid⟩).lookup k = some r →
      r.reason ∈ allSkipReasons :=
    fun pid => mapSetSkip_reasons m s.change.changeID ⟨skipAncestorReason, pid⟩ hm
      (by simp [allSkipReasons])
  cases hfind : s.change.parentIDs.find? (fun pid => (m.lookup pid).isSome) with
  | some pid =>
    simp only [classifyStep, hfind] at h
    split at h
    · exact anc pid _ _ h
    · split at h
      · exact mapSetSkip_reasons _ _ _ (anc pid) (by simp [allSkipReasons]) _ _ h
      · split at h
        · exact mapSetSkip_reasons _ _ _ (anc pid) (by simp [allSkipReasons]) _ _ h
        · split at h
          · exact mapSetSkip_reasons _ _ _ (anc pid) (by simp [allSkipReasons]) _ _ h
          · exact anc pid _ _ h
  | none =>
    simp only [classifyStep, hfind] at h
    split at h
    · exact hm _ _ h
    · split at h
      · exact mapSetSkip_reasons _ _ _ hm (by simp [allSkipReasons]) _ _ h
      · split at h
        · exact mapSetSkip_reasons _ _ _ hm (by simp [allSkipReasons]) _ _ h
        · split at h
          · exact mapSetSkip_reasons _ _ _ hm (by simp [allSkipReasons]) _ _ h
          · exact hm _ _ h

/-- Reason-set invariant over the whole classification fold. -/
theorem classifySkips_reasons (allStates : List ChangeState) :
    ∀ k r, (classifySkips allStates).lookup k = some r → r.reason ∈ allSkipReasons := by
  suffices h : ∀ (l : List ChangeState) (m : List (String × SkipReason)),
      (∀ k r, m.lookup k = some r → r.reason ∈ allSkipReasons) →
      ∀ k r, (l.foldl classifyStep m).lookup k = some r → r.reason ∈ allSkipReasons by
    exact h allStates [] (by intro k r hkr; simp [List.lookup] at hkr)
  intro l
  induction l with
  | nil => intro m hm; exact hm
  | cons s rest ih => intro m hm; exact ih _ (classifyStep_reasons m s hm)

/-- C2 (code_bug evidence): the skip classification of the send pipeline can
only record the four implemented reason literals; in particular no change is
ever skipped with the reason "has conflicts", although the repository's tests
require a conflicted merge change to be skipped with exactly that reason. The
`Change` record the jj log template produces carries no conflict flag at
all. -/
theorem classifySkips_no_has_conflicts (allStates : List ChangeState) (id : String)
    (r : SkipReason) (h : (classifySkips allStates).lookup id = some r) :
    r.reason ∈ allSkipReasons ∧ r.reason ≠ "has conflicts" := by
  have hr := classifySkips_reasons allStates id r h
  refine ⟨hr, fun hx => ?_⟩
  rw [hx] at hr
  exact absurd hr (by decide)

/-- C2 witness: a displaced change is recorded with the displaced-bookmark
reason, which is not "has conflicts". -/
theorem classifySkips_no_has_conflicts_witness :
    (classifySkips [⟨⟨"x", "cx", "d", [], []⟩,
        ⟨"x", "bm", false, SyncState.unknown, false, true⟩, none, false, false⟩]).lookup "x" =
      some ⟨skipDisplacedReason, ""⟩ ∧
    (⟨skipDisplacedReason, ""⟩ : SkipReason).reason ∈ allSkipReasons ∧
    (⟨skipDisplacedReason, ""⟩ : SkipReason).reason ≠ "has conflicts" :=
  ⟨by decide,
   classifySkips_no_has_conflicts
     [⟨⟨"x", "cx", "d", [], []⟩, ⟨"x", "bm", false, SyncState.unknown, false, true⟩,
       none, false, false⟩]
     "x" ⟨skipDisplacedReason, ""⟩ (by decide)⟩

/-- The `BookmarkSet` trace expected for a result list: one call per `is_new`
entry, in order. -/
def expectedSetCalls (res : List ChangeBookmark) : List DriverCall :=
  (res.filter (fun r => r.isNew)).map (fun r => DriverCall.bookmarkSet r.bookmark r.changeID)

/-- Concatenation law for the expected trace. -/
theorem expectedSetCalls_append (a b : List ChangeBookmark) :
    expectedSetCalls (a ++ b) = expectedSetCalls a ++ expectedSetCalls b := by
  simp [expectedSetCalls, List.filter_append]

/-- Every call the `EnsureBookmarks` loop appends is a `BookmarkSet`. -/
theorem ensureGo_only_bookmarkSet (runner : Driver) (matched : String → List BookmarkInfo)
    (byName : String → Option BookmarkInfo) (pushRemote : String)
    (shouldUse : Option (String → String → Bool)) (createNew : Bool) :
    ∀ (cs : List Change) (res : List ChangeBookmark) (calls : List DriverCall),
      (∀ c ∈ calls, c.isBookmarkSet = true) →
      ∀ c ∈ (ensureGo runner matched byName pushRemote shouldUse createNew cs res calls).1,
        c.isBookmarkSet = true := by
  intro cs
  induction cs with
  | nil => intro res calls hc; exact hc
  | cons change rest ih =>
    intro res calls hc
    have happ : ∀ nm rv, ∀ c ∈ calls ++ [DriverCall.bookmarkSet nm rv], c.isBookmarkSet = true := by
      intro nm rv c hcmem
      rcases List.mem_append.mp hcmem with h1 | h2
      · exact hc c h1
      · rcases List.mem_singleton.mp h2 with rfl; rfl
    simp only [ensureGo]
    split
    · exact ih _ _ hc
    · split
      · exact ih _ _ hc
      · split
        · exact ih _ _ hc
        · split
          · exact happ _ _
          · exact ih _ _ (happ _ _)

/-- On success, the trace of the `EnsureBookmarks` loop is exactly one
`BookmarkSet` per returned `is_new` entry. -/
theorem ensureGo_trace (runner : Driver) (matched : String → List BookmarkInfo)
    (byName : String → Option BookmarkInfo) (pushRemote : String)
    (shouldUse : Option (String → String → Bool)) (createNew : Bool) :
    ∀ (cs : List Change) (res : List ChangeBookmark) (calls : List DriverCall),
      calls = expectedSetCalls res →
      ∀ out, (ensureGo runner matched byName pushRemote shouldUse createNew cs res calls).2 =
          .ok out →
        (ensureGo runner matched byName pushRemote shouldUse createNew cs res calls).1 =
          expectedSetCalls out := by
  intro cs
  induction cs with
  | nil =>
    intro res calls hc out hout
    simp only [ensureGo] at hout ⊢
    cases hout; exact hc
  | cons change rest ih =>
    intro res calls hc out
    simp only [ensureGo]
    split
    · exact ih _ _ (by rw [hc, expectedSetCalls_append]; simp [expectedSetCalls]) out
    · split
      · exact ih _ _ (by rw [hc, expectedSetCalls_append]; simp [expectedSetCalls]) out
      · split
        · exact ih _ _ hc out
        · split
          · intro hout; exact absurd hout (by simp)
          · exact ih _ _ (by rw [hc, expectedSetCalls_append]; simp [expectedSetCalls]) out

/-- With creation disabled the `EnsureBookmarks` loop makes no driver call and
always succeeds. -/
theorem ensureGo_no_create (runner : Driver) (matched : String → List BookmarkInfo)
    (byName : String → Option BookmarkInfo) (pushRemote : String)
    (shouldUse : Option (String → String → Bool)) :
    ∀ (cs : List Change) (res : List ChangeBookmark) (calls : List DriverCall),
      (ensureGo runner matched byName pushRemote shouldUse false cs res calls).1 = calls ∧
      ∃ out, (ensureGo runner matched byName pushRemote shouldUse false cs res calls).2 =
        .ok out := by
  intro cs
  induction cs with
  | nil => intro res calls; exact ⟨rfl, _, rfl⟩
  | cons change rest ih =>
    intro res calls
    simp only [ensureGo]
    split
    · exact ih _ _
    · split
      · exact ih _ _
      · simp only [Bool.not_false, if_true]
        exact ih _ _

/-- C10: the only VCS-driver operation `EnsureBookmarks` invokes is
`BookmarkSet` — on success exactly once per entry it returns with `is_new`
true, in order — and when `create_new` is false it invokes no driver operation
at all and always succeeds. -/
theorem ensureBookmarks_frame (runner : Driver) (dag : ChangeDAG)
    (bookmarks : List BookmarkInfo) (pushRemote : String)
    (shouldUse : Option (String → String → Bool)) (createNew : Bool) :
    (∀ c ∈ (EnsureBookmarks runner dag bookmarks pushRemote shouldUse createNew).1,
        c.isBookmarkSet = true)
    ∧ (∀ out, (EnsureBookmarks runner dag bookmarks pushRemote shouldUse createNew).2 = .ok out →
        (EnsureBookmarks runner dag bookmarks pushRemote shouldUse createNew).1 =
          expectedSetCalls out)
    ∧ (createNew = false →
        (EnsureBookmarks runner dag bookmarks pushRemote shouldUse createNew).1 = [] ∧
        ∃ out, (EnsureBookmarks runner dag bookmarks pushRemote shouldUse createNew).2 =
          .ok out) := by
  refine ⟨?_, ?_, ?_⟩
  · exact ensureGo_only_bookmarkSet runner _ _ pushRemote shouldUse createNew dag.changes [] []
      (by intro c hcm; simp at hcm)
  · exact fun out hout => ensureGo_trace runner _ _ pushRemote shouldUse createNew dag.changes
      [] [] (by simp [expectedSetCalls]) out hout
  · rintro rfl
    exact ensureGo_no_create runner _ _ pushRemote shouldUse dag.changes [] []

/-- C10 witness: one fresh change with creation enabled yields exactly one
`BookmarkSet` call matching the single `is_new` result entry. -/
theorem ensureBookmarks_frame_witness :
    (EnsureBookmarks okDriver ⟨[⟨"abcd", "c1", "feat: x", [], []⟩], [("abcd", ⟨"abcd", "c1", "feat: x", [], []⟩)]⟩
        [] "origin" none true).2 =
      .ok [⟨"abcd", "jip/x/abcd", true, SyncState.localOnly, false, false⟩] ∧
    (EnsureBookmarks okDriver ⟨[⟨"abcd", "c1", "feat: x", [], []⟩], [("abcd", ⟨"abcd", "c1", "feat: x", [], []⟩)]⟩
        [] "origin" none true).1 =
      expectedSetCalls [⟨"abcd", "jip/x/abcd", true, SyncState.localOnly, false, false⟩] :=
  ⟨by decide,
   (ensureBookmarks_frame okDriver
      ⟨[⟨"abcd", "c1", "feat: x", [], []⟩], [("abcd", ⟨"abcd", "c1", "feat: x", [], []⟩)]⟩
      [] "origin" none true).2.1
     [⟨"abcd", "jip/x/abcd", true, SyncState.localOnly, false, false⟩] (by decide)⟩

/-- A slug-alphanumeric character is not a hyphen. -/
theorem isSlugAlnum_ne_hyphen {c : Char} (h : isSlugAlnum c = true) : c ≠ '-' := by
  intro hc; rw [hc] at h; exact absurd h (by decide)

/-- Every character the run-collapsing step emits is in `[a-z0-9-]`. -/
theorem collapseRuns_all (flag : Bool) (s : List Char) :
    ∀ c ∈ collapseRuns flag s, isSlugOutChar c = true := by
  induction s generalizing flag with
  | nil => intro c hc; simp [collapseRuns] at hc
  | cons a rest ih =>
    intro c hc
    simp only [collapseRuns] at hc
    split at hc
    next ha =>
      rcases List.mem_cons.mp hc with rfl | hmem
      · simp [isSlugOutChar, ha]
      · exact ih false c hmem
    next ha =>
      split at hc
      · exact ih true c hc
      · rcases List.mem_cons.mp hc with rfl | hmem
        · decide
        · exact ih true c hmem

/-- Inside a run (`prevRun = true`) the collapsing step never emits a hyphen
first. -/
theorem collapseRuns_true_head (s : List Char) :
    ∀ c, (collapseRuns true s).head? = some c → isSlugAlnum c = true := by
  induction s with
  | nil => intro c hc; simp [collapseRuns] at hc
  | cons a rest ih =>
    intro c hc
    simp only [collapseRuns] at hc
    split at hc
    next ha =>
      rw [List.head?_cons] at hc
      cases hc; exact ha
    next ha =>
      rw [if_true] at hc
      exact ih c hc

/-- The run-collapsing step never emits two adjacent hyphens. -/
theorem collapseRuns_noHH (flag : Bool) (s : List Char) : NoHH (collapseRuns flag s) := by
  induction s generalizing flag with
  | nil => simp [collapseRuns, NoHH]
  | cons a rest ih =>
    simp only [collapseRuns, NoHH]
    split
    next ha =>
      rw [List.chain'_cons']
      exact ⟨fun y _ hand => isSlugAlnum_ne_hyphen ha hand.1, ih false⟩
    next ha =>
      split
      · exact ih true
      · rw [List.chain'_cons']
        refine ⟨?_, ih true⟩
        intro y hy hand
        exact isSlugAlnum_ne_hyphen (collapseRuns_true_head rest y hy) hand.2

/-- The head of a `dropWhile` result fails the predicate. -/
theorem head?_dropWhile_not (p : Char → Bool) (l : List Char) :
    ∀ c, (l.dropWhile p).head? = some c → p c = false := by
  induction l with
  | nil => intro c hc; simp [List.dropWhile] at hc
  | cons a rest ih =>
    intro c hc
    rw [List.dropWhile_cons] at hc
    by_cases hp : p a
    · rw [if_pos hp] at hc; exact ih c hc
    · rw [if_neg hp] at hc
      rw [List.head?_cons] at hc
      cases hc; simpa using hp

/-- `dropWhile` keeps the last element of a list it does not empty. -/
theorem getLast?_dropWhile (p : Char → Bool) (l : List Char) :
    l.dropWhile p ≠ [] → (l.dropWhile p).getLast? = l.getLast? := by
  induction l with
  | nil => intro h; simp [List.dropWhile] at h
  | cons a rest ih =>
    intro h
    rw [List.dropWhile_cons] at h ⊢
    by_cases hp : p a
    · rw [if_pos hp] at h ⊢
      have hrest : rest ≠ [] := by
        intro hr; rw [hr] at h; simp [List.dropWhile] at h
      rw [ih h]
      cases rest with
      | nil => exact absurd rfl hrest
      | cons b l' => rw [List.getLast?_cons_cons]
    · rw [if_neg hp]

/-- A `getLast?` value is a member. -/
theorem mem_of_getLast?_char {l : List Char} {a : Char} (h : l.getLast? = some a) : a ∈ l := by
  rcases List.getLast?_eq_some_iff.mp h with ⟨ys, rfl⟩
  simp

/-- Characters of the trimmed list are characters of the original. -/
theorem trimHyphens_subset (s : List Char) : ∀ c ∈ trimHyphens s, c ∈ s := by
  intro c hc
  unfold trimHyphens at hc
  rw [List.mem_reverse] at hc
  have h1 := (List.dropWhile_sublist (l := (s.dropWhile (fun c => c = '-')).reverse)
    (fun c => c = '-')).subset hc
  rw [List.mem_reverse] at h1
  exact (List.dropWhile_sublist (fun c => c = '-')).subset h1

/-- Trimming preserves the no-adjacent-hyphens property. -/
theorem trimHyphens_noHH {s : List Char} (h : NoHH s) : NoHH (trimHyphens s) := by
  unfold trimHyphens
  have h1 : NoHH (s.dropWhile (fun c => c = '-')) :=
    List.Chain'.suffix h (List.dropWhile_suffix _)
  have hrev : ∀ {l : List Char}, NoHH l → NoHH l.reverse := by
    intro l hl
    rw [NoHH, List.chain'_reverse]
    exact List.Chain'.imp (fun a b hab hand => hab ⟨hand.2, hand.1⟩) hl
  exact hrev (List.Chain'.suffix (hrev h1) (List.dropWhile_suffix _))

/-- The trimmed list never starts with a hyphen. -/
theorem head?_trimHyphens (s : List Char) :
    ∀ c, (trimHyphens s).head? = some c → c ≠ '-' := by
  intro c hc
  unfold trimHyphens at hc
  rw [List.head?_reverse] at hc
  have hne : (s.dropWhile (fun c => c = '-')).reverse.dropWhile (fun c => c = '-') ≠ [] := by
    intro h0; rw [h0] at hc; cases hc
  rw [getLast?_dropWhile _ _ hne, List.getLast?_reverse] at hc
  have := head?_dropWhile_not (fun c => c = '-') s c hc
  simpa using this

/-- The trimmed list never ends with a hyphen. -/
theorem getLast?_trimHyphens (s : List Char) :
    ∀ c, (trimHyphens s).getLast? = some c → c ≠ '-' := by
  intro c hc
  unfold trimHyphens at hc
  rw [List.getLast?_reverse] at hc
  have := head?_dropWhile_not (fun c => c = '-') (s.dropWhile (fun c => c = '-')).reverse c hc
  simpa using this

/-- A `none` result of `lastIdxOfHyphen` means no hyphen occurs. -/
theorem lastIdxOfHyphen_none {l : List Char} (h : lastIdxOfHyphen l = none) :
    ∀ c ∈ l, c ≠ '-' := by
  induction l with
  | nil => intro c hc; cases hc
  | cons a rest ih =>
    intro c hc
    simp only [lastIdxOfHyphen] at h
    cases hrest : lastIdxOfHyphen rest with
    | some j => rw [hrest] at h; cases h
    | none =>
      rw [hrest] at h
      by_cases ha : a = '-'
      · rw [if_pos ha] at h; cases h
      · rw [if_neg ha] at h
        rcases List.mem_cons.mp hc with rfl | hmem
        · exact ha
        · exact ih hrest c hmem

/-- A `some` result of `lastIdxOfHyphen` decomposes the list at its last
hyphen. -/
theorem lastIdxOfHyphen_some {l : List Char} {i : Nat} (h : lastIdxOfHyphen l = some i) :
    ∃ pre suf, l = pre ++ '-' :: suf ∧ pre.length = i ∧ ∀ c ∈ suf, c ≠ '-' := by
  induction l generalizing i with
  | nil => cases h
  | cons a rest ih =>
    simp only [lastIdxOfHyphen] at h
    cases hrest : lastIdxOfHyphen rest with
    | some j =>
      rw [hrest] at h
      cases h
      rcases ih hrest with ⟨pre, suf, hdec, hlen, hsuf⟩
      exact ⟨a :: pre, suf, by simp [hdec], by simp [hlen], hsuf⟩
    | none =>
      rw [hrest] at h
      by_cases ha : a = '-'
      · rw [if_pos ha] at h
        cases h
        exact ⟨[], rest, by simp [ha], rfl, lastIdxOfHyphen_none hrest⟩
      · rw [if_neg ha] at h; cases h

/-- The truncation step emits only characters of its input. -/
theorem truncateSlug_subset (s : List Char) : ∀ c ∈ truncateSlug s, c ∈ s := by
  intro c hc
  simp only [truncateSlug] at hc
  split at hc
  · split at hc
    · split at hc
      · exact List.take_subset _ _ (List.take_subset _ _ hc)
      · exact List.take_subset _ _ hc
    · exact List.take_subset _ _ hc
  · exact hc

/-- The truncation step caps the length at thirty. -/
theorem truncateSlug_len (s : List Char) : (truncateSlug s).length ≤ 30 := by
  have h30 : (s.take maxSlugLen).length ≤ 30 := by
    rw [List.length_take]
    exact le_trans inf_le_left (by norm_num [maxSlugLen])
  simp only [truncateSlug]
  split
  · split
    · split
      · rw [List.length_take]
        exact le_trans inf_le_right h30
      · exact h30
    · exact h30
  next hlen =>
    simp only [maxSlugLen] at hlen
    omega

/-- The truncation step preserves the head. -/
theorem truncateSlug_head (s : List Char) :
    ∀ c, (truncateSlug s).head? = some c → s.head? = some c := by
  intro c hc
  simp only [truncateSlug] at hc
  split at hc
  · split at hc
    · split at hc
      · rw [List.head?_take] at hc
        split at hc
        · cases hc
        · rw [List.head?_take] at hc
          split at hc
          · cases hc
          · exact hc
      · rw [List.head?_take] at hc
        split at hc
        · cases hc
        · exact hc
    · rw [List.head?_take] at hc
      split at hc
      · cases hc
      · exact hc
  · exact hc

/-- In the long branch the truncation step never ends with a hyphen: either
the cut lands after the last hyphen, or the kept prefix ends just before
one, and adjacent hyphens cannot occur. -/
theorem truncateSlug_getLast_long {s : List Char} (hnohh : NoHH s)
    (hlen : s.length > maxSlugLen) :
    ∀ c, (truncateSlug s).getLast? = some c → c ≠ '-' := by
  intro c hc
  simp only [truncateSlug, if_pos hlen] at hc
  have ht30 : (s.take maxSlugLen).length = maxSlugLen := by
    rw [List.length_take]
    simp only [maxSlugLen] at hlen ⊢
    omega
  have hnohh_t : NoHH (s.take maxSlugLen) :=
    List.Chain'.infix hnohh (List.IsPrefix.isInfix (List.take_prefix _ _))
  cases hidx : lastIdxOfHyphen (s.take maxSlugLen) with
  | none =>
    simp only [hidx] at hc
    exact lastIdxOfHyphen_none hidx c (mem_of_getLast?_char hc)
  | some i =>
    simp only [hidx] at hc
    rcases lastIdxOfHyphen_some hidx with ⟨pre, suf, hdec, hplen, hsuf⟩
    by_cases hgt : i > maxSlugLen / 2
    · rw [if_pos hgt] at hc
      have hpre : (s.take maxSlugLen).take i = pre := by
        rw [hdec, ← hplen, List.take_left]
      rw [hpre] at hc
      rcases List.getLast?_eq_some_iff.mp hc with ⟨pre', rfl⟩
      have hsfx : (c :: '-' :: suf) <:+ (s.take maxSlugLen) := by
        refine ⟨pre', ?_⟩
        rw [hdec]
        simp
      have hchain := List.Chain'.suffix hnohh_t hsfx
      rw [List.chain'_cons'] at hchain
      intro hceq
      exact hchain.1 '-' rfl ⟨hceq, rfl⟩
    · rw [if_neg hgt] at hc
      rw [hdec, List.getLast?_append] at hc
      cases suf with
      | nil =>
        exfalso
        have hlt : (s.take maxSlugLen).length = pre.length + 1 := by rw [hdec]; simp
        rw [ht30] at hlt
        simp only [maxSlugLen] at hlt hgt
        omega
      | cons s0 suf' =>
        rw [List.getLast?_cons_cons] at hc
        cases hgl : (s0 :: suf').getLast? with
        | none => exact absurd (List.getLast?_eq_none_iff.mp hgl) (by simp)
        | some d =>
          rw [hgl] at hc
          simp only [Option.or] at hc
          cases hc
          exact hsuf _ (mem_of_getLast?_char hgl)

/-- Structural properties of the slug: character class, length bound, and no
hyphen at either end. -/
theorem slugify_props (s : String) :
    (∀ c ∈ (slugify s).data, isSlugOutChar c = true) ∧
    (slugify s).data.length ≤ 30 ∧
    (∀ c, (slugify s).data.head? = some c → c ≠ '-') ∧
    (∀ c, (slugify s).data.getLast? = some c → c ≠ '-') := by
  have hdata : (slugify s).data = slugifyChars s.data := rfl
  rw [hdata]
  unfold slugifyChars
  refine ⟨?_, truncateSlug_len _, ?_, ?_⟩
  · intro c hc
    exact collapseRuns_all false _ c (trimHyphens_subset _ c (truncateSlug_subset _ c hc))
  · intro c hc
    exact head?_trimHyphens _ c (truncateSlug_head _ c hc)
  · intro c hc
    by_cases hlen :
        (trimHyphens (collapseRuns false (List.map Char.toLower (stripConvMarker s.data)))).length >
          maxSlugLen
    · exact truncateSlug_getLast_long (trimHyphens_noHH (collapseRuns_noHH false _)) hlen c hc
    · rw [truncateSlug, if_neg hlen] at hc
      exact getLast?_trimHyphens _ c hc

/-- C9: `GenerateBookmarkName` is a deterministic function producing
`jip/<slug>/<short_change_id>`, where the slug has at most thirty characters,
contains only characters in `[a-z0-9-]`, neither begins nor ends with a
hyphen, and is the literal `change` exactly when slugification yields the
empty string. -/
theorem generateBookmarkName_spec (d sid : String) :
    GenerateBookmarkName d sid =
      "jip/" ++ (if slugify d = "" then "change" else slugify d) ++ "/" ++ sid
    ∧ (if slugify d = "" then "change" else slugify d).length ≤ 30
    ∧ ((if slugify d = "" then "change" else slugify d).data.all isSlugOutChar = true)
    ∧ startsWithHyphen (if slugify d = "" then "change" else slugify d).data = false
    ∧ startsWithHyphen (if slugify d = "" then "change" else slugify d).data.reverse = false := by
  rcases slugify_props d with ⟨hall, hlen, hhead, hlast⟩
  refine ⟨rfl, ?_⟩
  by_cases h : slugify d = ""
  · simp only [if_pos h]
    exact ⟨by decide, by decide, by decide, by decide⟩
  · simp only [if_neg h]
    refine ⟨hlen, List.all_eq_true.mpr hall, ?_, ?_⟩
    · cases hd : (slugify d).data with
      | nil => rfl
      | cons c xs =>
        have hc : c ≠ '-' := hhead c (by rw [hd]; rfl)
        simp [startsWithHyphen, hc]
    · cases hd : (slugify d).data.reverse with
      | nil => rfl
      | cons c xs =>
        have hc : c ≠ '-' := by
          apply hlast c
          rw [List.getLast?_eq_head?_reverse, hd]
          rfl
        simp [startsWithHyphen, hc]

/-- The section fold of `BuildDiffComment` is the plain concatenation of the
rendered sections. -/
theorem foldl_sections_eq_concat (e : Bool) (files : List FileDiff) (init : String) :
    files.foldl (fun acc f => acc ++ diffSection f e) init = init ++ concatSections e files := by
  induction files generalizing init with
  | nil => simp [concatSections]
  | cons f rest ih =>
    rw [List.foldl_cons, ih, concatSections, String.append_assoc]

/-- C8 (amended): collapsing in `BuildDiffComment` is decided by the total
number of body lines over all file sections — every section is rendered
`<details open>` when that total is at most twenty and `<details>` otherwise —
not by the sum of `+`/`-` lines. -/
theorem buildDiffComment_eq_spec (codeDiff repoName baseBranch oldCommit newCommit : String) :
    BuildDiffComment codeDiff repoName baseBranch oldCommit newCommit =
      specDiffComment codeDiff repoName baseBranch oldCommit newCommit := by
  unfold BuildDiffComment specDiffComment
  split
  · rfl
  · simp only [foldl_sections_eq_concat]
    rfl

/-- C8 counterexample: a single-file diff with two changed lines (so the
claim's `+`/`-` sum is at most twenty) whose section is nonetheless rendered
collapsed, because its body has more than twenty lines in total. -/
theorem buildDiffComment_claim_counterexample :
    claimPlusMinusTotal collapseCex ≤ 20 ∧
    strContainsSub (BuildDiffComment collapseCex "o/r" "main" "oldc1234" "newc5678")
      "<details open>" = false ∧
    strContainsSub (BuildDiffComment collapseCex "o/r" "main" "oldc1234" "newc5678")
      "<details>" = true := by
  refine ⟨by decide, by decide, by decide⟩

/-- A `BookmarkSet` call is not a `Rebase` call. -/
theorem isBookmarkSet_not_isRebase {c : DriverCall} (h : c.isBookmarkSet = true) :
    c.isRebase = false := by
  cases c <;> first
    | rfl
    | exact absurd h (by simp [DriverCall.isBookmarkSet])

/-- The empty trace is rebase-free. -/
theorem rebFree_nil : rebFree [] := fun c hc => absurd hc (List.not_mem_nil c)

/-- Concatenation preserves rebase-freedom. -/
theorem rebFree_append {a b : List DriverCall} (ha : rebFree a) (hb : rebFree b) :
    rebFree (a ++ b) := by
  intro c hc
  rcases List.mem_append.mp hc with h | h
  · exact ha c h
  · exact hb c h

/-- A singleton trace of a non-rebase call is rebase-free. -/
theorem rebFree_singleton {c0 : DriverCall} (h : c0.isRebase = false) : rebFree [c0] := by
  intro c hc
  rcases List.mem_singleton.mp hc with rfl
  exact h

/-- The bookmark-assignment trace is rebase-free. -/
theorem ensureBookmarks_rebFree (runner : Driver) (dag : ChangeDAG)
    (bookmarks : List BookmarkInfo) (pushRemote : String)
    (shouldUse : Option (String → String → Bool)) (createNew : Bool) :
    rebFree (EnsureBookmarks runner dag bookmarks pushRemote shouldUse createNew).1 :=
  fun c hc => isBookmarkSet_not_isRebase
    ((ensureBookmarks_frame runner dag bookmarks pushRemote shouldUse createNew).1 c hc)

/-- The assignment loop's trace is rebase-free. -/
theorem assignLoop_rebFree (runner : Driver) (bookmarks : List BookmarkInfo)
    (prMap : List (String × PRInfo)) (opts : SendOpts) :
    ∀ dags, rebFree (assignLoop runner bookmarks prMap opts dags).1 := by
  intro dags
  induction dags with
  | nil => exact rebFree_nil
  | cons dag rest ih =>
    have h1 := ensureBookmarks_rebFree runner dag bookmarks opts.remote
      (some (shouldUseFor prMap)) (!opts.existing)
    simp only [assignLoop]
    split
    next heq =>
      rw [heq] at h1
      exact h1
    next heq =>
      rw [heq] at h1
      split
      next heq2 =>
        have h2 := ih
        rw [heq2] at h2
        exact rebFree_append h1 h2
      next heq2 =>
        have h2 := ih
        rw [heq2] at h2
        exact rebFree_append h1 h2

/-- The interdiff step's trace is rebase-free. -/
theorem interdiffStep_rebFree (runner : Driver) (client : Client)
    (byName : String → Option BookmarkInfo) (opts : SendOpts) (repo : String)
    (pr : PRInfo) (s s1 : ChangeState) :
    rebFree (interdiffStep runner client byName opts repo pr s s1).1 := by
  simp only [interdiffStep]
  split
  · exact rebFree_nil
  · split
    · exact rebFree_nil
    · split
      · split
        · exact rebFree_singleton rfl
        · split
          · exact rebFree_singleton rfl
          · exact rebFree_singleton rfl
      · exact rebFree_nil

/-- The create-or-update loop's trace is rebase-free. -/
theorem prLoop_rebFree (runner : Driver) (client : Client)
    (byName : String → Option BookmarkInfo) (opts : SendOpts) (repo : String) :
    ∀ states, rebFree (prLoop runner client byName opts repo states).1 := by
  intro states
  induction states with
  | nil => exact rebFree_nil
  | cons s rest ih =>
    simp only [prLoop]
    split
    next pr hpr =>
      split
      · exact rebFree_nil
      next gh1 s1 hts =>
        have hi := interdiffStep_rebFree runner client byName opts repo pr s s1
        split
        next heq =>
          rw [heq] at hi
          exact hi
        next heq =>
          rw [heq] at hi
          split
          next heq2 =>
            have h2 := ih
            rw [heq2] at h2
            exact rebFree_append hi h2
          next heq2 =>
            have h2 := ih
            rw [heq2] at h2
            exact rebFree_append hi h2
    next hpr =>
      split
      · exact rebFree_nil
      next =>
        split
        next heq2 =>
          have h2 := ih
          rw [heq2] at h2
          exact h2
        next heq2 =>
          have h2 := ih
          rw [heq2] at h2
          exact h2

/-- The final stage adds no driver call. -/
theorem executeSendFinish_rebFree (skippedStates : List ChangeState)
    (skippedIDs : List (String × SkipReason)) (drv : List DriverCall) (gh : List GHCall)
    (out : List String) (hd : rebFree drv) :
    rebFree (executeSendFinish skippedStates skippedIDs drv gh out).driverCalls := by
  simp only [executeSendFinish]
  split <;> exact hd

/-- The push stage only adds a push call and the create-or-update trace. -/
theorem executeSendPush_rebFree (runner : Driver) (client : Client) (opts : SendOpts)
    (repo : String) (byName : String → Option BookmarkInfo)
    (activeStates skippedStates : List ChangeState) (skippedIDs : List (String × SkipReason))
    (drv : List DriverCall) (gh : List GHCall) (out : List String) (hd : rebFree drv) :
    rebFree (executeSendPush runner client opts repo byName activeStates skippedStates
      skippedIDs drv gh out).driverCalls := by
  simp only [executeSendPush]
  split
  · split
    · exact rebFree_append hd (rebFree_singleton rfl)
    · have hp := prLoop_rebFree runner client byName opts repo activeStates
      split
      next heq =>
        rw [heq] at hp
        exact rebFree_append (rebFree_append hd (rebFree_singleton rfl)) hp
      next heq =>
        rw [heq] at hp
        split
        next heqS =>
          exact rebFree_append (rebFree_append hd (rebFree_singleton rfl)) hp
        next heqS =>
          exact executeSendFinish_rebFree _ _ _ _ _
            (rebFree_append (rebFree_append hd (rebFree_singleton rfl)) hp)
  · exact executeSendFinish_rebFree _ _ _ _ _ hd

/-- The classification stage adds no driver call. -/
theorem executeSendClassify_rebFree (runner : Driver) (client : Client) (opts : SendOpts)
    (repo : String) (byName : String → Option BookmarkInfo) (allStates : List ChangeState)
    (drv : List DriverCall) (gh : List GHCall) (out : List String) (hd : rebFree drv) :
    rebFree (executeSendClassify runner client opts repo byName allStates
      drv gh out).driverCalls := by
  simp only [executeSendClassify]
  split
  · split <;> exact hd
  · exact executeSendPush_rebFree runner client opts repo byName _ _ _ drv gh _ hd

/-- The assign stage adds only the assignment-loop trace. -/
theorem executeSendAssign_rebFree (runner : Driver) (client : Client) (opts : SendOpts)
    (repo : String) (bookmarks : List BookmarkInfo) (byName : String → Option BookmarkInfo)
    (prMap : List (String × PRInfo)) (dags : List ChangeDAG) (drv : List DriverCall)
    (gh : List GHCall) (out : List String) (hd : rebFree drv) :
    rebFree (executeSendAssign runner client opts repo bookmarks byName prMap dags
      drv gh out).driverCalls := by
  simp only [executeSendAssign]
  have ha := assignLoop_rebFree runner bookmarks prMap opts dags
  split
  next heq =>
    rw [heq] at ha
    exact rebFree_append hd ha
  next heq =>
    rw [heq] at ha
    split
    · split
      · exact rebFree_append hd ha
      · exact executeSendClassify_rebFree runner client opts repo byName _ _ gh _
          (rebFree_append hd ha)
    · exact executeSendClassify_rebFree runner client opts repo byName _ _ gh _
        (rebFree_append hd ha)

/-- The core stage adds the log and bookmark-list calls and the later
stages' traces. -/
theorem executeSendCore_rebFree (runner : Driver) (client : Client) (opts : SendOpts)
    (drv : List DriverCall) (gh : List GHCall) (out : List String) (hd : rebFree drv) :
    rebFree (executeSendCore runner client opts drv gh out).driverCalls := by
  simp only [executeSendCore]
  have hr : rebFree (ResolveStacks runner opts.revsets opts.base).1 := by
    simp only [ResolveStacks]
    split
    · exact rebFree_nil
    · split
      · exact rebFree_nil
      · exact rebFree_singleton rfl
  split
  · exact rebFree_append hd hr
  · split
    · exact rebFree_append hd hr
    · split
      · exact rebFree_append hd hr
      · split
        · exact rebFree_append (rebFree_append hd hr) (rebFree_singleton rfl)
        · split
          · split
            · exact rebFree_append (rebFree_append hd hr) (rebFree_singleton rfl)
            · exact executeSendAssign_rebFree runner client opts _ _ _ _ _ _ _ _
                (rebFree_append (rebFree_append hd hr) (rebFree_singleton rfl))
          · exact executeSendAssign_rebFree runner client opts _ _ _ _ _ _ _ _
              (rebFree_append (rebFree_append hd hr) (rebFree_singleton rfl))

/-- C3 (code_bug evidence): no run of the send pipeline ever invokes the
driver's `Rebase` operation, for any oracle results and options — `sendOpts`
has no rebase field, no `--rebase` flag is registered, and `executeSend` has
no code path reaching `Runner.Rebase`, although the repository's command
reference documents a `--rebase` flag with exactly the claimed behavior. -/
theorem executeSend_never_rebase (runner : Driver) (client : Client) (opts : SendOpts) :
    (executeSend runner client opts).driverCalls.all (fun c => !c.isRebase) = true := by
  have h : rebFree (executeSend runner client opts).driverCalls := by
    simp only [executeSend]
    split
    · exact rebFree_singleton rfl
    · split
      · split
        · exact rebFree_append (rebFree_singleton rfl) (rebFree_singleton rfl)
        · exact executeSendCore_rebFree runner client opts _ [] _
            (rebFree_append (rebFree_singleton rfl) (rebFree_singleton rfl))
      · exact executeSendCore_rebFree runner client opts _ [] _ (rebFree_singleton rfl)
  rw [List.all_eq_true]
  intro c hc
  rw [h c hc]
  rfl

/-- C1 (code_bug evidence): a dry run over one fresh change prints the
`Dry run` banner and a `CREATE` line, performs no network mutation, and exits
zero — but it still invokes `BookmarkSet` and thereby creates a bookmark,
because `executeSend` calls `EnsureBookmarks` with creation enabled before the
dry-run branch is reached. -/
theorem executeSend_dryRun_creates_bookmark :
    dryRunOpts.dryRun = true ∧
    (executeSend dryRunDriver dryRunClient dryRunOpts).outcome = .ok () ∧
    (executeSend dryRunDriver dryRunClient dryRunOpts).ghCalls = [] ∧
    "\nDry run — 1 change(s) would be sent:\n\n" ∈
      (executeSend dryRunDriver dryRunClient dryRunOpts).output ∧
    "  CREATE  zzz  feat: x\n" ∈ (executeSend dryRunDriver dryRunClient dryRunOpts).output ∧
    DriverCall.bookmarkSet "jip/x/zzz" "zzz" ∈
      (executeSend dryRunDriver dryRunClient dryRunOpts).driverCalls :=
  ⟨rfl, by decide, by decide, by decide, by decide, by decide⟩

/-- With globally distinct ids, `stateOf` returns exactly the member carrying
the id. -/
theorem stateOf_eq_of_mem {states : List ChangeState}
    (hnd : (stateIDs states).Nodup) {s : ChangeState} (hs : s ∈ states) :
    stateOf states s.change.changeID = some s := by
  induction states with
  | nil => cases hs
  | cons t rest ih =>
    have h0 : t.change.changeID ∉ stateIDs rest ∧ (stateIDs rest).Nodup := by
      simpa [stateIDs] using hnd
    rcases List.mem_cons.mp hs with rfl | hmem
    · simp [stateOf]
    · have hne : (t.change.changeID == s.change.changeID) = false := by
        simp only [beq_eq_false_iff_ne]
        intro he
        have hmm : s.change.changeID ∈ stateIDs rest :=
          List.mem_map_of_mem (fun u => u.change.changeID) hmem
        rw [← he] at hmm
        exact h0.1 hmm
      simp only [stateOf, List.find?, hne]
      exact ih h0.2 hmem

/-- An element whose index is below `n` lies in the `n`-prefix. -/
theorem mem_take_of_indexOf_lt {l : List String} {x : String} {n : Nat}
    (hx : x ∈ l) (h : l.indexOf x < n) : x ∈ l.take n := by
  induction l generalizing n with
  | nil => cases hx
  | cons a rest ih =>
    cases n with
    | zero => exact absurd h (Nat.not_lt_zero _)
    | succ m =>
      by_cases hax : a = x
      · subst hax
        exact List.mem_cons_self _ _
      · have hxr : x ∈ rest := by
          rcases List.mem_cons.mp hx with h1 | h1
          · exact absurd h1.symm hax
          · exact h1
        have hidx : (a :: rest).indexOf x = (rest.indexOf x).succ :=
          List.indexOf_cons_ne rest hax
        rw [hidx] at h
        exact List.mem_cons_of_mem _ (ih hxr (Nat.succ_lt_succ_iff.mp h))

/-- Positional lookup at the junction of an append. -/
theorem get_append_cons {α : Type} (pre suf : List α) (s : α)
    (h : pre.length < (pre ++ s :: suf).length) :
    (pre ++ s :: suf).get ⟨pre.length, h⟩ = s := by
  induction pre with
  | nil => rfl
  | cons a rest ih =>
    have h2 : rest.length < (rest ++ s :: suf).length := by
      rw [List.length_append, List.length_cons]
      omega
    exact ih h2

/-- Every ancestor chain begins with one parent edge. -/
theorem parentStep_head_decomp {states : List ChangeState} {a b : String}
    (h : Relation.TransGen (parentStep states) a b) :
    ∃ c, parentStep states a c ∧
      (c = b ∨ Relation.TransGen (parentStep states) c b) := by
  induction h with
  | single hr => exact ⟨_, hr, Or.inl rfl⟩
  | tail hab hbc ih =>
    rcases ih with ⟨c, hac, hcb | hcb⟩
    · exact ⟨c, hac, Or.inr (Relation.TransGen.single (hcb ▸ hbc))⟩
    · exact ⟨c, hac, Or.inr (hcb.tail hbc)⟩

/-- A change with a skipped parent inside the set is itself skipped by the
specification characterization. -/
theorem specSkipped_of_parentStep {states : List ChangeState} {x y : String}
    (hxy : parentStep states x y) (hy : specSkipped states y) :
    specSkipped states x := by
  rcases hy with ⟨s, hs, hown⟩ | ⟨a, s, ha, hs, hown⟩
  · exact Or.inr ⟨y, s, Relation.TransGen.single hxy, hs, hown⟩
  · exact Or.inr ⟨a, s, Relation.TransGen.head hxy ha, hs, hown⟩

/-- Skippedness propagates from a strict ancestor down the whole chain. -/
theorem specSkipped_of_ancestor {states : List ChangeState} {x y : String}
    (hxy : Relation.TransGen (parentStep states) x y) :
    specSkipped states y → specSkipped states x := by
  induction hxy with
  | single h => exact fun hy => specSkipped_of_parentStep h hy
  | tail hab hbc ih => exact fun hc => ih (specSkipped_of_parentStep hbc hc)

/-- Parent edges out of a change, characterized through its state record. -/
theorem parentStep_iff_of_stateOf {states : List ChangeState} {s : ChangeState}
    (hs : stateOf states s.change.changeID = some s) (pid : String) :
    parentStep states s.change.changeID pid ↔
      (pid ∈ s.change.parentIDs ∧ pid ∈ stateIDs states) := by
  constructor
  · rintro ⟨s0, hs0, hmem, hids⟩
    rw [hs] at hs0
    injection hs0 with h0
    rw [← h0] at hmem
    exact ⟨hmem, hids⟩
  · rintro ⟨hmem, hids⟩
    exact ⟨s, hs, hmem, hids⟩

/-- One classification step preserves the fold invariant. -/
theorem classifyStep_inv (states : List ChangeState)
    (hnd : (stateIDs states).Nodup) (htopo : TopoOrdered states)
    (pre suf : List ChangeState) (s : ChangeState)
    (hsplit : states = pre ++ s :: suf)
    (m : List (String × SkipReason)) (hinv : ClassifyInv states pre m) :
    ClassifyInv states (pre ++ [s]) (classifyStep m s) := by
  obtain ⟨K1, K2, K3⟩ := hinv
  subst hsplit
  have hsmem : s ∈ pre ++ s :: suf :=
    List.mem_append_right _ (List.mem_cons_self _ _)
  have hstateOf : stateOf (pre ++ s :: suf) s.change.changeID = some s :=
    stateOf_eq_of_mem hnd hsmem
  have hidpre : s.change.changeID ∉ stateIDs pre := by
    have h1 : (stateIDs pre ++ s.change.changeID :: stateIDs suf).Nodup := by
      simpa [stateIDs] using hnd
    intro hmem
    exact (List.disjoint_of_nodup_append h1) hmem (List.mem_cons_self _ _)
  have hids2 : stateIDs (pre ++ [s]) = stateIDs pre ++ [s.change.changeID] := by
    simp [stateIDs]
  have hjlt : pre.length < (pre ++ s :: suf).length := by
    rw [List.length_append, List.length_cons]
    omega
  have hget : (pre ++ s :: suf).get ⟨pre.length, hjlt⟩ = s :=
    get_append_cons pre suf s hjlt
  have hpar : ∀ pid ∈ s.change.parentIDs,
      ((m.lookup pid).isSome = true ↔
        (pid ∈ stateIDs (pre ++ s :: suf) ∧ specSkipped (pre ++ s :: suf) pid)) := by
    intro pid hpid
    constructor
    · intro hsome
      rcases List.mem_map.mp (K1 pid hsome) with ⟨t, htpre, htid⟩
      have htstates : t ∈ pre ++ s :: suf := List.mem_append_left _ htpre
      have hids : pid ∈ stateIDs (pre ++ s :: suf) := by
        rw [← htid]
        exact List.mem_map_of_mem _ htstates
      have hk2 := K2 t htpre
      rw [htid] at hk2
      exact ⟨hids, hk2.mp hsome⟩
    · rintro ⟨hids, hskip⟩
      have hidx := htopo pre.length hjlt pid (by rw [hget]; exact hpid) hids
      have htake := mem_take_of_indexOf_lt hids hidx
      have hmapeq : stateIDs (pre ++ s :: suf) =
          stateIDs pre ++ stateIDs (s :: suf) := by
        simp [stateIDs]
      have hlen : (stateIDs pre).length = pre.length := List.length_map _ _
      rw [hmapeq, ← hlen, List.take_left] at htake
      rcases List.mem_map.mp htake with ⟨t, htpre, htid⟩
      have hk2 := K2 t htpre
      rw [htid] at hk2
      exact hk2.mpr hskip
  have hps := parentStep_iff_of_stateOf hstateOf
  cases hfind : s.change.parentIDs.find? (fun pid => (m.lookup pid).isSome) with
  | some pid0 =>
    have hp0mem : pid0 ∈ s.change.parentIDs := List.mem_of_find?_eq_some hfind
    have hp0some : (m.lookup pid0).isSome = true := by
      have h1 := List.find?_some hfind
      simpa using h1
    rcases (hpar pid0 hp0mem).mp hp0some with ⟨hp0ids, hp0skip⟩
    have hpstep : parentStep (pre ++ s :: suf) s.change.changeID pid0 :=
      (hps pid0).mpr ⟨hp0mem, hp0ids⟩
    have hskip_s : specSkipped (pre ++ s :: suf) s.change.changeID :=
      specSkipped_of_parentStep hpstep hp0skip
    have hc : ((mapSetSkip m s.change.changeID
        ⟨skipAncestorReason, pid0⟩).lookup s.change.changeID).isSome = true := by
      rw [lookup_mapSetSkip]
      simp
    have hstep_eq : classifyStep m s =
        mapSetSkip m s.change.changeID ⟨skipAncestorReason, pid0⟩ := by
      simp only [classifyStep, hfind]
      rw [if_pos hc]
    rw [hstep_eq]
    refine ⟨?_, ?_, ?_⟩
    · intro id2 hsome2
      rw [lookup_mapSetSkip] at hsome2
      rw [hids2]
      by_cases hid2 : id2 = s.change.changeID
      · subst hid2
        exact List.mem_append_right _ (by simp)
      · rw [if_neg hid2] at hsome2
        exact List.mem_append_left _ (K1 id2 hsome2)
    · intro t htmem
      rcases List.mem_append.mp htmem with htpre | hts
      · have htne : t.change.changeID ≠ s.change.changeID := by
          intro he
          have hmm : t.change.changeID ∈ stateIDs pre :=
            List.mem_map_of_mem (fun u => u.change.changeID) htpre
          rw [he] at hmm
          exact hidpre hmm
        rw [lookup_mapSetSkip, if_neg htne]
        exact K2 t htpre
      · have ht : t = s := by simpa using hts
        subst ht
        rw [lookup_mapSetSkip, if_pos rfl]
        exact ⟨fun _ => hskip_s, fun _ => rfl⟩
    · intro id2 r2 hl2 hex2
      rw [lookup_mapSetSkip] at hl2
      by_cases hid2 : id2 = s.change.changeID
      · subst hid2
        rw [if_pos rfl] at hl2
        injection hl2 with h2
        exact ⟨pid0, h2.symm, hpstep, hp0skip⟩
      · rw [if_neg hid2] at hl2
        exact K3 id2 r2 hl2 hex2
  | none =>
    have hnone : ∀ pid ∈ s.change.parentIDs, (m.lookup pid).isSome = false := by
      intro pid hpid
      have hnp := List.find?_eq_none.mp hfind pid hpid
      cases hb : (m.lookup pid).isSome with
      | false => rfl
      | true => exact absurd hb hnp
    have hnoPS : ¬∃ pid, parentStep (pre ++ s :: suf) s.change.changeID pid ∧
        specSkipped (pre ++ s :: suf) pid := by
      rintro ⟨pid, hstepp, hskipp⟩
      rcases (hps pid).mp hstepp with ⟨hmem, hids⟩
      have hsm := (hpar pid hmem).mpr ⟨hids, hskipp⟩
      rw [hnone pid hmem] at hsm
      exact Bool.false_ne_true hsm
    have hguard : (m.lookup s.change.changeID).isSome = false := by
      cases hv : (m.lookup s.change.changeID).isSome with
      | false => rfl
      | true => exact absurd (K1 _ hv) hidpre
    have hgneg : ¬((m.lookup s.change.changeID).isSome = true) := by
      rw [hguard]
      exact Bool.false_ne_true
    have hspec_iff : specSkipped (pre ++ s :: suf) s.change.changeID ↔ ownSkipCond s := by
      constructor
      · rintro (⟨s0, hs0, hown⟩ | ⟨a, s0, hanc, hs0, hown⟩)
        · rw [hstateOf] at hs0
          injection hs0 with h0
          rw [← h0] at hown
          exact hown
        · exfalso
          rcases parentStep_head_decomp hanc with ⟨c, hc1, hc2⟩
          apply hnoPS
          refine ⟨c, hc1, ?_⟩
          rcases hc2 with rfl | hc2
          · exact Or.inl ⟨s0, hs0, hown⟩
          · exact Or.inr ⟨a, s0, hc2, hs0, hown⟩
      · intro hown
        exact Or.inl ⟨s, hstateOf, hown⟩
    have hmark : ∀ v : SkipReason, ownSkipCond s →
        ClassifyInv (pre ++ s :: suf) (pre ++ [s])
          (mapSetSkip m s.change.changeID v) := by
      intro v hown
      refine ⟨?_, ?_, ?_⟩
      · intro id2 hsome2
        rw [lookup_mapSetSkip] at hsome2
        rw [hids2]
        by_cases hid2 : id2 = s.change.changeID
        · subst hid2
          exact List.mem_append_right _ (by simp)
        · rw [if_neg hid2] at hsome2
          exact List.mem_append_left _ (K1 id2 hsome2)
      · intro t htmem
        rcases List.mem_append.mp htmem with htpre | hts
        · have htne : t.change.changeID ≠ s.change.changeID := by
            intro he
            have hmm : t.change.changeID ∈ stateIDs pre :=
              List.mem_map_of_mem (fun u => u.change.changeID) htpre
            rw [he] at hmm
            exact hidpre hmm
          rw [lookup_mapSetSkip, if_neg htne]
          exact K2 t htpre
        · have ht : t = s := by simpa using hts
          subst ht
          rw [lookup_mapSetSkip, if_pos rfl]
          exact ⟨fun _ => hspec_iff.mpr hown, fun _ => rfl⟩
      · intro id2 r2 hl2 hex2
        rw [lookup_mapSetSkip] at hl2
        by_cases hid2 : id2 = s.change.changeID
        · subst hid2
          exact absurd hex2 hnoPS
        · rw [if_neg hid2] at hl2
          exact K3 id2 r2 hl2 hex2
    have hnoown_inv : ¬ownSkipCond s →
        ClassifyInv (pre ++ s :: suf) (pre ++ [s]) m := by
      intro hno
      refine ⟨?_, ?_, K3⟩
      · intro id2 hsome2
        rw [hids2]
        exact List.mem_append_left _ (K1 id2 hsome2)
      · intro t htmem
        rcases List.mem_append.mp htmem with htpre | hts
        · exact K2 t htpre
        · have ht : t = s := by simpa using hts
          subst ht
          constructor
          · intro hsome2
            rw [hguard] at hsome2
            exact absurd hsome2 Bool.false_ne_true
          · intro hskip2
            exact absurd (hspec_iff.mp hskip2) hno
    by_cases hdisp : s.bookmark.displaced = true
    · have hstep_eq : classifyStep m s =
          mapSetSkip m s.change.changeID ⟨skipDisplacedReason, ""⟩ := by
        simp only [classifyStep, hfind]
        rw [if_neg hgneg, if_pos hdisp]
      rw [hstep_eq]
      exact hmark _ (Or.inl hdisp)
    · by_cases hcfl : s.bookmark.conflict = true
      · have hstep_eq : classifyStep m s =
            mapSetSkip m s.change.changeID ⟨skipConflictReason, ""⟩ := by
          simp only [classifyStep, hfind]
          rw [if_neg hgneg, if_neg hdisp, if_pos hcfl]
        rw [hstep_eq]
        exact hmark _ (Or.inr (Or.inl hcfl))
      · by_cases hbeh : s.bookmark.syncState = SyncState.behind
        · have hstep_eq : classifyStep m s =
              mapSetSkip m s.change.changeID ⟨skipBehindReason, ""⟩ := by
            simp only [classifyStep, hfind]
            rw [if_neg hgneg, if_neg hdisp, if_neg hcfl, if_pos hbeh]
          rw [hstep_eq]
          exact hmark _ (Or.inr (Or.inr hbeh))
        · have hstep_eq : classifyStep m s = m := by
            simp only [classifyStep, hfind]
            rw [if_neg hgneg, if_neg hdisp, if_neg hcfl, if_neg hbeh]
          rw [hstep_eq]
          refine hnoown_inv ?_
          rintro (h | h | h)
          · exact hdisp h
          · exact hcfl h
          · exact hbeh h

/-- The fold invariant holds after classifying every remaining state. -/
theorem classifyFold_inv (states : List ChangeState)
    (hnd : (stateIDs states).Nodup) (htopo : TopoOrdered states) :
    ∀ (suf pre : List ChangeState) (m : List (String × SkipReason)),
      states = pre ++ suf → ClassifyInv states pre m →
      ClassifyInv states states (suf.foldl classifyStep m) := by
  intro suf
  induction suf with
  | nil =>
    intro pre m hsplit hinv
    rw [List.append_nil] at hsplit
    subst hsplit
    exact hinv
  | cons s rest ih =>
    intro pre m hsplit hinv
    rw [List.foldl_cons]
    exact ih (pre ++ [s]) (classifyStep m s)
      (by rw [hsplit, List.append_assoc]; rfl)
      (classifyStep_inv states hnd htopo pre rest s hsplit m hinv)

/-- The classification result of the send pipeline satisfies the full
invariant. -/
theorem classifySkips_inv (states : List ChangeState)
    (hnd : (stateIDs states).Nodup) (htopo : TopoOrdered states) :
    ClassifyInv states states (classifySkips states) := by
  show ClassifyInv states states (states.foldl classifyStep [])
  refine classifyFold_inv states hnd htopo states [] [] rfl ⟨?_, ?_, ?_⟩
  · intro id hsome
    simp [List.lookup] at hsome
  · intro t ht
    cases ht
  · intro id r hl
    simp [List.lookup] at hl

/-- C4: over a duplicate-free, topologically ordered state list, the skip
classification marks a change exactly when the specification's
order-independent characterization declares it skipped (its own displaced,
conflicted, or behind condition, or that of a strict ancestor); consequently
every descendant of a marked change is itself marked, and its recorded reason
is the ancestor-cascade reason citing a skipped parent in the set. -/
theorem classifySkips_cascade (states : List ChangeState)
    (hnd : (stateIDs states).Nodup) (htopo : TopoOrdered states) :
    (∀ s ∈ states,
      (((classifySkips states).lookup s.change.changeID).isSome = true ↔
        specSkipped states s.change.changeID)) ∧
    (∀ s ∈ states, ((classifySkips states).lookup s.change.changeID).isSome = true →
      ∀ d ∈ states, ancestorOf states d.change.changeID s.change.changeID →
        ∃ a, (classifySkips states).lookup d.change.changeID =
            some ⟨skipAncestorReason, a⟩ ∧
          parentStep states d.change.changeID a ∧ specSkipped states a) := by
  obtain ⟨K1, K2, K3⟩ := classifySkips_inv states hnd htopo
  refine ⟨fun s hs => K2 s hs, ?_⟩
  intro s hs hmark d hd hanc
  have hskip_s : specSkipped states s.change.changeID := (K2 s hs).mp hmark
  have hskip_d : specSkipped states d.change.changeID :=
    specSkipped_of_ancestor hanc hskip_s
  have hmark_d : ((classifySkips states).lookup d.change.changeID).isSome = true :=
    (K2 d hd).mpr hskip_d
  rcases Option.isSome_iff_exists.mp hmark_d with ⟨r, hr⟩
  have hpar : ∃ pid, parentStep states d.change.changeID pid ∧
      specSkipped states pid := by
    rcases parentStep_head_decomp hanc with ⟨c, hc1, hc2⟩
    refine ⟨c, hc1, ?_⟩
    rcases hc2 with rfl | hc2
    · exact hskip_s
    · exact specSkipped_of_ancestor hc2 hskip_s
  rcases K3 d.change.changeID r hr hpar with ⟨a, hra, hstepa, hskipa⟩
  subst hra
  exact ⟨a, hr, hstepa, hskipa⟩

/-- C4 witness: in the concrete two-change stack the child of the displaced
change is marked with the ancestor reason citing the displaced parent. -/
theorem classifySkips_cascade_witness :
    ∃ a, (classifySkips cascadeStates).lookup "b" = some ⟨skipAncestorReason, a⟩ ∧
      parentStep cascadeStates "b" a ∧ specSkipped cascadeStates a := by
  have hstep : parentStep cascadeStates "b" "a" :=
    ⟨⟨⟨"b", "cb", "db", ["a"], []⟩, ⟨"b", "bmb", false, SyncState.inSync, false, false⟩,
      none, false, false⟩, by decide, by decide, by decide⟩
  exact (classifySkips_cascade cascadeStates (by decide)
      (by unfold TopoOrdered; decide)).2
    ⟨⟨"a", "ca", "da", [], []⟩, ⟨"a", "bma", false, SyncState.unknown, false, true⟩,
      none, false, false⟩ (by decide) (by decide)
    ⟨⟨"b", "cb", "db", ["a"], []⟩, ⟨"b", "bmb", false, SyncState.inSync, false, false⟩,
      none, false, false⟩ (by decide)
    (Relation.TransGen.single hstep)

/-- Unfolding of the fuelled walk at positive fuel. -/
theorem dfsWalk_succ (adj : String → List String) (ok : String → Bool)
    (n : Nat) (rel : List String) (id : String) :
    dfsWalk adj ok (n + 1) rel id = (adj id).foldl (dfsStep adj ok n) rel := rfl

/-- A fresh admissible candidate is explored. -/
theorem dfsStep_pos {adj : String → List String} {ok : String → Bool} {n : Nat}
    {r : List String} {p : String} (hc : (ok p && !(r.contains p)) = true) :
    dfsStep adj ok n r p = dfsWalk adj ok n (p :: r) p := by
  unfold dfsStep
  rw [if_pos hc]

/-- A filtered or already-visited candidate is skipped. -/
theorem dfsStep_neg {adj : String → List String} {ok : String → Bool} {n : Nat}
    {r : List String} {p : String} (hc : ¬((ok p && !(r.contains p)) = true)) :
    dfsStep adj ok n r p = r := by
  unfold dfsStep
  rw [if_neg hc]

/-- Filtering with a pointwise weaker predicate keeps at least as many
elements. -/
theorem length_filter_mono {α : Type} (U : List α) (f g : α → Bool)
    (h : ∀ u, f u = true → g u = true) :
    (U.filter f).length ≤ (U.filter g).length := by
  induction U with
  | nil => exact Nat.le_refl _
  | cons u U2 ih =>
    by_cases hf : f u = true
    · rw [List.filter_cons_of_pos hf, List.filter_cons_of_pos (h u hf)]
      exact Nat.succ_le_succ ih
    · rw [List.filter_cons_of_neg hf]
      by_cases hg : g u = true
      · rw [List.filter_cons_of_pos hg]
        exact Nat.le_succ_of_le ih
      · rw [List.filter_cons_of_neg hg]
        exact ih

/-- Blocking one more universe element strictly shrinks the unvisited
remainder. -/
theorem filter_block_lt (U r : List String) (p : String)
    (hpU : p ∈ U) (hpr : r.contains p = false) :
    (U.filter (fun u => !((p :: r).contains u))).length <
      (U.filter (fun u => !(r.contains u))).length := by
  have ptw : ∀ x, (!((p :: r).contains x)) = true → (!(r.contains x)) = true := by
    intro x hx
    have hx2 : x ∉ p :: r := by simpa using hx
    have hx3 : x ∉ r := fun hm => hx2 (List.mem_cons_of_mem _ hm)
    simpa using hx3
  induction U with
  | nil => cases hpU
  | cons u U2 ih =>
    by_cases hup : u = p
    · subst hup
      have hL : ((u :: U2).filter (fun x => !((u :: r).contains x))) =
          U2.filter (fun x => !((u :: r).contains x)) := by
        apply List.filter_cons_of_neg
        simp
      have hR : ((u :: U2).filter (fun x => !(r.contains x))) =
          u :: U2.filter (fun x => !(r.contains x)) := by
        apply List.filter_cons_of_pos
        simpa using hpr
      rw [hL, hR, List.length_cons]
      exact Nat.lt_succ_of_le (length_filter_mono U2 _ _ ptw)
    · have hpU2 : p ∈ U2 := by
        rcases List.mem_cons.mp hpU with h1 | h1
        · exact absurd h1.symm hup
        · exact h1
      by_cases hru : u ∈ r
      · have hL : ((u :: U2).filter (fun x => !((p :: r).contains x))) =
            U2.filter (fun x => !((p :: r).contains x)) := by
          apply List.filter_cons_of_neg
          simp [List.mem_cons_of_mem _ hru]
        have hR : ((u :: U2).filter (fun x => !(r.contains x))) =
            U2.filter (fun x => !(r.contains x)) := by
          apply List.filter_cons_of_neg
          simp [hru]
        rw [hL, hR]
        exact ih hpU2
      · have hL : ((u :: U2).filter (fun x => !((p :: r).contains x))) =
            u :: U2.filter (fun x => !((p :: r).contains x)) := by
          apply List.filter_cons_of_pos
          simp [hup, hru]
        have hR : ((u :: U2).filter (fun x => !(r.contains x))) =
            u :: U2.filter (fun x => !(r.contains x)) := by
          apply List.filter_cons_of_pos
          simp [hru]
        rw [hL, hR, List.length_cons, List.length_cons]
        exact Nat.succ_lt_succ (ih hpU2)

/-- Growing the visited list cannot grow the unvisited remainder. -/
theorem filter_sub_mono (U r r2 : List String) (hsub : ∀ x ∈ r, x ∈ r2) :
    (U.filter (fun u => !(r2.contains u))).length ≤
      (U.filter (fun u => !(r.contains u))).length := by
  apply length_filter_mono
  intro u hu
  have hu2 : u ∉ r2 := by simpa using hu
  have hu3 : u ∉ r := fun hm => hu2 (hsub u hm)
  simpa using hu3

/-- Everything the walk returns is either initially visited or reachable
through admissible edges. -/
theorem dfsWalk_sound (adj : String → List String) (ok : String → Bool) :
    ∀ (fuel : Nat) (rel : List String) (id y : String),
      y ∈ dfsWalk adj ok fuel rel id →
      y ∈ rel ∨ Relation.TransGen (dfsEdge adj ok) id y := by
  intro fuel
  induction fuel with
  | zero => intro rel id y hy; exact Or.inl hy
  | succ n ih =>
    have inner : ∀ (ps : List String) (id : String), (∀ p ∈ ps, p ∈ adj id) →
        ∀ (r : List String) (y : String),
        y ∈ ps.foldl (dfsStep adj ok n) r →
        y ∈ r ∨ Relation.TransGen (dfsEdge adj ok) id y := by
      intro ps
      induction ps with
      | nil => intro id hadj r y hy; exact Or.inl hy
      | cons p ps2 ih2 =>
        intro id hadj r y hy
        rw [List.foldl_cons] at hy
        rcases ih2 id (fun q hq => hadj q (List.mem_cons_of_mem _ hq)) _ y hy with hy2 | hy2
        · by_cases hc : (ok p && !(r.contains p)) = true
          · rw [dfsStep_pos hc] at hy2
            rw [Bool.and_eq_true] at hc
            have hedge : dfsEdge adj ok id p := ⟨hadj p (List.mem_cons_self _ _), hc.1⟩
            rcases ih (p :: r) p y hy2 with hy3 | hy3
            · rcases List.mem_cons.mp hy3 with rfl | hy4
              · exact Or.inr (Relation.TransGen.single hedge)
              · exact Or.inl hy4
            · exact Or.inr (Relation.TransGen.head hedge hy3)
          · rw [dfsStep_neg hc] at hy2
            exact Or.inl hy2
        · exact Or.inr hy2
    intro rel id y hy
    rw [dfsWalk_succ] at hy
    exact inner (adj id) id (fun p hp => hp) rel y hy

/-- With fuel exceeding the unvisited universe, the walk keeps its visited
list, adds only universe elements, explores every admissible neighbour of the
start, and saturates every newly added node. -/
theorem dfsWalk_spec (adj : String → List String) (ok : String → Bool) (U : List String)
    (hU : ∀ u v, v ∈ adj u → ok v = true → v ∈ U) :
    ∀ (fuel : Nat) (rel : List String) (id : String),
      (U.filter (fun u => !(rel.contains u))).length < fuel →
      (∀ x ∈ rel, x ∈ dfsWalk adj ok fuel rel id) ∧
      (∀ x ∈ dfsWalk adj ok fuel rel id, x ∈ rel ∨ x ∈ U) ∧
      (∀ p ∈ adj id, ok p = true → p ∈ dfsWalk adj ok fuel rel id) ∧
      (∀ x ∈ dfsWalk adj ok fuel rel id, x ∉ rel →
        ∀ p ∈ adj x, ok p = true → p ∈ dfsWalk adj ok fuel rel id) := by
  intro fuel
  induction fuel with
  | zero => intro rel id hf; exact absurd hf (Nat.not_lt_zero _)
  | succ n ih =>
    intro rel id hf
    have inner : ∀ (ps : List String), (∀ p ∈ ps, p ∈ adj id) →
        ∀ (r : List String),
        (U.filter (fun u => !(r.contains u))).length ≤ n →
        (∀ x ∈ rel, x ∈ r) →
        (∀ x ∈ r, x ∈ rel ∨ x ∈ U) →
        (∀ x ∈ r, x ∉ rel → ∀ q ∈ adj x, ok q = true → q ∈ r) →
        (∀ x ∈ r, x ∈ ps.foldl (dfsStep adj ok n) r) ∧
        (∀ x ∈ ps.foldl (dfsStep adj ok n) r, x ∈ rel ∨ x ∈ U) ∧
        (∀ p ∈ ps, ok p = true → p ∈ ps.foldl (dfsStep adj ok n) r) ∧
        (∀ x ∈ ps.foldl (dfsStep adj ok n) r, x ∉ rel →
          ∀ q ∈ adj x, ok q = true → q ∈ ps.foldl (dfsStep adj ok n) r) := by
      intro ps
      induction ps with
      | nil =>
        intro hadj r hfr hrel hrU hsat
        refine ⟨fun x hx => hx, hrU, ?_, hsat⟩
        intro p hp
        cases hp
      | cons p ps2 ih2 =>
        intro hadj r hfr hrel hrU hsat
        rw [List.foldl_cons]
        by_cases hc : (ok p && !(r.contains p)) = true
        · rw [dfsStep_pos hc]
          have hcc := hc
          rw [Bool.and_eq_true] at hcc
          have hok : ok p = true := hcc.1
          have hcontains : r.contains p = false := by
            cases hcp : r.contains p with
            | false => rfl
            | true =>
              have h2 := hcc.2
              rw [hcp] at h2
              exact absurd h2 (by decide)
          have hpU : p ∈ U := hU id p (hadj p (List.mem_cons_self _ _)) hok
          have hfuel2 : (U.filter (fun u => !((p :: r).contains u))).length < n :=
            Nat.lt_of_lt_of_le (filter_block_lt U r p hpU hcontains) hfr
          obtain ⟨ha2, hb2, hc2, hd2⟩ := ih (p :: r) p hfuel2
          have hsubr2 : ∀ x ∈ r, x ∈ dfsWalk adj ok n (p :: r) p :=
            fun x hx => ha2 x (List.mem_cons_of_mem _ hx)
          have hrel2 : ∀ x ∈ rel, x ∈ dfsWalk adj ok n (p :: r) p :=
            fun x hx => hsubr2 x (hrel x hx)
          have hrU2 : ∀ x ∈ dfsWalk adj ok n (p :: r) p, x ∈ rel ∨ x ∈ U := by
            intro x hx
            rcases hb2 x hx with hx2 | hx2
            · rcases List.mem_cons.mp hx2 with rfl | hx3
              · exact Or.inr hpU
              · exact hrU x hx3
            · exact Or.inr hx2
          have hsat2 : ∀ x ∈ dfsWalk adj ok n (p :: r) p, x ∉ rel →
              ∀ q ∈ adj x, ok q = true → q ∈ dfsWalk adj ok n (p :: r) p := by
            intro x hx hxrel q hq hokq
            by_cases hxpr : x ∈ p :: r
            · rcases List.mem_cons.mp hxpr with rfl | hxr
              · exact hc2 q hq hokq
              · exact hsubr2 q (hsat x hxr hxrel q hq hokq)
            · exact hd2 x hx hxpr q hq hokq
          have hfr2 : (U.filter (fun u =>
              !((dfsWalk adj ok n (p :: r) p).contains u))).length ≤ n :=
            Nat.le_trans (filter_sub_mono U r _ hsubr2) hfr
          obtain ⟨hA, hB, hC, hD⟩ :=
            ih2 (fun q hq => hadj q (List.mem_cons_of_mem _ hq))
              (dfsWalk adj ok n (p :: r) p) hfr2 hrel2 hrU2 hsat2
          refine ⟨fun x hx => hA x (hsubr2 x hx), hB, ?_, hD⟩
          intro q hq hokq
          rcases List.mem_cons.mp hq with rfl | hq2
          · exact hA q (ha2 q (List.mem_cons_self _ _))
          · exact hC q hq2 hokq
        · rw [dfsStep_neg hc]
          obtain ⟨hA, hB, hC, hD⟩ :=
            ih2 (fun q hq => hadj q (List.mem_cons_of_mem _ hq)) r hfr hrel hrU hsat
          refine ⟨hA, hB, ?_, hD⟩
          intro q hq hokq
          rcases List.mem_cons.mp hq with rfl | hq2
          · have hqr : q ∈ r := by
              cases hcp : r.contains q with
              | true => exact List.elem_iff.mp hcp
              | false =>
                exfalso
                apply hc
                rw [hokq, hcp]
                rfl
            exact hA q hqr
          · exact hC q hq2 hokq
    have hf2 : (U.filter (fun u => !(rel.contains u))).length ≤ n :=
      Nat.lt_succ_iff.mp hf
    obtain ⟨hA, hB, hC, hD⟩ := inner (adj id) (fun p hp => hp) rel hf2
      (fun x hx => hx) (fun x hx => Or.inl hx) (fun x hx hxn => absurd hx hxn)
    rw [dfsWalk_succ]
    exact ⟨hA, hB, hC, hD⟩

/-- Every node reachable through admissible edges lands in a result that is
saturated and whose blocked nodes can only be the start. -/
theorem dfs_reach_mem (adj : String → List String) (ok : String → Bool)
    (res rel : List String) (id : String)
    (hc : ∀ p ∈ adj id, ok p = true → p ∈ res)
    (hd : ∀ x ∈ res, x ∉ rel → ∀ p ∈ adj x, ok p = true → p ∈ res)
    (hblock : ∀ v, Relation.TransGen (dfsEdge adj ok) id v → v ∈ rel → v = id) :
    ∀ y, Relation.TransGen (dfsEdge adj ok) id y → y ∈ res := by
  intro y hy
  induction hy with
  | single h => exact hc _ h.1 h.2
  | @tail b c hab hbc ih =>
    by_cases hbrel : b ∈ rel
    · have hbid := hblock b hab hbrel
      subst hbid
      exact hc _ hbc.1 hbc.2
    · exact hd b ih hbrel _ hbc.1 hbc.2

/-- `getD` with an in-range index is a plain positional lookup. -/
theorem getD_eq_get {α : Type} [Inhabited α] (l : List α) (i : Nat) (h : i < l.length) :
    l.getD i default = l.get ⟨i, h⟩ := by
  rw [List.getD_eq_getElem?_getD, List.getElem?_eq_getElem h]
  rfl

/-- The index fold of `computeStackPRs`: each key is either untouched or maps
to a valid matching position. -/
theorem idxFold_cases (states : List ChangeState) :
    ∀ (n : Nat) (m0 : String → Option Nat) (x : String),
      ((List.range n).foldl
        (fun m i => fun y => if y = (states.getD i default).change.changeID then some i else m y)
        m0) x = m0 x ∨
      ∃ i, ((List.range n).foldl
        (fun m i => fun y => if y = (states.getD i default).change.changeID then some i else m y)
        m0) x = some i ∧ i < n ∧ (states.getD i default).change.changeID = x := by
  intro n
  induction n with
  | zero => intro m0 x; exact Or.inl rfl
  | succ k ih =>
    intro m0 x
    simp only [List.range_succ, List.foldl_append, List.foldl_cons, List.foldl_nil]
    by_cases hx : x = (states.getD k default).change.changeID
    · rw [if_pos hx]
      exact Or.inr ⟨k, rfl, Nat.lt_succ_self k, hx.symm⟩
    · rw [if_neg hx]
      rcases ih m0 x with h | ⟨i, h1, h2, h3⟩
      · exact Or.inl h
      · exact Or.inr ⟨i, h1, Nat.lt_succ_of_lt h2, h3⟩

/-- A key carried by some position is resolved by the index fold. -/
theorem idxFold_some (states : List ChangeState) :
    ∀ (n : Nat) (m0 : String → Option Nat) (x : String),
      (∃ i, i < n ∧ (states.getD i default).change.changeID = x) →
      ∃ j, ((List.range n).foldl
        (fun m i => fun y => if y = (states.getD i default).change.changeID then some i else m y)
        m0) x = some j ∧ j < n ∧ (states.getD j default).change.changeID = x := by
  intro n
  induction n with
  | zero =>
    intro m0 x hex
    rcases hex with ⟨i, hi, _⟩
    exact absurd hi (Nat.not_lt_zero _)
  | succ k ih =>
    intro m0 x hex
    simp only [List.range_succ, List.foldl_append, List.foldl_cons, List.foldl_nil]
    by_cases hx : x = (states.getD k default).change.changeID
    · rw [if_pos hx]
      exact ⟨k, rfl, Nat.lt_succ_self k, hx.symm⟩
    · rw [if_neg hx]
      rcases hex with ⟨i, hi, hid⟩
      rcases Nat.lt_succ_iff_lt_or_eq.mp hi with h | h
      · rcases ih m0 x ⟨i, h, hid⟩ with ⟨j, hj1, hj2, hj3⟩
        exact ⟨j, hj1, Nat.lt_succ_of_lt hj2, hj3⟩
      · subst h
        exact absurd hid.symm hx

/-- The state index resolves exactly the ids present in the set. -/
theorem idxByChangeOf_isSome (states : List ChangeState) (x : String) :
    (idxByChangeOf states x).isSome = true ↔ x ∈ stateIDs states := by
  constructor
  · intro hsome
    rcases idxFold_cases states states.length (fun _ => none) x with h | ⟨i, h1, h2, h3⟩
    · have h0 : idxByChangeOf states x = none := h
      rw [h0] at hsome
      exact absurd hsome (by decide)
    · rw [← h3]
      have hmem : states.getD i default ∈ states := by
        rw [getD_eq_get states i h2]
        exact List.get_mem _ _ _
      exact List.mem_map_of_mem _ hmem
  · intro hmem
    rcases List.mem_map.mp hmem with ⟨t, ht, htid⟩
    rcases List.mem_iff_get.mp ht with ⟨⟨i, hi⟩, hget⟩
    have hex : ∃ i2, i2 < states.length ∧
        (states.getD i2 default).change.changeID = x := by
      refine ⟨i, hi, ?_⟩
      rw [getD_eq_get states i hi, hget]
      exact htid
    rcases idxFold_some states states.length (fun _ => none) x hex with ⟨j, hj1, hj2, hj3⟩
    have h0 : idxByChangeOf states x = some j := hj1
    rw [h0]
    rfl

/-- A successful `stateOf` lookup returns a member carrying the looked-up
id. -/
theorem stateOf_some_mem {states : List ChangeState} {x : String} {t : ChangeState}
    (h : stateOf states x = some t) : t ∈ states ∧ t.change.changeID = x := by
  refine ⟨List.mem_of_find?_eq_some h, ?_⟩
  have h2 := List.find?_some h
  simpa using h2

/-- Two members sharing an id coincide when ids are globally distinct. -/
theorem uniq_state_of_nodup {states : List ChangeState}
    (hnd : (stateIDs states).Nodup) {t s : ChangeState}
    (ht : t ∈ states) (hs : s ∈ states) (he : t.change.changeID = s.change.changeID) :
    t = s := by
  have h1 := stateOf_eq_of_mem hnd ht
  have h2 := stateOf_eq_of_mem hnd hs
  rw [he] at h1
  rw [h1] at h2
  injection h2

/-- Under distinct ids the index map sends a member id to its own record. -/
theorem idxByChangeOf_of_mem {states : List ChangeState}
    (hnd : (stateIDs states).Nodup) {s : ChangeState} (hs : s ∈ states) :
    ∃ i, idxByChangeOf states s.change.changeID = some i ∧
      states.getD i default = s := by
  have hex : ∃ i, i < states.length ∧
      (states.getD i default).change.changeID = s.change.changeID := by
    rcases List.mem_iff_get.mp hs with ⟨⟨i, hi⟩, hget⟩
    refine ⟨i, hi, ?_⟩
    rw [getD_eq_get states i hi, hget]
  rcases idxFold_some states states.length (fun _ => none) s.change.changeID hex
    with ⟨j, hj1, hj2, hj3⟩
  refine ⟨j, hj1, ?_⟩
  have hmem : states.getD j default ∈ states := by
    rw [getD_eq_get states j hj2]
    exact List.get_mem _ _ _
  exact uniq_state_of_nodup hnd hmem hs hj3

/-- `parentsAt` reads a member id as that member's parent list. -/
theorem parentsAt_of_mem {states : List ChangeState}
    (hnd : (stateIDs states).Nodup) {s : ChangeState} (hs : s ∈ states) :
    parentsAt states s.change.changeID = s.change.parentIDs := by
  rcases idxByChangeOf_of_mem hnd hs with ⟨i, hi1, hi2⟩
  unfold parentsAt
  rw [hi1]
  simp only [Option.getD_some]
  rw [hi2]

/-- Membership in the inner child-edge fold of `stackChildren`. -/
theorem stackChildren_inner (states : List ChangeState) (sid : String) :
    ∀ (ps : List String) (ch2 : String → List String) (u v : String),
      (v ∈ (ps.foldl (fun ch3 pid =>
          if (idxByChangeOf states pid).isSome then fupd ch3 pid (ch3 pid ++ [sid])
          else ch3) ch2) u ↔
        v ∈ ch2 u ∨ (v = sid ∧ u ∈ ps ∧ (idxByChangeOf states u).isSome = true)) := by
  intro ps
  induction ps with
  | nil =>
    intro ch2 u v
    simp
  | cons p ps2 ih =>
    intro ch2 u v
    simp only [List.foldl_cons]
    rw [ih]
    by_cases hp : (idxByChangeOf states p).isSome = true
    · rw [if_pos hp]
      by_cases hup : u = p
      · subst hup
        rw [show fupd ch2 u (ch2 u ++ [sid]) u = ch2 u ++ [sid] from by
          unfold fupd; rw [if_pos rfl]]
        constructor
        · rintro (hv | ⟨rfl, hmem, hsome⟩)
          · rcases List.mem_append.mp hv with h1 | h1
            · exact Or.inl h1
            · have h2 : v = sid := by simpa using h1
              exact Or.inr ⟨h2, List.mem_cons_self _ _, hp⟩
          · exact Or.inr ⟨rfl, List.mem_cons_self _ _, hp⟩
        · rintro (hv | ⟨rfl, hmem, hsome⟩)
          · exact Or.inl (List.mem_append_left _ hv)
          · exact Or.inl (List.mem_append_right _ (by simp))
      · rw [show fupd ch2 p (ch2 p ++ [sid]) u = ch2 u from by
          unfold fupd; rw [if_neg hup]]
        constructor
        · rintro (hv | ⟨rfl, hmem, hsome⟩)
          · exact Or.inl hv
          · exact Or.inr ⟨rfl, List.mem_cons_of_mem _ hmem, hsome⟩
        · rintro (hv | ⟨rfl, hmem, hsome⟩)
          · exact Or.inl hv
          · rcases List.mem_cons.mp hmem with h1 | h1
            · exact absurd h1 hup
            · exact Or.inr ⟨rfl, h1, hsome⟩
    · rw [if_neg hp]
      constructor
      · rintro (hv | ⟨rfl, hmem, hsome⟩)
        · exact Or.inl hv
        · exact Or.inr ⟨rfl, List.mem_cons_of_mem _ hmem, hsome⟩
      · rintro (hv | ⟨rfl, hmem, hsome⟩)
        · exact Or.inl hv
        · rcases List.mem_cons.mp hmem with h1 | h1
          · subst h1
            exact absurd hsome hp
          · exact Or.inr ⟨rfl, h1, hsome⟩

/-- Membership in the child-edge map fold of `stackChildren`. -/
theorem stackChildren_fold (states : List ChangeState) :
    ∀ (sts : List ChangeState) (ch : String → List String) (u v : String),
      (v ∈ (sts.foldl (fun ch4 s =>
          s.change.parentIDs.foldl (fun ch2 pid =>
            if (idxByChangeOf states pid).isSome then
              fupd ch2 pid (ch2 pid ++ [s.change.changeID])
            else ch2) ch4) ch) u ↔
        v ∈ ch u ∨ ∃ s, s ∈ sts ∧ v = s.change.changeID ∧ u ∈ s.change.parentIDs ∧
          (idxByChangeOf states u).isSome = true) := by
  intro sts
  induction sts with
  | nil =>
    intro ch u v
    simp
  | cons s sts2 ihs =>
    intro ch u v
    simp only [List.foldl_cons]
    rw [ihs]
    rw [stackChildren_inner states s.change.changeID s.change.parentIDs ch u v]
    constructor
    · rintro ((hv | ⟨hvs, hmem, hsome⟩) | ⟨t, ht, hvt, hut, hsome⟩)
      · exact Or.inl hv
      · exact Or.inr ⟨s, List.mem_cons_self _ _, hvs, hmem, hsome⟩
      · exact Or.inr ⟨t, List.mem_cons_of_mem _ ht, hvt, hut, hsome⟩
    · rintro (hv | ⟨t, ht, hvt, hut, hsome⟩)
      · exact Or.inl (Or.inl hv)
      · rcases List.mem_cons.mp ht with rfl | ht2
        · exact Or.inl (Or.inr ⟨hvt, hut, hsome⟩)
        · exact Or.inr ⟨t, ht2, hvt, hut, hsome⟩

/-- Under distinct ids a child edge is exactly an inverted parent edge. -/
theorem stackChildren_iff {states : List ChangeState} (hnd : (stateIDs states).Nodup)
    (u v : String) :
    v ∈ stackChildren states u ↔ parentStep states v u := by
  unfold stackChildren
  rw [stackChildren_fold states states (fun _ => []) u v]
  constructor
  · rintro (hv | ⟨s, hs, hvs, hus, hsome⟩)
    · exact absurd hv (List.not_mem_nil v)
    · subst hvs
      refine ⟨s, stateOf_eq_of_mem hnd hs, hus, ?_⟩
      exact (idxByChangeOf_isSome states u).mp hsome
  · rintro ⟨s, hsOf, hus, huids⟩
    obtain ⟨hsmem, hsid⟩ := stateOf_some_mem hsOf
    refine Or.inr ⟨s, hsmem, hsid.symm, hus, ?_⟩
    exact (idxByChangeOf_isSome states u).mpr huids

/-- Reachability along walk-up edges lands inside the id set. -/
theorem upReach_mem_ids {states : List ChangeState} {u y : String}
    (h : Relation.TransGen
      (dfsEdge (parentsAt states) (fun pid => (idxByChangeOf states pid).isSome)) u y) :
    y ∈ stateIDs states := by
  induction h with
  | single hr => exact (idxByChangeOf_isSome states _).mp hr.2
  | tail hab hbc ih => exact (idxByChangeOf_isSome states _).mp hbc.2

/-- The target of an ancestor chain lies inside the id set. -/
theorem ancestor_mem_ids {states : List ChangeState} {u y : String}
    (h : Relation.TransGen (parentStep states) u y) : y ∈ stateIDs states := by
  induction h with
  | single hr =>
    rcases hr with ⟨s, _, _, hids⟩
    exact hids
  | tail hab hbc ih =>
    rcases hbc with ⟨s, _, _, hids⟩
    exact hids

/-- At a member id, a walk-up edge is exactly a parent edge. -/
theorem upEdge_iff {states : List ChangeState} (hnd : (stateIDs states).Nodup)
    {u v : String} (hu : u ∈ stateIDs states) :
    dfsEdge (parentsAt states) (fun pid => (idxByChangeOf states pid).isSome) u v ↔
      parentStep states u v := by
  rcases List.mem_map.mp hu with ⟨t, ht, htid⟩
  constructor
  · rintro ⟨hmem, hok⟩
    have hpa : parentsAt states u = t.change.parentIDs := by
      rw [← htid]
      exact parentsAt_of_mem hnd ht
    rw [hpa] at hmem
    refine ⟨t, ?_, hmem, (idxByChangeOf_isSome states v).mp hok⟩
    rw [← htid]
    exact stateOf_eq_of_mem hnd ht
  · rintro ⟨s, hsOf, hmem, hids⟩
    obtain ⟨hsmem, hsid⟩ := stateOf_some_mem hsOf
    constructor
    · have hpa : parentsAt states u = s.change.parentIDs := by
        rw [← hsid]
        exact parentsAt_of_mem hnd hsmem
      rw [hpa]
      exact hmem
    · exact (idxByChangeOf_isSome states v).mpr hids

/-- Walk-up reachability from a member id is exactly strict ancestry. -/
theorem upTrans_iff {states : List ChangeState} (hnd : (stateIDs states).Nodup)
    {u y : String} (hu : u ∈ stateIDs states) :
    Relation.TransGen
        (dfsEdge (parentsAt states) (fun pid => (idxByChangeOf states pid).isSome)) u y ↔
      ancestorOf states u y := by
  constructor
  · intro h
    induction h with
    | single hr => exact Relation.TransGen.single ((upEdge_iff hnd hu).mp hr)
    | @tail b c hab hbc ih =>
      have hb : b ∈ stateIDs states := upReach_mem_ids hab
      exact Relation.TransGen.tail ih ((upEdge_iff hnd hb).mp hbc)
  · intro h
    have h2 : Relation.TransGen (parentStep states) u y := h
    clear h
    induction h2 with
    | single hr => exact Relation.TransGen.single ((upEdge_iff hnd hu).mpr hr)
    | @tail b c hab hbc ih =>
      have hb : b ∈ stateIDs states := ancestor_mem_ids hab
      exact Relation.TransGen.tail ih ((upEdge_iff hnd hb).mpr hbc)

/-- Walk-down reachability is exactly inverted strict ancestry. -/
theorem downTrans_iff {states : List ChangeState} (hnd : (stateIDs states).Nodup)
    {u y : String} :
    Relation.TransGen (dfsEdge (stackChildren states) (fun _ => true)) u y ↔
      ancestorOf states y u := by
  constructor
  · intro h
    induction h with
    | single hr => exact Relation.TransGen.single ((stackChildren_iff hnd _ _).mp hr.1)
    | tail hab hbc ih =>
      exact Relation.TransGen.head ((stackChildren_iff hnd _ _).mp hbc.1) ih
  · intro h
    have h2 : Relation.TransGen (parentStep states) y u := h
    clear h
    induction h2 with
    | single hr => exact Relation.TransGen.single ⟨(stackChildren_iff hnd _ _).mpr hr, rfl⟩
    | @tail b c hab hbc ih =>
      exact Relation.TransGen.head ⟨(stackChildren_iff hnd _ _).mpr hbc, rfl⟩ ih

/-- A parent edge strictly decreases the position in the id list. -/
theorem parentStep_indexOf_lt {states : List ChangeState}
    (hnd : (stateIDs states).Nodup) (htopo : TopoOrdered states) {x y : String}
    (hxy : parentStep states x y) :
    (stateIDs states).indexOf y < (stateIDs states).indexOf x := by
  rcases hxy with ⟨s, hsOf, hymem, hyids⟩
  obtain ⟨hsmem, hsid⟩ := stateOf_some_mem hsOf
  have hxids : x ∈ stateIDs states := by
    rw [← hsid]
    exact List.mem_map_of_mem _ hsmem
  have hilt : (stateIDs states).indexOf x < (stateIDs states).length :=
    List.indexOf_lt_length.mpr hxids
  have hlen : (stateIDs states).length = states.length := List.length_map _ _
  have hilt2 : (stateIDs states).indexOf x < states.length := by
    rw [← hlen]
    exact hilt
  have hgetid : (states.get ⟨(stateIDs states).indexOf x, hilt2⟩).change.changeID = x := by
    have h2 : (stateIDs states).get ⟨(stateIDs states).indexOf x, hilt⟩ =
        (states.get ⟨(stateIDs states).indexOf x, hilt2⟩).change.changeID :=
      List.get_map _
    rw [← h2]
    exact List.getElem_indexOf hilt
  have hpar : y ∈ (states.get ⟨(stateIDs states).indexOf x, hilt2⟩).change.parentIDs := by
    have hgmem : states.get ⟨(stateIDs states).indexOf x, hilt2⟩ ∈ states :=
      List.get_mem _ _ _
    have heq : states.get ⟨(stateIDs states).indexOf x, hilt2⟩ = s :=
      uniq_state_of_nodup hnd hgmem hsmem (by rw [hgetid, hsid])
    rw [heq]
    exact hymem
  exact htopo ((stateIDs states).indexOf x) hilt2 y hpar hyids

/-- Topological order forbids ancestry cycles. -/
theorem no_self_ancestor {states : List ChangeState} (hnd : (stateIDs states).Nodup)
    (htopo : TopoOrdered states) (x : String) :
    ¬ancestorOf states x x := by
  intro h
  have hdec : ∀ u v, Relation.TransGen (parentStep states) u v →
      (stateIDs states).indexOf v < (stateIDs states).indexOf u := by
    intro u v huv
    induction huv with
    | single hr => exact parentStep_indexOf_lt hnd htopo hr
    | tail hab hbc ih => exact Nat.lt_trans (parentStep_indexOf_lt hnd htopo hbc) ih
  exact absurd (hdec x x h) (Nat.lt_irrefl _)

/-- The ancestor walk of `computeStackPRs` collects exactly the change and its
strict ancestors. -/
theorem walkUp_iff {states : List ChangeState} (hnd : (stateIDs states).Nodup)
    (htopo : TopoOrdered states) {s : ChangeState} (hs : s ∈ states) (y : String) :
    y ∈ dfsWalk (parentsAt states) (fun pid => (idxByChangeOf states pid).isSome)
        (states.length + 1) [s.change.changeID] s.change.changeID ↔
      (y = s.change.changeID ∨ ancestorOf states s.change.changeID y) := by
  have hcid : s.change.changeID ∈ stateIDs states := List.mem_map_of_mem _ hs
  have hU : ∀ u v, v ∈ parentsAt states u →
      ((fun pid => (idxByChangeOf states pid).isSome) v) = true → v ∈ stateIDs states := by
    intro u v _ hok
    exact (idxByChangeOf_isSome states v).mp hok
  have hfuel : ((stateIDs states).filter
      (fun u => !(([s.change.changeID] : List String).contains u))).length <
      states.length + 1 := by
    have h1 := List.length_filter_le
      (fun u => !(([s.change.changeID] : List String).contains u)) (stateIDs states)
    have h2 : (stateIDs states).length = states.length := List.length_map _ _
    omega
  obtain ⟨ha, hb, hc, hd⟩ := dfsWalk_spec (parentsAt states)
    (fun pid => (idxByChangeOf states pid).isSome) (stateIDs states) hU
    (states.length + 1) [s.change.changeID] s.change.changeID hfuel
  constructor
  · intro hy
    rcases dfsWalk_sound _ _ _ _ _ _ hy with h1 | h1
    · exact Or.inl (by simpa using h1)
    · exact Or.inr ((upTrans_iff hnd hcid).mp h1)
  · rintro (rfl | h1)
    · exact ha _ (List.mem_cons_self _ _)
    · refine dfs_reach_mem _ _ _ [s.change.changeID] s.change.changeID hc hd ?_ y
        ((upTrans_iff hnd hcid).mpr h1)
      intro v _ hvrel
      simpa using hvrel

/-- The relevant set of `computeStackPRs` is exactly the dependency chain of
the change. -/
theorem relevantSet_iff {states : List ChangeState} (hnd : (stateIDs states).Nodup)
    (htopo : TopoOrdered states) {s : ChangeState} (hs : s ∈ states) (y : String) :
    y ∈ relevantSet states s.change.changeID ↔ relatedTo states s.change.changeID y := by
  have hrs : relevantSet states s.change.changeID =
      dfsWalk (stackChildren states) (fun _ => true) (states.length + 1)
        (dfsWalk (parentsAt states) (fun pid => (idxByChangeOf states pid).isSome)
          (states.length + 1) [s.change.changeID] s.change.changeID)
        s.change.changeID := rfl
  rw [hrs]
  have hU : ∀ u v, v ∈ stackChildren states u →
      ((fun (_ : String) => true) v) = true → v ∈ stateIDs states := by
    intro u v hv _
    rcases (stackChildren_iff hnd u v).mp hv with ⟨t, htOf, _, _⟩
    obtain ⟨htmem, htid⟩ := stateOf_some_mem htOf
    rw [← htid]
    exact List.mem_map_of_mem _ htmem
  have hfuel : ((stateIDs states).filter (fun u =>
      !((dfsWalk (parentsAt states) (fun pid => (idxByChangeOf states pid).isSome)
        (states.length + 1) [s.change.changeID] s.change.changeID).contains u))).length <
      states.length + 1 := by
    have h1 := List.length_filter_le (fun u =>
      !((dfsWalk (parentsAt states) (fun pid => (idxByChangeOf states pid).isSome)
        (states.length + 1) [s.change.changeID] s.change.changeID).contains u))
      (stateIDs states)
    have h2 : (stateIDs states).length = states.length := List.length_map _ _
    omega
  obtain ⟨ha, hb, hc, hd⟩ := dfsWalk_spec (stackChildren states) (fun _ => true)
    (stateIDs states) hU (states.length + 1) _ s.change.changeID hfuel
  constructor
  · intro hy
    rcases dfsWalk_sound _ _ _ _ _ _ hy with h1 | h1
    · rcases (walkUp_iff hnd htopo hs y).mp h1 with h2 | h2
      · exact Or.inl h2
      · exact Or.inr (Or.inl h2)
    · exact Or.inr (Or.inr ((downTrans_iff hnd).mp h1))
  · intro hrel
    rcases hrel with h2 | h2 | h2
    · exact ha _ ((walkUp_iff hnd htopo hs y).mpr (Or.inl h2))
    · exact ha _ ((walkUp_iff hnd htopo hs y).mpr (Or.inr h2))
    · refine dfs_reach_mem _ _ _ _ s.change.changeID hc hd ?_ y
        ((downTrans_iff hnd).mpr h2)
      intro v hv hvrel
      rcases (walkUp_iff hnd htopo hs v).mp hvrel with h3 | h3
      · exact h3
      · exfalso
        have h4 : ancestorOf states v s.change.changeID := (downTrans_iff hnd).mp hv
        exact no_self_ancestor hnd htopo s.change.changeID (Relation.TransGen.trans h3 h4)

/-- The PR-collecting fold keeps the input order and is a filtered
projection. -/
theorem stackFold_eq_filter_map (rel : List String) :
    ∀ (sts : List ChangeState) (init : List Int),
      sts.foldl (fun prs st =>
        if rel.contains st.change.changeID then prs ++ [prNumberOf st] else prs) init =
      init ++ (sts.filter (fun st => rel.contains st.change.changeID)).map prNumberOf := by
  intro sts
  induction sts with
  | nil => intro init; simp
  | cons st sts2 ih =>
    intro init
    simp only [List.foldl_cons]
    by_cases hc : rel.contains st.change.changeID = true
    · rw [if_pos hc, ih]
      simp only [List.filter_cons]
      rw [if_pos hc]
      simp
    · rw [if_neg hc, ih]
      simp only [List.filter_cons]
      rw [if_neg hc]

/-- `computeStackPRs` projects each relevant set onto the input order. -/
theorem computeStackPRs_eq (states : List ChangeState) :
    computeStackPRs states = states.map (fun s =>
      (states.filter (fun st =>
        (relevantSet states s.change.changeID).contains st.change.changeID)).map
      prNumberOf) := by
  unfold computeStackPRs
  refine List.map_congr_left ?_
  intro s _
  show states.foldl (fun prs st =>
      if (relevantSet states s.change.changeID).contains st.change.changeID then
        prs ++ [prNumberOf st] else prs) [] =
    (states.filter (fun st =>
      (relevantSet states s.change.changeID).contains st.change.changeID)).map prNumberOf
  rw [stackFold_eq_filter_map]
  rw [List.nil_append]

/-- C5: under distinct ids and topological order, the relevant set computed by
the two depth-first walks of `computeStackPRs` contains exactly the change
itself, its strict ancestors, and its strict descendants within the set; each
stack is that set projected onto the input order and mapped to PR numbers; and
on the diamond `a→b, a→c, b→d, c→d` with PRs 1-4 the stacks are
`[[1,2,3,4],[1,2,4],[1,3,4],[1,2,3,4]]`, so the stack of `b` omits the
sibling `c` and the stack of `d` keeps all four. -/
theorem computeStackPRs_spec (states : List ChangeState)
    (hnd : (stateIDs states).Nodup) (htopo : TopoOrdered states) :
    (∀ s ∈ states, ∀ oid, oid ∈ relevantSet states s.change.changeID ↔
      relatedTo states s.change.changeID oid) ∧
    computeStackPRs states = states.map (fun s =>
      (states.filter (fun st =>
        (relevantSet states s.change.changeID).contains st.change.changeID)).map
      prNumberOf) ∧
    computeStackPRs diamondStates =
      [[1, 2, 3, 4], [1, 2, 4], [1, 3, 4], [1, 2, 3, 4]] := by
  refine ⟨?_, computeStackPRs_eq states, by decide⟩
  intro s hs oid
  exact relevantSet_iff hnd htopo hs oid

/-- C5 witness: the theorem applied to the diamond yields the membership
characterization at `b` and the concrete stacks. -/
theorem computeStackPRs_spec_witness :
    ("d" ∈ relevantSet diamondStates "b" ↔ relatedTo diamondStates "b" "d") ∧
    computeStackPRs diamondStates =
      [[1, 2, 3, 4], [1, 2, 4], [1, 3, 4], [1, 2, 3, 4]] := by
  have h := computeStackPRs_spec diamondStates (by decide) (by unfold TopoOrdered; decide)
  exact ⟨h.1 ⟨⟨"b", "c2", "db", ["a"], []⟩,
      ⟨"b", "bb", false, SyncState.inSync, false, false⟩,
      some ⟨2, "", "", "", "", "", "", false⟩, false, false⟩ (by decide) "d",
    h.2.2⟩

/-- Lookup in an appended association list prefers the prefix. -/
theorem lookup_append_left {β : Type} (acc l : List (String × β)) (x : String)
    (h : (acc.lookup x).isSome = true) : (acc ++ l).lookup x = acc.lookup x := by
  induction acc with
  | nil => simp [List.lookup] at h
  | cons kv rest ih =>
    obtain ⟨k, b⟩ := kv
    cases hx : (x == k) with
    | true => simp [List.lookup, hx]
    | false =>
      simp only [List.cons_append, List.lookup, hx] at h ⊢
      exact ih h

/-- Lookup falls through an association-list prefix that misses the key. -/
theorem lookup_append_right {β : Type} (acc l : List (String × β)) (x : String)
    (h : acc.lookup x = none) : (acc ++ l).lookup x = l.lookup x := by
  induction acc with
  | nil => rfl
  | cons kv rest ih =>
    obtain ⟨k, b⟩ := kv
    cases hx : (x == k) with
    | true =>
      simp only [List.lookup, hx] at h
      exact absurd h (by simp)
    | false =>
      simp only [List.cons_append, List.lookup, hx] at h ⊢
      exact ih h

/-- Inserting into the string sort adds exactly one occurrence. -/
theorem count_insertSortedStr (a x : String) (l : List String) :
    (insertSortedStr a l).count x = ((a :: l).count x) := by
  induction l with
  | nil => rfl
  | cons y ys ih =>
    unfold insertSortedStr
    by_cases hc : strLeB a y = true
    · rw [if_pos hc]
    · rw [if_neg hc]
      simp only [List.count_cons, ih]
      omega

/-- The string sort preserves occurrence counts. -/
theorem count_sortStrings (x : String) : ∀ l : List String,
    (sortStrings l).count x = l.count x := by
  intro l
  induction l with
  | nil => rfl
  | cons a as ih =>
    show (insertSortedStr a (sortStrings as)).count x = _
    rw [count_insertSortedStr]
    simp only [List.count_cons, ih]

/-- The string sort preserves membership. -/
theorem mem_sortStrings {x : String} {l : List String} :
    x ∈ sortStrings l ↔ x ∈ l := by
  rw [← List.count_pos_iff_mem, ← List.count_pos_iff_mem, count_sortStrings]

/-- The string sort preserves distinctness. -/
theorem nodup_sortStrings {l : List String} (h : l.Nodup) : (sortStrings l).Nodup := by
  rw [List.nodup_iff_count_le_one] at h ⊢
  intro a
  rw [count_sortStrings]
  exact h a

/-- An element of a prefix has its first occurrence inside that prefix. -/
theorem indexOf_lt_of_mem_take {l : List String} {x : String} {n : Nat}
    (h : x ∈ l.take n) : l.indexOf x < n := by
  induction l generalizing n with
  | nil => rw [List.take_nil] at h; cases h
  | cons a as ih =>
    cases n with
    | zero => simp at h
    | succ m =>
      rw [List.take_succ_cons] at h
      by_cases hax : x = a
      · subst hax
        rw [List.indexOf_cons_self]
        exact Nat.succ_pos m
      · have h2 : x ∈ as.take m := by
          rcases List.mem_cons.mp h with h3 | h3
          · exact absurd h3 hax
          · exact h3
        rw [List.indexOf_cons_ne as (fun he => hax he.symm)]
        exact Nat.succ_lt_succ (ih h2)

/-- A filter-map whose outputs are injectively named by distinct inputs is
duplicate-free. -/
theorem nodup_filterMap_ids (g : Nat → String) (f : Nat → Option String)
    (hf : ∀ i x, f i = some x → x = g i) :
    ∀ mi : List Nat, (∀ i j, i ∈ mi → j ∈ mi → g i = g j → i = j) → mi.Nodup →
      (mi.filterMap f).Nodup := by
  intro mi
  induction mi with
  | nil => intro _ _; simp
  | cons i rest ih =>
    intro hinj hnd
    rw [List.filterMap_cons]
    have hnd2 := List.nodup_cons.mp hnd
    cases hfi : f i with
    | none =>
      exact ih (fun a b ha hb => hinj a b (List.mem_cons_of_mem _ ha)
        (List.mem_cons_of_mem _ hb)) hnd2.2
    | some x =>
      rw [List.nodup_cons]
      refine ⟨?_, ih (fun a b ha hb => hinj a b (List.mem_cons_of_mem _ ha)
        (List.mem_cons_of_mem _ hb)) hnd2.2⟩
      intro hmem
      rcases List.mem_filterMap.mp hmem with ⟨j, hj, hfj⟩
      have hx1 : x = g i := hf i x hfi
      have hx2 : x = g j := hf j x hfj
      have hij : i = j := hinj i j (List.mem_cons_self _ _) (List.mem_cons_of_mem _ hj)
        (by rw [← hx1, hx2])
      rw [hij] at hnd2
      exact hnd2.1 hj

/-- Reading an updated key of a function map. -/
theorem fupd_self {β : Type} (m : String → β) (k : String) (v : β) : fupd m k v k = v := by
  unfold fupd
  rw [if_pos rfl]

/-- Reading an untouched key of a function map. -/
theorem fupd_other {β : Type} (m : String → β) (k : String) (v : β) (x : String)
    (h : x ≠ k) : fupd m k v x = m x := by
  unfold fupd
  rw [if_neg h]

/-- Generalized correctness of the `known` index construction of
`BuildDAGs`. -/
theorem buildKnown_gen :
    ∀ (cs : List Change) (i : Nat) (acc known : List (String × Nat)),
      buildKnown cs i acc = .ok known →
      (∀ j (hj : j < cs.length),
        (acc.lookup ((cs.get ⟨j, hj⟩).changeID)).isSome = false) ∧
      (∀ j (hj : j < cs.length),
        known.lookup ((cs.get ⟨j, hj⟩).changeID) = some (i + j)) ∧
      (∀ x, (acc.lookup x).isSome = true → known.lookup x = acc.lookup x) ∧
      (cs.map Change.changeID).Nodup := by
  intro cs
  induction cs with
  | nil =>
    intro i acc known h
    simp only [buildKnown] at h
    injection h with h2
    subst h2
    refine ⟨?_, ?_, ?_, ?_⟩
    · intro j hj; exact absurd hj (Nat.not_lt_zero _)
    · intro j hj; exact absurd hj (Nat.not_lt_zero _)
    · intro x hx; rfl
    · simp
  | cons c rest ih =>
    intro i acc known h
    simp only [buildKnown] at h
    by_cases hdup : (acc.lookup c.changeID).isSome = true
    · rw [if_pos hdup] at h
      cases h
    · rw [if_neg hdup] at h
      obtain ⟨hAcc2, hKnown2, hExt2, hNd2⟩ := ih (i + 1) (acc ++ [(c.changeID, i)]) known h
      have hdupF : (acc.lookup c.changeID).isSome = false := by
        cases hv : (acc.lookup c.changeID).isSome with
        | false => rfl
        | true => exact absurd hv hdup
      have haccNone : acc.lookup c.changeID = none := by
        cases hv : acc.lookup c.changeID with
        | none => rfl
        | some v =>
          rw [hv] at hdupF
          exact absurd hdupF (by simp)
      have hlk : (acc ++ [(c.changeID, i)]).lookup c.changeID = some i := by
        rw [lookup_append_right acc _ _ haccNone]
        simp [List.lookup]
      refine ⟨?_, ?_, ?_, ?_⟩
      · intro j hj
        cases j with
        | zero => exact hdupF
        | succ j2 =>
          have hj2 : j2 < rest.length := Nat.lt_of_succ_lt_succ hj
          have h2 := hAcc2 j2 hj2
          cases hv : (acc.lookup ((rest.get ⟨j2, hj2⟩).changeID)).isSome with
          | false => exact hv
          | true =>
            rw [lookup_append_left acc _ _ hv] at h2
            rw [h2] at hv
            exact absurd hv (by decide)
      · intro j hj
        cases j with
        | zero =>
          have h3 := hExt2 c.changeID (by rw [hlk]; rfl)
          rw [hlk] at h3
          have he : i + 0 = i := Nat.add_zero i
          rw [he]
          exact h3
        | succ j2 =>
          have hj2 : j2 < rest.length := Nat.lt_of_succ_lt_succ hj
          have h2 := hKnown2 j2 hj2
          have he : i + 1 + j2 = i + (j2 + 1) := by omega
          rw [← he]
          exact h2
      · intro x hx
        have hx2 : ((acc ++ [(c.changeID, i)]).lookup x).isSome = true := by
          rw [lookup_append_left acc _ _ hx]
          exact hx
        have h3 := hExt2 x hx2
        rw [lookup_append_left acc _ _ hx] at h3
        exact h3
      · rw [List.map_cons, List.nodup_cons]
        refine ⟨?_, hNd2⟩
        intro hmem
        rcases List.mem_map.mp hmem with ⟨c2, hc2, hc2id⟩
        rcases List.mem_iff_get.mp hc2 with ⟨⟨j2, hj2⟩, hget⟩
        have h2 := hAcc2 j2 hj2
        rw [hget, hc2id, hlk] at h2
        exact absurd h2 (by simp)

/-- Top-level correctness of the `known` index: distinct ids, resolved to
their positions. -/
theorem buildKnown_main {cs : List Change} {known : List (String × Nat)}
    (h : buildKnown cs 0 [] = .ok known) :
    (∀ j (hj : j < cs.length), known.lookup ((cs.get ⟨j, hj⟩).changeID) = some j) ∧
    (cs.map Change.changeID).Nodup := by
  obtain ⟨_, h2, _, h4⟩ := buildKnown_gen cs 0 [] known h
  refine ⟨?_, h4⟩
  intro j hj
  have h3 := h2 j hj
  rwa [Nat.zero_add] at h3

/-- The queue produced by one decrement batch. -/
theorem decrKids_queue : ∀ (ks q : List String) (deg : String → Int),
    (decrKids ks q deg).1 = q ++ enqList ks deg := by
  intro ks
  induction ks with
  | nil => intro q deg; simp [decrKids, enqList]
  | cons kid ks2 ih =>
    intro q deg
    simp only [decrKids, enqList]
    by_cases hd : deg kid - 1 = 0
    · rw [if_pos hd, if_pos hd, ih]
      simp
    · rw [if_neg hd, if_neg hd, ih]

/-- The degrees produced by one decrement batch. -/
theorem decrKids_deg : ∀ (ks q : List String) (deg : String → Int) (x : String),
    (decrKids ks q deg).2 x = deg x - (ks.count x : Int) := by
  intro ks
  induction ks with
  | nil => intro q deg x; simp [decrKids]
  | cons kid ks2 ih =>
    intro q deg x
    have key : ∀ q2 : List String,
        (decrKids ks2 q2 (fupd deg kid (deg kid - 1))).2 x =
          deg x - (((kid :: ks2).count x : Nat) : Int) := by
      intro q2
      rw [ih]
      by_cases hx : x = kid
      · subst hx
        rw [fupd_self]
        have hc : (x :: ks2).count x = ks2.count x + 1 := by
          rw [List.count_cons]
          simp
        rw [hc]
        push_cast
        ring
      · rw [fupd_other deg kid _ x hx]
        have hc : (kid :: ks2).count x = ks2.count x := by
          rw [List.count_cons, beq_eq_false_iff_ne.mpr (Ne.symm hx)]
          simp
        rw [hc]
    simp only [decrKids]
    by_cases hd : deg kid - 1 = 0
    · rw [if_pos hd]
      exact key _
    · rw [if_neg hd]
      exact key _

/-- Membership in a decrement batch's queue additions: exactly the ids whose
running degree hits zero. -/
theorem mem_enqList : ∀ (ks : List String) (deg : String → Int) (x : String),
    x ∈ enqList ks deg ↔ (1 ≤ deg x ∧ deg x ≤ (ks.count x : Int)) := by
  intro ks
  induction ks with
  | nil =>
    intro deg x
    constructor
    · intro h
      exact absurd h (List.not_mem_nil x)
    · rintro ⟨h1, h2⟩
      exfalso
      simp at h2
      omega
  | cons kid ks2 ih =>
    intro deg x
    simp only [enqList]
    by_cases hd : deg kid - 1 = 0
    · rw [if_pos hd]
      by_cases hx : x = kid
      · subst hx
        constructor
        · intro _
          have h0 : 0 < (x :: ks2).count x :=
            List.count_pos_iff_mem.mpr (List.mem_cons_self _ _)
          exact ⟨by omega, by omega⟩
        · intro _
          exact List.mem_cons_self _ _
      · have hmem : x ∈ kid :: enqList ks2 (fupd deg kid (deg kid - 1)) ↔
            x ∈ enqList ks2 (fupd deg kid (deg kid - 1)) := by
          constructor
          · intro h
            rcases List.mem_cons.mp h with h2 | h2
            · exact absurd h2 hx
            · exact h2
          · exact List.mem_cons_of_mem _
        have hc : (kid :: ks2).count x = ks2.count x := by
          rw [List.count_cons, beq_eq_false_iff_ne.mpr (Ne.symm hx)]
          simp
        rw [hmem, ih, fupd_other deg kid _ x hx, hc]
    · rw [if_neg hd]
      by_cases hx : x = kid
      · subst hx
        rw [ih, fupd_self]
        have hc : (x :: ks2).count x = ks2.count x + 1 := by
          rw [List.count_cons]
          simp
        rw [hc]
        constructor
        · rintro ⟨h1, h2⟩
          exact ⟨by omega, by omega⟩
        · rintro ⟨h1, h2⟩
          exact ⟨by omega, by omega⟩
      · have hc : (kid :: ks2).count x = ks2.count x := by
          rw [List.count_cons, beq_eq_false_iff_ne.mpr (Ne.symm hx)]
          simp
        rw [ih, fupd_other deg kid _ x hx, hc]

/-- A decrement batch enqueues each id at most once. -/
theorem nodup_enqList : ∀ (ks : List String) (deg : String → Int),
    (enqList ks deg).Nodup := by
  intro ks
  induction ks with
  | nil => intro deg; simp [enqList]
  | cons kid ks2 ih =>
    intro deg
    simp only [enqList]
    by_cases hd : deg kid - 1 = 0
    · rw [if_pos hd]
      rw [List.nodup_cons]
      refine ⟨?_, ih _⟩
      intro hmem
      obtain ⟨h1, _⟩ := (mem_enqList ks2 _ kid).mp hmem
      rw [fupd_self] at h1
      omega
    · rw [if_neg hd]
      exact ih _

/-- Splitting the unpopped-parent count at a freshly popped id. -/
theorem filter_split_id (inComp : String → Bool) (S : List String) (id2 : String)
    (hid : S.contains id2 = false) :
    ∀ ps : List String,
      (ps.filter (fun pid => inComp pid && !(S.contains pid))).length =
      (ps.filter (fun pid => inComp pid && !((S ++ [id2]).contains pid))).length +
      (ps.filter (fun pid => inComp pid && pid == id2)).length := by
  intro ps
  induction ps with
  | nil => rfl
  | cons p ps2 ih =>
    by_cases hp : p = id2
    · subst hp
      by_cases hc : inComp p = true
      · have e1 : (fun pid => inComp pid && !(S.contains pid)) p = true := by
          show (inComp p && !(S.contains p)) = true
          rw [hc, hid]
          rfl
        have hin : (S ++ [p]).contains p = true :=
          List.elem_iff.mpr (List.mem_append_right _ (List.mem_cons_self _ _))
        have e2 : ¬((fun pid => inComp pid && !((S ++ [p]).contains pid)) p = true) := by
          show ¬((inComp p && !((S ++ [p]).contains p)) = true)
          rw [hc, hin]
          decide
        have e3 : (fun pid => inComp pid && pid == p) p = true := by
          show (inComp p && (p == p)) = true
          rw [hc, beq_self_eq_true]
          rfl
        have f1 := @List.filter_cons_of_pos String
          (fun pid => inComp pid && !(S.contains pid)) p ps2 e1
        have f2 := @List.filter_cons_of_neg String
          (fun pid => inComp pid && !((S ++ [p]).contains pid)) p ps2 e2
        have f3 := @List.filter_cons_of_pos String
          (fun pid => inComp pid && pid == p) p ps2 e3
        rw [f1, f2, f3, List.length_cons, List.length_cons]
        omega
      · have hcf : inComp p = false := by
          cases hv : inComp p with
          | false => rfl
          | true => exact absurd hv hc
        have e1 : ¬((fun pid => inComp pid && !(S.contains pid)) p = true) := by
          show ¬((inComp p && !(S.contains p)) = true)
          rw [hcf]
          simp
        have e2 : ¬((fun pid => inComp pid && !((S ++ [p]).contains pid)) p = true) := by
          show ¬((inComp p && !((S ++ [p]).contains p)) = true)
          rw [hcf]
          simp
        have e3 : ¬((fun pid => inComp pid && pid == p) p = true) := by
          show ¬((inComp p && (p == p)) = true)
          rw [hcf]
          simp
        have f1 := @List.filter_cons_of_neg String
          (fun pid => inComp pid && !(S.contains pid)) p ps2 e1
        have f2 := @List.filter_cons_of_neg String
          (fun pid => inComp pid && !((S ++ [p]).contains pid)) p ps2 e2
        have f3 := @List.filter_cons_of_neg String
          (fun pid => inComp pid && pid == p) p ps2 e3
        rw [f1, f2, f3]
        exact ih
    · have hsp : (S ++ [id2]).contains p = S.contains p := by
        cases hcp : S.contains p with
        | true => exact List.elem_iff.mpr (List.mem_append_left _ (List.elem_iff.mp hcp))
        | false =>
          cases hcp2 : (S ++ [id2]).contains p with
          | false => rfl
          | true =>
            exfalso
            rcases List.mem_append.mp (List.elem_iff.mp hcp2) with h3 | h3
            · have h4 : S.contains p = true := List.elem_iff.mpr h3
              rw [hcp] at h4
              exact absurd h4 (by decide)
            · have h4 : p = id2 := by simpa using h3
              exact absurd h4 hp
      have e3 : ¬((fun pid => inComp pid && pid == id2) p = true) := by
        show ¬((inComp p && (p == id2)) = true)
        rw [beq_eq_false_iff_ne.mpr hp]
        simp
      have f3 := @List.filter_cons_of_neg String
        (fun pid => inComp pid && pid == id2) p ps2 e3
      cases hb : (inComp p && !(S.contains p)) with
      | true =>
        have e1 : (fun pid => inComp pid && !(S.contains pid)) p = true := hb
        have e2 : (fun pid => inComp pid && !((S ++ [id2]).contains pid)) p = true := by
          show (inComp p && !((S ++ [id2]).contains p)) = true
          rw [hsp]
          exact hb
        have f1 := @List.filter_cons_of_pos String
          (fun pid => inComp pid && !(S.contains pid)) p ps2 e1
        have f2 := @List.filter_cons_of_pos String
          (fun pid => inComp pid && !((S ++ [id2]).contains pid)) p ps2 e2
        rw [f1, f2, f3, List.length_cons, List.length_cons]
        omega
      | false =>
        have e1 : ¬((fun pid => inComp pid && !(S.contains pid)) p = true) := by
          show ¬((inComp p && !(S.contains p)) = true)
          rw [hb]
          decide
        have e2 : ¬((fun pid => inComp pid && !((S ++ [id2]).contains pid)) p = true) := by
          show ¬((inComp p && !((S ++ [id2]).contains p)) = true)
          rw [hsp, hb]
          decide
        have f1 := @List.filter_cons_of_neg String
          (fun pid => inComp pid && !(S.contains pid)) p ps2 e1
        have f2 := @List.filter_cons_of_neg String
          (fun pid => inComp pid && !((S ++ [id2]).contains pid)) p ps2 e2
        rw [f1, f2, f3]
        exact ih

/-- In-degree accumulated by one member's parent scan at its own key. -/
theorem innerDC_deg_self (inComp : String → Bool) (cid : String) :
    ∀ (ps : List String) (acc2 : (String → Int) × (String → List String)),
      ((ps.foldl (fun (acc2 : (String → Int) × (String → List String)) pid =>
        if inComp pid then
          (fupd acc2.1 cid (acc2.1 cid + 1), fupd acc2.2 pid (acc2.2 pid ++ [cid]))
        else acc2) acc2).1) cid =
      acc2.1 cid + ((ps.filter (fun pid => inComp pid)).length : Int) := by
  intro ps
  induction ps with
  | nil => intro acc2; simp
  | cons q ps2 ih =>
    intro acc2
    simp only [List.foldl_cons]
    by_cases hq : inComp q = true
    · rw [if_pos hq, ih]
      have f := @List.filter_cons_of_pos String (fun pid => inComp pid) q ps2 hq
      rw [f, List.length_cons]
      simp only [fupd_self]
      push_cast
      ring
    · rw [if_neg hq, ih]
      have f := @List.filter_cons_of_neg String (fun pid => inComp pid) q ps2 hq
      rw [f]

/-- One member's parent scan leaves other in-degree keys unchanged. -/
theorem innerDC_deg_other (inComp : String → Bool) (cid : String) :
    ∀ (ps : List String) (acc2 : (String → Int) × (String → List String)) (x : String),
      x ≠ cid →
      ((ps.foldl (fun (acc2 : (String → Int) × (String → List String)) pid =>
        if inComp pid then
          (fupd acc2.1 cid (acc2.1 cid + 1), fupd acc2.2 pid (acc2.2 pid ++ [cid]))
        else acc2) acc2).1) x = acc2.1 x := by
  intro ps
  induction ps with
  | nil => intro acc2 x _; rfl
  | cons q ps2 ih =>
    intro acc2 x hx
    simp only [List.foldl_cons]
    by_cases hq : inComp q = true
    · rw [if_pos hq, ih _ x hx]
      exact fupd_other _ _ _ _ hx
    · rw [if_neg hq, ih _ x hx]

/-- Child-list multiplicities accumulated by one member's parent scan. -/
theorem innerDC_count (inComp : String → Bool) (cid : String) :
    ∀ (ps : List String) (acc2 : (String → Int) × (String → List String)) (p x : String),
      (((ps.foldl (fun (acc2 : (String → Int) × (String → List String)) pid =>
        if inComp pid then
          (fupd acc2.1 cid (acc2.1 cid + 1), fupd acc2.2 pid (acc2.2 pid ++ [cid]))
        else acc2) acc2).2) p).count x =
      ((acc2.2 p).count x) + (if inComp p = true ∧ cid = x then ps.count p else 0) := by
  intro ps
  induction ps with
  | nil => intro acc2 p x; simp
  | cons q ps2 ih =>
    intro acc2 p x
    simp only [List.foldl_cons]
    by_cases hq : inComp q = true
    · rw [if_pos hq, ih]
      dsimp only
      by_cases hpq : p = q
      · subst hpq
        rw [fupd_self, List.count_append]
        have hcnt : (p :: ps2).count p = ps2.count p + 1 := by
          rw [List.count_cons]
          simp
        rw [hcnt]
        by_cases hcx : cid = x
        · have h1 : ([cid] : List String).count x = 1 := by
            rw [List.count_cons, List.count_nil, hcx]
            simp
          have hcond : inComp p = true ∧ cid = x := ⟨hq, hcx⟩
          rw [h1, if_pos hcond, if_pos hcond]
          omega
        · have h1 : ([cid] : List String).count x = 0 := by
            rw [List.count_cons, List.count_nil,
              beq_eq_false_iff_ne.mpr (fun h => hcx h)]
            simp
          have hcond : ¬(inComp p = true ∧ cid = x) := fun h => hcx h.2
          rw [h1, if_neg hcond, if_neg hcond]
      · rw [fupd_other _ _ _ _ hpq]
        have hcnt : (q :: ps2).count p = ps2.count p := by
          rw [List.count_cons, beq_eq_false_iff_ne.mpr (Ne.symm hpq)]
          simp
        rw [hcnt]
    · rw [if_neg hq, ih]
      by_cases hpq : p = q
      · subst hpq
        have hcond : ¬(inComp p = true ∧ cid = x) := fun h => hq h.1
        rw [if_neg hcond, if_neg hcond]
      · have hcnt : (q :: ps2).count p = ps2.count p := by
          rw [List.count_cons, beq_eq_false_iff_ne.mpr (Ne.symm hpq)]
          simp
        rw [hcnt]

/-- In-degree map produced by `buildDegChildren`: untouched keys keep zero,
member keys hold the member's in-component parent count. -/
theorem buildDegChildren_deg (all : List Change) (inComp : String → Bool) :
    ∀ (mi : List Nat) (acc : (String → Int) × (String → List String)) (x : String),
      ((∀ i ∈ mi, (all.getD i default).changeID ≠ x) ∧
        (mi.foldl (fun acc i =>
          let c := all.getD i default
          c.parentIDs.foldl
            (fun (acc2 : (String → Int) × (String → List String)) pid =>
              if inComp pid then
                (fupd acc2.1 c.changeID (acc2.1 c.changeID + 1),
                 fupd acc2.2 pid (acc2.2 pid ++ [c.changeID]))
              else acc2)
            (fupd acc.1 c.changeID 0, acc.2)) acc).1 x = acc.1 x) ∨
      (∃ i0, i0 ∈ mi ∧ (all.getD i0 default).changeID = x ∧
        (mi.foldl (fun acc i =>
          let c := all.getD i default
          c.parentIDs.foldl
            (fun (acc2 : (String → Int) × (String → List String)) pid =>
              if inComp pid then
                (fupd acc2.1 c.changeID (acc2.1 c.changeID + 1),
                 fupd acc2.2 pid (acc2.2 pid ++ [c.changeID]))
              else acc2)
            (fupd acc.1 c.changeID 0, acc.2)) acc).1 x =
          (((all.getD i0 default).parentIDs.filter (fun pid => inComp pid)).length : Int)) := by
  intro mi
  induction mi with
  | nil =>
    intro acc x
    exact Or.inl ⟨fun i hi => absurd hi (List.not_mem_nil i), rfl⟩
  | cons i mi2 ih =>
    intro acc x
    simp only [List.foldl_cons]
    by_cases hx : (all.getD i default).changeID = x
    · rcases ih ((all.getD i default).parentIDs.foldl
        (fun (acc2 : (String → Int) × (String → List String)) pid =>
          if inComp pid then
            (fupd acc2.1 (all.getD i default).changeID
              (acc2.1 (all.getD i default).changeID + 1),
             fupd acc2.2 pid (acc2.2 pid ++ [(all.getD i default).changeID]))
          else acc2)
        (fupd acc.1 (all.getD i default).changeID 0, acc.2)) x with
        ⟨hnone, heq⟩ | ⟨i0, hi0, hid0, heq⟩
      · refine Or.inr ⟨i, List.mem_cons_self _ _, hx, ?_⟩
        rw [heq, ← hx]
        rw [innerDC_deg_self inComp (all.getD i default).changeID]
        dsimp only
        rw [fupd_self]
        push_cast
        ring
      · exact Or.inr ⟨i0, List.mem_cons_of_mem _ hi0, hid0, heq⟩
    · rcases ih ((all.getD i default).parentIDs.foldl
        (fun (acc2 : (String → Int) × (String → List String)) pid =>
          if inComp pid then
            (fupd acc2.1 (all.getD i default).changeID
              (acc2.1 (all.getD i default).changeID + 1),
             fupd acc2.2 pid (acc2.2 pid ++ [(all.getD i default).changeID]))
          else acc2)
        (fupd acc.1 (all.getD i default).changeID 0, acc.2)) x with
        ⟨hnone, heq⟩ | ⟨i0, hi0, hid0, heq⟩
      · refine Or.inl ⟨?_, ?_⟩
        · intro j hj
          rcases List.mem_cons.mp hj with rfl | hj2
          · exact hx
          · exact hnone j hj2
        · rw [heq]
          rw [innerDC_deg_other inComp (all.getD i default).changeID _ _ x
            (fun h => hx h.symm)]
          exact fupd_other _ _ _ _ (fun h => hx h.symm)
      · exact Or.inr ⟨i0, List.mem_cons_of_mem _ hi0, hid0, heq⟩

/-- Child-list multiplicities produced by `buildDegChildren`. -/
theorem buildDegChildren_count (all : List Change) (inComp : String → Bool) :
    ∀ (mi : List Nat) (acc : (String → Int) × (String → List String)) (p x : String),
      (((mi.foldl (fun acc i =>
        let c := all.getD i default
        c.parentIDs.foldl
          (fun (acc2 : (String → Int) × (String → List String)) pid =>
            if inComp pid then
              (fupd acc2.1 c.changeID (acc2.1 c.changeID + 1),
               fupd acc2.2 pid (acc2.2 pid ++ [c.changeID]))
            else acc2)
          (fupd acc.1 c.changeID 0, acc.2)) acc).2) p).count x =
      ((acc.2 p).count x) + childContrib all inComp p x mi := by
  intro mi
  induction mi with
  | nil => intro acc p x; simp [childContrib]
  | cons i mi2 ih =>
    intro acc p x
    simp only [List.foldl_cons, childContrib]
    rw [ih]
    rw [innerDC_count inComp (all.getD i default).changeID]
    dsimp only
    omega

/-- Positional lookup in the left part of an append. -/
theorem get_append_left_h {α : Type} (l1 l2 : List α) (j : Nat) (h1 : j < l1.length)
    (h : j < (l1 ++ l2).length) : (l1 ++ l2).get ⟨j, h⟩ = l1.get ⟨j, h1⟩ :=
  List.getElem_append_left h1

/-- The Kahn loop emits members in dependency order: when it returns, every
in-component parent of an emitted change was emitted strictly earlier, and
every emitted id lies in the component. -/
theorem kahnLoop_order (all : List Change) (known : List (String × Nat))
    (children : String → List String) (inComp : String → Bool)
    (hHA : ∀ p x, (((children p).count x : Nat) : Int) ≤
      ((((chOfIdx all known x).parentIDs.filter
        (fun pid => inComp pid && pid == p)).length : Nat) : Int))
    (hHB : ∀ p x, x ∈ children p → (chOfIdx all known x).changeID = x)
    (hHB2 : ∀ p x, x ∈ children p → inComp x = true) :
    ∀ (fuel : Nat) (queue : List String) (inDeg : String → Int)
      (sorted : List Change) (byID : List (String × Change))
      (out : List Change × List (String × Change)),
      kahnLoop all known children fuel queue inDeg sorted byID = some out →
      queue.Nodup →
      (∀ q ∈ queue, q ∉ sorted.map Change.changeID) →
      (∀ q ∈ queue, (chOfIdx all known q).changeID = q) →
      (∀ q ∈ queue, inComp q = true) →
      (∀ q ∈ queue, ∀ pid ∈ (chOfIdx all known q).parentIDs, inComp pid = true →
        pid ∈ sorted.map Change.changeID) →
      (∀ q ∈ queue, inDeg q ≤ 0) →
      (∀ x ∈ sorted.map Change.changeID, inDeg x ≤ 0) →
      (∀ x ∈ sorted.map Change.changeID, inComp x = true) →
      (∀ x, inComp x = true → x ∉ sorted.map Change.changeID →
        ((degModelAt all known inComp (sorted.map Change.changeID) x : Nat) : Int) ≤
          inDeg x) →
      (∀ j (hj : j < sorted.length), ∀ pid ∈ (sorted.get ⟨j, hj⟩).parentIDs,
        inComp pid = true → pid ∈ (sorted.map Change.changeID).take j) →
      ((∀ j (hj : j < out.1.length), ∀ pid ∈ (out.1.get ⟨j, hj⟩).parentIDs,
        inComp pid = true → pid ∈ (out.1.map Change.changeID).take j) ∧
       (∀ x ∈ out.1.map Change.changeID, inComp x = true)) := by
  intro fuel
  induction fuel with
  | zero =>
    intro queue inDeg sorted byID out h hN hFresh hCh hQC hPar hQD hSD hSC hLB hOrd
    simp only [kahnLoop] at h
    by_cases hq : queue.isEmpty = true
    · rw [if_pos hq] at h
      injection h with h2out
      subst h2out
      exact ⟨hOrd, hSC⟩
    · rw [if_neg hq] at h
      cases h
  | succ n ih =>
    intro queue inDeg sorted byID out h hN hFresh hCh hQC hPar hQD hSD hSC hLB hOrd
    cases queue with
    | nil =>
      simp only [kahnLoop] at h
      injection h with h2out
      subst h2out
      exact ⟨hOrd, hSC⟩
    | cons id rest =>
      simp only [kahnLoop] at h
      have hchEq : all.getD ((known.lookup id).getD 0) default = chOfIdx all known id := rfl
      rw [hchEq] at h
      rw [decrKids_queue] at h
      have hidS : id ∉ sorted.map Change.changeID := hFresh id (List.mem_cons_self _ _)
      have hidCont : (sorted.map Change.changeID).contains id = false := by
        cases hv : (sorted.map Change.changeID).contains id with
        | false => rfl
        | true => exact absurd (List.elem_iff.mp hv) hidS
      have hchid : (chOfIdx all known id).changeID = id := hCh id (List.mem_cons_self _ _)
      have hrestN : rest.Nodup := (List.nodup_cons.mp hN).2
      have hidrest : id ∉ rest := (List.nodup_cons.mp hN).1
      have hS1 : (sorted ++ [chOfIdx all known id]).map Change.changeID =
          sorted.map Change.changeID ++ [id] := by
        rw [List.map_append]
        simp [hchid]
      have hdeg2 : ∀ x, (decrKids (sortStrings (children id)) rest inDeg).2 x =
          inDeg x - (((children id).count x : Nat) : Int) := by
        intro x
        rw [decrKids_deg, count_sortStrings]
      have henq : ∀ x, x ∈ enqList (sortStrings (children id)) inDeg ↔
          (1 ≤ inDeg x ∧ inDeg x ≤ (((children id).count x : Nat) : Int)) := by
        intro x
        rw [mem_enqList, count_sortStrings]
      have henqCh : ∀ x ∈ enqList (sortStrings (children id)) inDeg, x ∈ children id := by
        intro x hx
        obtain ⟨hx1, hx2⟩ := (henq x).mp hx
        have hc : 0 < (children id).count x := by omega
        exact List.count_pos_iff_mem.mp hc
      have henqS : ∀ x ∈ enqList (sortStrings (children id)) inDeg,
          x ∉ sorted.map Change.changeID := by
        intro x hx hmem
        obtain ⟨hx1, _⟩ := (henq x).mp hx
        have h2 := hSD x hmem
        omega
      have henqId : ∀ x ∈ enqList (sortStrings (children id)) inDeg, x ≠ id := by
        intro x hx he
        obtain ⟨hx1, _⟩ := (henq x).mp hx
        have h2 := hQD id (List.mem_cons_self _ _)
        rw [he] at hx1
        omega
      have hsplit : ∀ x, degModelAt all known inComp (sorted.map Change.changeID) x =
          degModelAt all known inComp (sorted.map Change.changeID ++ [id]) x +
          ((chOfIdx all known x).parentIDs.filter
            (fun pid => inComp pid && pid == id)).length := by
        intro x
        exact filter_split_id inComp _ id hidCont _
      have henqPar : ∀ x ∈ enqList (sortStrings (children id)) inDeg,
          ∀ pid ∈ (chOfIdx all known x).parentIDs, inComp pid = true →
            pid ∈ sorted.map Change.changeID ++ [id] := by
        intro x hx pid hpid hpc
        obtain ⟨hx1, hx2⟩ := (henq x).mp hx
        have hxC : inComp x = true := hHB2 id x (henqCh x hx)
        have hxS : x ∉ sorted.map Change.changeID := henqS x hx
        have hlb := hLB x hxC hxS
        have hocc := hHA id x
        have hsp := hsplit x
        have hzero : degModelAt all known inComp
            (sorted.map Change.changeID ++ [id]) x = 0 := by
          omega
        by_cases hmem : pid ∈ sorted.map Change.changeID ++ [id]
        · exact hmem
        · exfalso
          have hcont : (sorted.map Change.changeID ++ [id]).contains pid = false := by
            cases hv : (sorted.map Change.changeID ++ [id]).contains pid with
            | false => rfl
            | true => exact absurd (List.elem_iff.mp hv) hmem
          have hpmem : pid ∈ (chOfIdx all known x).parentIDs.filter
              (fun pid2 => inComp pid2 &&
                !((sorted.map Change.changeID ++ [id]).contains pid2)) := by
            rw [List.mem_filter]
            refine ⟨hpid, ?_⟩
            rw [hpc, hcont]
            rfl
          have hne : degModelAt all known inComp
              (sorted.map Change.changeID ++ [id]) x ≠ 0 := by
            unfold degModelAt
            intro hlen
            rw [List.length_eq_zero] at hlen
            rw [hlen] at hpmem
            exact absurd hpmem (List.not_mem_nil pid)
          exact hne hzero
      have hNd : (rest ++ enqList (sortStrings (children id)) inDeg).Nodup := by
        rw [List.nodup_append]
        refine ⟨hrestN, nodup_enqList _ _, ?_⟩
        intro a ha ha2
        obtain ⟨h1a, _⟩ := (henq a).mp ha2
        have h2a := hQD a (List.mem_cons_of_mem _ ha)
        omega
      have hFresh2 : ∀ q ∈ rest ++ enqList (sortStrings (children id)) inDeg,
          q ∉ (sorted ++ [chOfIdx all known id]).map Change.changeID := by
        intro q hq3
        rw [hS1]
        rcases List.mem_append.mp hq3 with hq4 | hq4
        · intro hmem
          rcases List.mem_append.mp hmem with hm | hm
          · exact hFresh q (List.mem_cons_of_mem _ hq4) hm
          · have hm2 : q = id := by simpa using hm
            exact hidrest (hm2 ▸ hq4)
        · intro hmem
          rcases List.mem_append.mp hmem with hm | hm
          · exact henqS q hq4 hm
          · have hm2 : q = id := by simpa using hm
            exact henqId q hq4 hm2
      have hCh2 : ∀ q ∈ rest ++ enqList (sortStrings (children id)) inDeg,
          (chOfIdx all known q).changeID = q := by
        intro q hq3
        rcases List.mem_append.mp hq3 with hq4 | hq4
        · exact hCh q (List.mem_cons_of_mem _ hq4)
        · exact hHB id q (henqCh q hq4)
      have hQC2 : ∀ q ∈ rest ++ enqList (sortStrings (children id)) inDeg,
          inComp q = true := by
        intro q hq3
        rcases List.mem_append.mp hq3 with hq4 | hq4
        · exact hQC q (List.mem_cons_of_mem _ hq4)
        · exact hHB2 id q (henqCh q hq4)
      have hPar2 : ∀ q ∈ rest ++ enqList (sortStrings (children id)) inDeg,
          ∀ pid ∈ (chOfIdx all known q).parentIDs, inComp pid = true →
            pid ∈ (sorted ++ [chOfIdx all known id]).map Change.changeID := by
        intro q hq3 pid hpid hpc
        rw [hS1]
        rcases List.mem_append.mp hq3 with hq4 | hq4
        · exact List.mem_append_left _ (hPar q (List.mem_cons_of_mem _ hq4) pid hpid hpc)
        · exact henqPar q hq4 pid hpid hpc
      have hQD2 : ∀ q ∈ rest ++ enqList (sortStrings (children id)) inDeg,
          (decrKids (sortStrings (children id)) rest inDeg).2 q ≤ 0 := by
        intro q hq3
        rw [hdeg2 q]
        rcases List.mem_append.mp hq3 with hq4 | hq4
        · have h2 := hQD q (List.mem_cons_of_mem _ hq4)
          omega
        · obtain ⟨hq5, hq6⟩ := (henq q).mp hq4
          omega
      have hSD2 : ∀ x ∈ (sorted ++ [chOfIdx all known id]).map Change.changeID,
          (decrKids (sortStrings (children id)) rest inDeg).2 x ≤ 0 := by
        intro x hx
        rw [hS1] at hx
        rw [hdeg2 x]
        rcases List.mem_append.mp hx with hm | hm
        · have h2 := hSD x hm
          omega
        · have hxid : x = id := by simpa using hm
          subst hxid
          have h2 := hQD x (List.mem_cons_self _ _)
          omega
      have hSC2 : ∀ x ∈ (sorted ++ [chOfIdx all known id]).map Change.changeID,
          inComp x = true := by
        intro x hx
        rw [hS1] at hx
        rcases List.mem_append.mp hx with hm | hm
        · exact hSC x hm
        · have hxid : x = id := by simpa using hm
          subst hxid
          exact hQC x (List.mem_cons_self _ _)
      have hLB2 : ∀ x, inComp x = true →
          x ∉ (sorted ++ [chOfIdx all known id]).map Change.changeID →
          ((degModelAt all known inComp
            ((sorted ++ [chOfIdx all known id]).map Change.changeID) x : Nat) : Int) ≤
            (decrKids (sortStrings (children id)) rest inDeg).2 x := by
        intro x hxC hxS
        rw [hS1] at hxS
        rw [hdeg2 x, hS1]
        have hxS2 : x ∉ sorted.map Change.changeID :=
          fun hm => hxS (List.mem_append_left _ hm)
        have hlb := hLB x hxC hxS2
        have hocc := hHA id x
        have hsp := hsplit x
        omega
      have hOrd2 : ∀ j (hj : j < (sorted ++ [chOfIdx all known id]).length),
          ∀ pid ∈ ((sorted ++ [chOfIdx all known id]).get ⟨j, hj⟩).parentIDs,
          inComp pid = true →
          pid ∈ ((sorted ++ [chOfIdx all known id]).map Change.changeID).take j := by
        intro j hj pid hpid hpc
        rw [hS1]
        by_cases hjlt : j < sorted.length
        · have hget : (sorted ++ [chOfIdx all known id]).get ⟨j, hj⟩ =
              sorted.get ⟨j, hjlt⟩ := get_append_left_h _ _ j hjlt hj
          rw [hget] at hpid
          have h0 := hOrd j hjlt pid hpid hpc
          rw [List.take_append_of_le_length
            (by rw [List.length_map]; exact Nat.le_of_lt hjlt)]
          exact h0
        · have hjb : j < sorted.length + 1 := by
            have h2 := hj
            rw [List.length_append, List.length_cons, List.length_nil] at h2
            omega
          have hjeq : j = sorted.length := by omega
          subst hjeq
          have hget : (sorted ++ [chOfIdx all known id]).get ⟨sorted.length, hj⟩ =
              chOfIdx all known id := get_append_cons sorted [] _ hj
          rw [hget] at hpid
          have h0 := hPar id (List.mem_cons_self _ _) pid hpid hpc
          rw [List.take_append_of_le_length (by rw [List.length_map])]
          have htk : (sorted.map Change.changeID).take sorted.length =
              sorted.map Change.changeID := by
            have h2 : (sorted.map Change.changeID).length = sorted.length :=
              List.length_map _ _
            rw [← h2, List.take_length]
          rw [htk]
          exact h0
      exact ih _ _ _ _ out h hNd hFresh2 hCh2 hQC2 hPar2 hQD2 hSD2 hSC2 hLB2 hOrd2

/-- No member carries the key: no child contribution. -/
theorem childContrib_none (all : List Change) (inComp : String → Bool) (p x : String) :
    ∀ mi : List Nat, (∀ i ∈ mi, (all.getD i default).changeID ≠ x) →
      childContrib all inComp p x mi = 0 := by
  intro mi
  induction mi with
  | nil => intro _; rfl
  | cons i rest ih =>
    intro hn
    simp only [childContrib]
    rw [if_neg (fun hcond => hn i (List.mem_cons_self _ _) hcond.2),
      ih (fun j hj => hn j (List.mem_cons_of_mem _ hj))]

/-- Exactly one member carries the key: its own contribution. -/
theorem childContrib_mem (all : List Change) (inComp : String → Bool) (p x : String) :
    ∀ mi : List Nat, mi.Nodup →
      (∀ i j, i ∈ mi → j ∈ mi →
        (all.getD i default).changeID = (all.getD j default).changeID → i = j) →
      ∀ i0, i0 ∈ mi → (all.getD i0 default).changeID = x →
      childContrib all inComp p x mi =
        (if inComp p = true then (all.getD i0 default).parentIDs.count p else 0) := by
  intro mi
  induction mi with
  | nil => intro _ _ i0 hi0 _; exact absurd hi0 (List.not_mem_nil i0)
  | cons i rest ih =>
    intro hnd hinj i0 hi0 hid0
    simp only [childContrib]
    rcases List.mem_cons.mp hi0 with rfl | hi0r
    · have hrest0 : childContrib all inComp p x rest = 0 := by
        apply childContrib_none
        intro j hj he
        have hji : j = i0 := hinj j i0 (List.mem_cons_of_mem _ hj)
          (List.mem_cons_self _ _) (by rw [he, hid0])
        rw [hji] at hj
        exact (List.nodup_cons.mp hnd).1 hj
      rw [hrest0]
      by_cases hp : inComp p = true
      · rw [if_pos (⟨hp, hid0⟩ : _ ∧ _), if_pos hp]
        omega
      · rw [if_neg (fun hcond => hp hcond.1), if_neg hp]
    · have hne : (all.getD i default).changeID ≠ x := by
        intro he
        have hii0 : i = i0 := hinj i i0 (List.mem_cons_self _ _)
          (List.mem_cons_of_mem _ hi0r) (by rw [he, hid0])
        have hni := (List.nodup_cons.mp hnd).1
        rw [hii0] at hni
        exact hni hi0r
      rw [if_neg (fun hcond => hne hcond.2)]
      rw [ih (List.nodup_cons.mp hnd).2
        (fun a b ha hb => hinj a b (List.mem_cons_of_mem _ ha) (List.mem_cons_of_mem _ hb))
        i0 hi0r hid0]
      omega

/-- Length of an equality-restricted in-component filter is a plain count. -/
theorem filter_eq_count (inComp : String → Bool) (p : String) (ps : List String) :
    (ps.filter (fun pid => inComp pid && pid == p)).length =
    if inComp p = true then ps.count p else 0 := by
  by_cases hp : inComp p = true
  · rw [if_pos hp]
    have hcg : ps.filter (fun pid => inComp pid && pid == p) =
        ps.filter (fun pid => pid == p) := by
      apply List.filter_congr
      intro a _
      show (inComp a && (a == p)) = (a == p)
      cases hax : (a == p) with
      | true =>
        have ha : a = p := by simpa using hax
        rw [ha, hp]
        rfl
      | false =>
        rw [Bool.and_false]
    rw [hcg, ← List.countP_eq_length_filter]
    rfl
  · rw [if_neg hp]
    have hcf : inComp p = false := by
      cases hv : inComp p with
      | false => rfl
      | true => exact absurd hv hp
    have hcg : ps.filter (fun pid => inComp pid && pid == p) = [] := by
      rw [List.filter_eq_nil]
      intro a _
      show ¬((inComp a && (a == p)) = true)
      cases hax : (a == p) with
      | true =>
        have ha : a = p := by simpa using hax
        rw [ha, hcf]
        simp
      | false =>
        simp
    rw [hcg]
    rfl

/-- `topoSort` returns a topologically ordered component whenever it
succeeds. -/
theorem topoSort_order (all : List Change) (known : List (String × Nat))
    (hall : (all.map Change.changeID).Nodup)
    (hknown : ∀ j (hj : j < all.length), known.lookup ((all.get ⟨j, hj⟩).changeID) = some j)
    (mi : List Nat) (hmiB : ∀ i ∈ mi, i < all.length) (hmiN : mi.Nodup)
    (dag : ChangeDAG) (h : topoSort all mi known = .ok dag) :
    TopoOrderedChanges dag.changes := by
  have hMD : ∀ i j, i < all.length → j < all.length →
      (all.getD i default).changeID = (all.getD j default).changeID → i = j := by
    intro i j hi hj2 he
    rw [getD_eq_get all i hi, getD_eq_get all j hj2] at he
    have h1 : (all.map Change.changeID).get
        ⟨i, by rw [List.length_map]; exact hi⟩ =
        (all.map Change.changeID).get ⟨j, by rw [List.length_map]; exact hj2⟩ := by
      rw [List.get_map, List.get_map]
      exact he
    have h2 := (List.Nodup.get_inj_iff hall).mp h1
    exact congrArg Fin.val h2
  have hchOf : ∀ i, i < all.length →
      chOfIdx all known ((all.getD i default).changeID) = all.getD i default := by
    intro i hi
    unfold chOfIdx
    have hx : (all.getD i default).changeID = (all.get ⟨i, hi⟩).changeID := by
      rw [getD_eq_get all i hi]
    rw [hx, hknown i hi]
    simp only [Option.getD_some]
  simp only [topoSort] at h
  set inComp : String → Bool :=
    fun id => mi.any (fun i => (all.getD i default).changeID == id) with hic
  set dc := buildDegChildren all inComp mi with hdc
  set queue0 := sortStrings (mi.filterMap (fun i =>
    if dc.1 ((all.getD i default).changeID) = 0 then
      some ((all.getD i default).changeID) else none)) with hq0
  have hIC : ∀ x, inComp x = true ↔
      ∃ i, i ∈ mi ∧ (all.getD i default).changeID = x := by
    intro x
    constructor
    · intro hx
      have hx2 : mi.any (fun i => (all.getD i default).changeID == x) = true := hx
      rcases List.any_eq_true.mp hx2 with ⟨i, hi, hbeq⟩
      exact ⟨i, hi, by simpa using hbeq⟩
    · rintro ⟨i, hi, he⟩
      show mi.any (fun i => (all.getD i default).changeID == x) = true
      exact List.any_eq_true.mpr ⟨i, hi, by simpa using he⟩
  have hdegdc : ∀ x,
      ((∀ i ∈ mi, (all.getD i default).changeID ≠ x) ∧ dc.1 x = 0) ∨
      (∃ i0, i0 ∈ mi ∧ (all.getD i0 default).changeID = x ∧
        dc.1 x = (((all.getD i0 default).parentIDs.filter
          (fun pid => inComp pid)).length : Int)) := by
    intro x
    have h0 := buildDegChildren_deg all inComp mi (fun _ => 0, fun _ => []) x
    rcases h0 with ⟨ha, hb⟩ | ⟨i0, hi0, hid0, hb⟩
    · exact Or.inl ⟨ha, hb⟩
    · exact Or.inr ⟨i0, hi0, hid0, hb⟩
  have hcntdc : ∀ p x, ((dc.2 p).count x) = childContrib all inComp p x mi := by
    intro p x
    have h0 := buildDegChildren_count all inComp mi (fun _ => 0, fun _ => []) p x
    have h1 : List.count x (dc.2 p) = 0 + childContrib all inComp p x mi := h0
    omega
  have hHAi : ∀ p x, (((dc.2 p).count x : Nat) : Int) ≤
      ((((chOfIdx all known x).parentIDs.filter
        (fun pid => inComp pid && pid == p)).length : Nat) : Int) := by
    intro p x
    rw [hcntdc p x]
    by_cases hex : ∃ i, i ∈ mi ∧ (all.getD i default).changeID = x
    · rcases hex with ⟨i0, hi0, hid0⟩
      have hcc := childContrib_mem all inComp p x mi hmiN
        (fun a b ha hb he => hMD a b (hmiB a ha) (hmiB b hb) he) i0 hi0 hid0
      rw [hcc]
      have hch2 : chOfIdx all known x = all.getD i0 default := by
        rw [← hid0]
        exact hchOf i0 (hmiB i0 hi0)
      rw [hch2, filter_eq_count inComp p ((all.getD i0 default).parentIDs)]
    · rw [childContrib_none all inComp p x mi (fun i hi he => hex ⟨i, hi, he⟩)]
      omega
  have hHBi : ∀ p x, x ∈ dc.2 p → (chOfIdx all known x).changeID = x := by
    intro p x hx
    have hpos : 0 < (dc.2 p).count x := List.count_pos_iff_mem.mpr hx
    rw [hcntdc] at hpos
    by_cases hex : ∃ i, i ∈ mi ∧ (all.getD i default).changeID = x
    · rcases hex with ⟨i0, hi0, hid0⟩
      have hch2 : chOfIdx all known x = all.getD i0 default := by
        rw [← hid0]
        exact hchOf i0 (hmiB i0 hi0)
      rw [hch2]
      exact hid0
    · rw [childContrib_none all inComp p x mi (fun i hi he => hex ⟨i, hi, he⟩)] at hpos
      exact absurd hpos (by decide)
  have hHB2i : ∀ p x, x ∈ dc.2 p → inComp x = true := by
    intro p x hx
    have hpos : 0 < (dc.2 p).count x := List.count_pos_iff_mem.mpr hx
    rw [hcntdc] at hpos
    by_cases hex : ∃ i, i ∈ mi ∧ (all.getD i default).changeID = x
    · exact (hIC x).mpr hex
    · rw [childContrib_none all inComp p x mi (fun i hi he => hex ⟨i, hi, he⟩)] at hpos
      exact absurd hpos (by decide)
  have hq0mem : ∀ q ∈ queue0, ∃ i, i ∈ mi ∧ (all.getD i default).changeID = q ∧
      dc.1 q = 0 := by
    intro q hq
    rw [hq0, mem_sortStrings] at hq
    rcases List.mem_filterMap.mp hq with ⟨i, hi, hfi⟩
    have hfi2 : (if dc.1 ((all.getD i default).changeID) = 0 then
        some ((all.getD i default).changeID) else none) = some q := hfi
    by_cases hdq : dc.1 ((all.getD i default).changeID) = 0
    · rw [if_pos hdq] at hfi2
      injection hfi2 with hfi3
      refine ⟨i, hi, hfi3, ?_⟩
      rw [← hfi3]
      exact hdq
    · rw [if_neg hdq] at hfi2
      cases hfi2
  have hq0N : queue0.Nodup := by
    rw [hq0]
    apply nodup_sortStrings
    apply nodup_filterMap_ids (fun i => (all.getD i default).changeID)
    · intro i x hfi
      have hfi2 : (if dc.1 ((all.getD i default).changeID) = 0 then
          some ((all.getD i default).changeID) else none) = some x := hfi
      by_cases hdq : dc.1 ((all.getD i default).changeID) = 0
      · rw [if_pos hdq] at hfi2
        injection hfi2 with hfi3
        exact hfi3.symm
      · rw [if_neg hdq] at hfi2
        cases hfi2
    · intro a b ha hb he
      exact hMD a b (hmiB a ha) (hmiB b hb) he
    · exact hmiN
  cases hk : kahnLoop all known dc.2 (mi.length + 1) queue0 dc.1 [] [] with
  | none =>
    rw [hk] at h
    have h2 : (Except.error "cycle detected in change graph" :
        Except String ChangeDAG) = .ok dag := h
    cases h2
  | some pr =>
    obtain ⟨sorted, byID⟩ := pr
    rw [hk] at h
    have h2 : (if sorted.length ≠ mi.length then
        (Except.error "cycle detected in change graph" : Except String ChangeDAG)
      else .ok ⟨sorted, byID⟩) = .ok dag := h
    by_cases hlen : sorted.length ≠ mi.length
    · rw [if_pos hlen] at h2
      cases h2
    · rw [if_neg hlen] at h2
      injection h2 with h3
      subst h3
      have hFresh0 : ∀ q ∈ queue0, q ∉ (([] : List Change)).map Change.changeID := by
        intro q _ hmem
        simp at hmem
      have hCh0 : ∀ q ∈ queue0, (chOfIdx all known q).changeID = q := by
        intro q hq
        rcases hq0mem q hq with ⟨i, hi, hidq, _⟩
        rw [← hidq]
        exact congrArg Change.changeID (hchOf i (hmiB i hi))
      have hQC0 : ∀ q ∈ queue0, inComp q = true := by
        intro q hq
        rcases hq0mem q hq with ⟨i, hi, hidq, _⟩
        exact (hIC q).mpr ⟨i, hi, hidq⟩
      have hPar0 : ∀ q ∈ queue0, ∀ pid ∈ (chOfIdx all known q).parentIDs,
          inComp pid = true → pid ∈ (([] : List Change)).map Change.changeID := by
        intro q hq pid hpid hpc
        exfalso
        rcases hq0mem q hq with ⟨i, hi, hidq, hdq⟩
        rcases hdegdc q with ⟨hnone, _⟩ | ⟨i0, hi0, hid0, hb⟩
        · exact hnone i hi hidq
        · rw [hb] at hdq
          have hlen0 : ((all.getD i0 default).parentIDs.filter
              (fun pid => inComp pid)).length = 0 := by omega
          rw [List.length_eq_zero] at hlen0
          have hch2 : chOfIdx all known q = all.getD i0 default := by
            rw [← hid0]
            exact hchOf i0 (hmiB i0 hi0)
          rw [hch2] at hpid
          have hmemf : pid ∈ (all.getD i0 default).parentIDs.filter
              (fun pid => inComp pid) := by
            rw [List.mem_filter]
            exact ⟨hpid, hpc⟩
          rw [hlen0] at hmemf
          exact absurd hmemf (List.not_mem_nil pid)
      have hQD0 : ∀ q ∈ queue0, dc.1 q ≤ 0 := by
        intro q hq
        rcases hq0mem q hq with ⟨_, _, _, hdq⟩
        exact le_of_eq hdq
      have hSD0 : ∀ x ∈ (([] : List Change)).map Change.changeID, dc.1 x ≤ 0 := by
        intro x hx
        simp at hx
      have hSC0 : ∀ x ∈ (([] : List Change)).map Change.changeID, inComp x = true := by
        intro x hx
        simp at hx
      have hLB0 : ∀ x, inComp x = true →
          x ∉ (([] : List Change)).map Change.changeID →
          ((degModelAt all known inComp ((([] : List Change)).map Change.changeID)
            x : Nat) : Int) ≤ dc.1 x := by
        intro x hxC _
        rcases (hIC x).mp hxC with ⟨i0, hi0, hid0⟩
        rcases hdegdc x with ⟨hnone, _⟩ | ⟨i1, hi1, hid1, hb⟩
        · exact absurd hid0 (hnone i0 hi0)
        · rw [hb]
          have hch2 : chOfIdx all known x = all.getD i1 default := by
            rw [← hid1]
            exact hchOf i1 (hmiB i1 hi1)
          have hdm : degModelAt all known inComp
              ((([] : List Change)).map Change.changeID) x =
              ((all.getD i1 default).parentIDs.filter
                (fun pid => inComp pid)).length := by
            unfold degModelAt
            rw [hch2]
            apply congrArg
            apply List.filter_congr
            intro a _
            show (inComp a &&
              !(((([] : List Change)).map Change.changeID).contains a)) = inComp a
            rw [show ((([] : List Change)).map Change.changeID).contains a = false
              from rfl]
            simp
          rw [hdm]
      have hOrd0 : ∀ j (hj : j < ([] : List Change).length),
          ∀ pid ∈ (([] : List Change).get ⟨j, hj⟩).parentIDs,
          inComp pid = true →
          pid ∈ ((([] : List Change)).map Change.changeID).take j := by
        intro j hj
        exact absurd hj (Nat.not_lt_zero _)
      obtain ⟨hOrdF, hCompF⟩ := kahnLoop_order all known dc.2 inComp hHAi hHBi hHB2i
        (mi.length + 1) queue0 dc.1 [] [] (sorted, byID) hk hq0N hFresh0 hCh0 hQC0
        hPar0 hQD0 hSD0 hSC0 hLB0 hOrd0
      intro j hj pid hpid hmem
      have hpc : inComp pid = true := hCompF pid hmem
      exact indexOf_lt_of_mem_take (hOrdF j hj pid hpid hpc)

/-- Every DAG emitted by the per-component loop is topologically ordered. -/
theorem dagsLoop_order (changes : List Change) (known : List (String × Nat))
    (parent : List Nat)
    (hall : (changes.map Change.changeID).Nodup)
    (hknown : ∀ j (hj : j < changes.length),
      known.lookup ((changes.get ⟨j, hj⟩).changeID) = some j) :
    ∀ (roots : List Nat) (dags : List ChangeDAG),
      dagsLoop changes known parent roots = .ok dags →
      ∀ dag ∈ dags, TopoOrderedChanges dag.changes := by
  intro roots
  induction roots with
  | nil =>
    intro dags h dag hdag
    simp only [dagsLoop] at h
    injection h with h2
    subst h2
    cases hdag
  | cons r rest ih =>
    intro dags h dag hdag
    simp only [dagsLoop] at h
    cases ht : topoSort changes (membersOf changes parent r) known with
    | error e =>
      rw [ht] at h
      have h2 : (Except.error e : Except String (List ChangeDAG)) = .ok dags := h
      cases h2
    | ok dag2 =>
      rw [ht] at h
      cases ht2 : dagsLoop changes known parent rest with
      | error e =>
        rw [ht2] at h
        have h2 : (Except.error e : Except String (List ChangeDAG)) = .ok dags := h
        cases h2
      | ok ds =>
        rw [ht2] at h
        have h2 : (Except.ok (dag2 :: ds) : Except String (List ChangeDAG)) =
            .ok dags := h
        injection h2 with h3
        subst h3
        have hmiB : ∀ i ∈ membersOf changes parent r, i < changes.length := by
          intro i hi
          unfold membersOf at hi
          rw [List.mem_filter] at hi
          exact List.mem_range.mp hi.1
        have hmiN : (membersOf changes parent r).Nodup := by
          unfold membersOf
          exact List.Nodup.filter _ (List.nodup_range _)
        rcases List.mem_cons.mp hdag with rfl | hdag2
        · exact topoSort_order changes known hall hknown
            (membersOf changes parent r) hmiB hmiN dag ht
        · exact ih ds ht2 dag hdag2

/-- C7: whenever `BuildDAGs` accepts a change list (distinct ids, no cycle in
any component), every returned DAG lists its changes in topological order:
each parent referenced by a member that is itself a member of the same DAG
appears strictly earlier in the DAG's change list. -/
theorem buildDAGs_topo_order (changes : List Change) (dags : List ChangeDAG)
    (h : BuildDAGs changes = .ok dags) :
    ∀ dag ∈ dags, TopoOrderedChanges dag.changes := by
  intro dag hdag
  simp only [BuildDAGs] at h
  by_cases hemp : changes.isEmpty = true
  · rw [if_pos hemp] at h
    have h2 : (Except.ok [] : Except String (List ChangeDAG)) = .ok dags := h
    injection h2 with h3
    subst h3
    cases hdag
  · rw [if_neg hemp] at h
    cases hbk : buildKnown changes 0 [] with
    | error e =>
      rw [hbk] at h
      have h2 : (Except.error e : Except String (List ChangeDAG)) = .ok dags := h
      cases h2
    | ok known =>
      rw [hbk] at h
      obtain ⟨hknown, hall⟩ := buildKnown_main hbk
      have h2 : dagsLoop changes known (unionAll changes known)
          (rootsOf changes (unionAll changes known)) = .ok dags := h
      exact dagsLoop_order changes known (unionAll changes known) hall hknown
        (rootsOf changes (unionAll changes known)) dags h2 dag hdag

/-- C7 witness: a two-change input given child-first is reordered so that the
parent `a` precedes the child `b`, and the resulting DAG is topologically
ordered. -/
theorem buildDAGs_topo_order_witness :
    TopoOrderedChanges [⟨"a", "ca", "da", [], []⟩, ⟨"b", "cb", "db", ["a"], []⟩] :=
  buildDAGs_topo_order
    [⟨"b", "cb", "db", ["a"], []⟩, ⟨"a", "ca", "da", [], []⟩]
    [⟨[⟨"a", "ca", "da", [], []⟩, ⟨"b", "cb", "db", ["a"], []⟩],
      [("a", ⟨"a", "ca", "da", [], []⟩), ("b", ⟨"b", "cb", "db", ["a"], []⟩)]⟩]
    (by decide)
    ⟨[⟨"a", "ca", "da", [], []⟩, ⟨"b", "cb", "db", ["a"], []⟩],
      [("a", ⟨"a", "ca", "da", [], []⟩), ("b", ⟨"b", "cb", "db", ["a"], []⟩)]⟩
    (by decide)

end Jip
